import Mathlib

/-!
# donut: the DNS wire-format codec

A shallow embedding of `message.go` (package `donut`): the encoder
(`encodeMessage`, `encodeQuestion`, `binaryBigEndianUint16`) and the decoder
(`parseMessage`, `decodeQuestion`, `decodeAnswer`, `parseName`).

Conventions of the embedding.

* A byte is a natural number below 256; `[]byte` values and the contents of
  Go strings are lists of bytes.
* A slice that is only read is its visible bytes together with the bytes of
  the backing array between its length and its capacity: Go checks an index
  against the length and the upper bound of a slice expression `s[lo:hi]`
  against the capacity.
* A run of the decoder returns a value, stops with a run-time panic (index or
  slice bounds out of range), or exhausts the evaluation budget `fuel`; one
  unit of fuel pays for one iteration of the loop of `parseName`, and a
  recursive call of `parseName` runs on the fuel that is left. A run that no
  amount of fuel lets end is a run that does not terminate.
-/

namespace Donut

/-- Bytes of a `[]byte` or of a Go string. -/
abbrev Bytes := List Nat

/-- Result of running decoder code: a value, a run-time panic (index or slice
bounds out of range), or an exhausted evaluation budget. -/
inductive Run (α : Type) where
  | ok (a : α) : Run α
  | panic : Run α
  | timeout : Run α
  deriving DecidableEq, Repr

/-- Sequencing of runs: a panic or an exhausted budget ends the run. -/
def Run.bind {α β : Type} (x : Run α) (f : α → Run β) : Run β :=
  match x with
  | .ok a => f a
  | .panic => .panic
  | .timeout => .timeout

instance : Monad Run where
  pure := Run.ok
  bind := Run.bind

/-- A byte slice that is only read: the `len` visible bytes and the bytes of
the backing array between `len` and `cap`. -/
structure Slice where
  data : Bytes
  spare : Bytes
  deriving DecidableEq, Repr

/-- Go `len(s)`. -/
def Slice.len (s : Slice) : Nat := s.data.length

/-- Go `cap(s)`. -/
def Slice.cap (s : Slice) : Nat := s.data.length + s.spare.length

/-- Go `s[i]`: the index is checked against the length. -/
def Slice.index (s : Slice) (i : Nat) : Run Nat :=
  match s.data[i]? with
  | some b => .ok b
  | none => .panic

/-- Go `s[lo:hi]`: the bounds are checked against the capacity. -/
def Slice.slice (s : Slice) (lo hi : Nat) : Run Slice :=
  if lo ≤ hi ∧ hi ≤ s.cap then
    .ok ⟨((s.data ++ s.spare).drop lo).take (hi - lo), (s.data ++ s.spare).drop hi⟩
  else .panic

/-- Go `s[lo:]`: the upper bound is the length. -/
def Slice.sliceFrom (s : Slice) (lo : Nat) : Run Slice :=
  if lo ≤ s.len then .ok ⟨s.data.drop lo, s.spare⟩ else .panic

/-- Go `binary.BigEndian.Uint16(b)`. -/
def bigEndianUint16 (b : Slice) : Run Nat := do
  let b1 ← b.index 1
  let b0 ← b.index 0
  pure (b1 ||| (b0 <<< 8))

/-- Go `binary.BigEndian.Uint32(b)`. -/
def bigEndianUint32 (b : Slice) : Run Nat := do
  let b3 ← b.index 3
  let b0 ← b.index 0
  let b1 ← b.index 1
  let b2 ← b.index 2
  pure (b3 ||| (b2 <<< 8) ||| (b1 <<< 16) ||| (b0 <<< 24))

/-- The `Question` struct; `Typ` and `Cls` are the `uint16` fields `Type` and
`Class`. -/
structure Question where
  FQDN : Bytes
  Typ : Nat
  Cls : Nat
  deriving DecidableEq, Repr

/-- The `Record` struct; `Data` holds the RDATA bytes. -/
structure Record where
  Name : Bytes
  Typ : Nat
  Cls : Nat
  TTL : Nat
  Data : Bytes
  deriving DecidableEq, Repr

/-- Record type `A`. -/
def A : Nat := 1

/-- Record class `IN`. -/
def IN : Nat := 1

/-- The byte of `.`. -/
def dot : Nat := 46

/-! ## Encoder -/

/-- `binaryBigEndianUint16`: the two bytes of a `uint16`, high byte first. -/
def binaryBigEndianUint16 (v : Nat) : Bytes := [v / 256 % 256, v % 256]

/-- Go `strings.Split(s, ".")`: the pieces of `s` between the dots, one more
than there are dots. -/
def stringsSplit : Bytes → List Bytes
  | [] => [[]]
  | c :: cs =>
    if c = dot then [] :: stringsSplit cs
    else
      match stringsSplit cs with
      | [] => [[c]]
      | l :: ls => (c :: l) :: ls

/-- The loop of `encodeQuestion`: each label preceded by `byte(len(label))`. -/
def encodeLabels : List Bytes → Bytes
  | [] => []
  | label :: rest => (label.length % 256) :: (label ++ encodeLabels rest)

/-- `encodeQuestion`. -/
def encodeQuestion (q : Question) : Bytes :=
  encodeLabels (stringsSplit q.FQDN) ++ [0]
    ++ binaryBigEndianUint16 q.Typ ++ binaryBigEndianUint16 q.Cls

/-- The question loop of `encodeMessage`. -/
def encodeQuestions : List Question → Bytes
  | [] => []
  | question :: rest => encodeQuestion question ++ encodeQuestions rest

/-- `encodeMessage`; `uint16(len(q))` keeps the low 16 bits of the count. -/
def encodeMessage (q : List Question) : Bytes :=
  [0, 0]
    ++ [(0 <<< 7) ||| (0 <<< 3) ||| (0 <<< 1) ||| 1]
    ++ [1 <<< 4]
    ++ binaryBigEndianUint16 (q.length % 65536)
    ++ [0, 0] ++ [0, 0] ++ [0, 0]
    ++ encodeQuestions q

/-! ## Decoder -/

/-- The loop of `parseName` on the slice `b`, with the name and the offset
reached so far; `m` is the whole message `m.buf`. -/
def parseNameLoop (m : Slice) : Nat → Slice → Bytes → Nat → Run (Bytes × Nat)
  | 0, _, _, _ => .timeout
  | fuel + 1, b, name, offset => do
    let length ← b.index offset
    if length = 0 then
      pure (name, offset + 1)
    else if length &&& 0xC0 = 0xC0 then
      let hi ← b.index offset
      let lo ← b.index (offset + 1)
      let ptr := (← bigEndianUint16 ⟨[hi, lo], []⟩) &&& 0x3FFF
      let target ← m.sliceFrom ptr
      let (pointed, _) ← parseNameLoop m fuel target [] 0
      pure (pointed, 2)
    else
      let label ← b.slice (offset + 1) (offset + 1 + length)
      parseNameLoop m fuel b (name ++ label.data ++ [dot]) (offset + 1 + length)

/-- `parseName`. -/
def parseName (m : Slice) (fuel : Nat) (b : Slice) : Run (Bytes × Nat) :=
  parseNameLoop m fuel b [] 0

/-- `decodeQuestion`. -/
def decodeQuestion (m : Slice) (fuel : Nat) (q : Slice) : Run (Question × Nat) := do
  let (name, offset) ← parseName m fuel q
  let qtype ← bigEndianUint16 (← q.slice offset (offset + 2))
  let qclass ← bigEndianUint16 (← q.slice (offset + 2) (offset + 4))
  pure (⟨name, qtype, qclass⟩, offset + 4)

/-- `decodeAnswer`. -/
def decodeAnswer (m : Slice) (fuel : Nat) (a : Slice) : Run (Record × Nat) := do
  let (name, offset) ← parseName m fuel a
  let qtype ← bigEndianUint16 (← a.slice offset (offset + 2))
  let qclass ← bigEndianUint16 (← a.slice (offset + 2) (offset + 4))
  let ttl ← bigEndianUint32 (← a.slice (offset + 4) (offset + 8))
  let rdlength ← bigEndianUint16 (← a.slice (offset + 8) (offset + 10))
  let rdata ← a.slice (offset + 10) (offset + 10 + rdlength)
  pure (⟨name, qtype, qclass, ttl, rdata.data⟩, offset + 10 + rdlength)

/-- The question loop of `parseMessage`: `count` questions are decoded and
dropped from the cursor `buf`. -/
def skipQuestions (m : Slice) (fuel : Nat) : Nat → Slice → Run Slice
  | 0, buf => pure buf
  | count + 1, buf => do
    let (_, offset) ← decodeQuestion m fuel buf
    let buf ← buf.sliceFrom offset
    skipQuestions m fuel count buf

/-- The answer loop of `parseMessage`: `count` answers are decoded in order. -/
def decodeAnswers (m : Slice) (fuel : Nat) : Nat → Slice → Run (List Record)
  | 0, _ => pure []
  | count + 1, buf => do
    let (answer, offset) ← decodeAnswer m fuel buf
    let buf ← buf.sliceFrom offset
    let rest ← decodeAnswers m fuel count buf
    pure (answer :: rest)

/-- `parseMessage`: the records and the `error` result, which the code always
returns as `nil` (`none`). -/
def parseMessage (m : Slice) (fuel : Nat) : Run (List Record × Option String) := do
  let qdcount ← bigEndianUint16 (← m.slice 4 6)
  let ancount ← bigEndianUint16 (← m.slice 6 8)
  let buf ← m.sliceFrom 12
  let buf ← skipQuestions m fuel qdcount buf
  let answers ← decodeAnswers m fuel ancount buf
  pure (answers, none)

/-! ## Wire forms used to state the properties -/

/-- Labels in presentation form: each label followed by a dot. -/
def dotted : List Bytes → Bytes
  | [] => []
  | l :: ls => l ++ dot :: dotted ls

/-- Four bytes of a 32-bit value, high byte first (the wire form of a TTL). -/
def bigEndianBytes32 (v : Nat) : Bytes :=
  [v / 16777216 % 256, v / 65536 % 256, v / 256 % 256, v % 256]

/-- A question as it stands on the wire with an inline name: the labels of
QNAME, QTYPE and QCLASS. -/
structure WireQuestion where
  labels : List Bytes
  typ : Nat
  cls : Nat
  deriving DecidableEq, Repr

/-- An answer as it stands on the wire with an inline name: the labels of
NAME, TYPE, CLASS, TTL and the RDATA bytes (RDLENGTH is their number). -/
structure WireAnswer where
  labels : List Bytes
  typ : Nat
  cls : Nat
  ttl : Nat
  rdata : Bytes
  deriving DecidableEq, Repr

/-- Every label has between 1 and 63 bytes. -/
def validLabels (labels : List Bytes) : Prop :=
  ∀ l ∈ labels, 0 < l.length ∧ l.length ≤ 63

instance (labels : List Bytes) : Decidable (validLabels labels) :=
  inferInstanceAs (Decidable (∀ l ∈ labels, 0 < l.length ∧ l.length ≤ 63))

/-- Labels of 1 to 63 bytes and 16-bit QTYPE and QCLASS. -/
def WireQuestion.valid (q : WireQuestion) : Prop :=
  validLabels q.labels ∧ q.typ < 65536 ∧ q.cls < 65536

instance (q : WireQuestion) : Decidable q.valid :=
  inferInstanceAs (Decidable (validLabels q.labels ∧ q.typ < 65536 ∧ q.cls < 65536))

/-- Labels of 1 to 63 bytes, 16-bit TYPE and CLASS, 32-bit TTL and fewer than
65536 bytes of RDATA. -/
def WireAnswer.valid (a : WireAnswer) : Prop :=
  validLabels a.labels ∧ a.typ < 65536 ∧ a.cls < 65536 ∧ a.ttl < 4294967296
    ∧ a.rdata.length < 65536

instance (a : WireAnswer) : Decidable a.valid :=
  inferInstanceAs (Decidable (validLabels a.labels ∧ a.typ < 65536 ∧ a.cls < 65536
    ∧ a.ttl < 4294967296 ∧ a.rdata.length < 65536))

/-- Fixed part of an answer after its name: TYPE, CLASS, TTL, RDLENGTH, then
the bytes `rest` that follow the RDLENGTH field. -/
def wireFixed (typ cls ttl rdlength : Nat) (rest : Bytes) : Bytes :=
  binaryBigEndianUint16 typ ++ (binaryBigEndianUint16 cls ++ (bigEndianBytes32 ttl
    ++ (binaryBigEndianUint16 rdlength ++ rest)))

/-- Wire bytes of a question: inline name, zero octet, QTYPE, QCLASS. -/
def WireQuestion.encode (q : WireQuestion) : Bytes :=
  encodeLabels q.labels ++ 0 :: (binaryBigEndianUint16 q.typ ++ binaryBigEndianUint16 q.cls)

/-- Wire bytes of an answer: inline name, zero octet, TYPE, CLASS, TTL,
RDLENGTH, RDATA. -/
def WireAnswer.encode (a : WireAnswer) : Bytes :=
  encodeLabels a.labels ++ 0 :: wireFixed a.typ a.cls a.ttl a.rdata.length a.rdata

/-- The record an answer stands for. -/
def WireAnswer.record (a : WireAnswer) : Record :=
  ⟨dotted a.labels, a.typ, a.cls, a.ttl, a.rdata⟩

/-- Wire bytes of a question section. -/
def encodeWireQuestions : List WireQuestion → Bytes
  | [] => []
  | q :: qs => q.encode ++ encodeWireQuestions qs

/-- Wire bytes of an answer section. -/
def encodeWireAnswers : List WireAnswer → Bytes
  | [] => []
  | a :: as => a.encode ++ encodeWireAnswers as

/-- A 12-byte header: `idFlags` are bytes 0..3 (ID and flags), then QDCOUNT and
ANCOUNT, then `nsAr`, bytes 8..11 (NSCOUNT and ARCOUNT). -/
def wireHeader (idFlags : Bytes) (qdcount ancount : Nat) (nsAr : Bytes) : Bytes :=
  idFlags ++ (binaryBigEndianUint16 qdcount ++ (binaryBigEndianUint16 ancount ++ nsAr))

/-- Bytes 4..5 of a message read as a big-endian unsigned 16-bit integer. -/
def qdcountField (msg : Bytes) : Nat := msg.getD 4 0 * 256 + msg.getD 5 0

/-! ## Concrete messages -/

/-- The bytes of `example`. -/
def exampleLabel : Bytes := [101, 120, 97, 109, 112, 108, 101]

/-- The bytes of `com`. -/
def comLabel : Bytes := [99, 111, 109]

/-- The bytes of `example.com`. -/
def exampleName : Bytes := exampleLabel ++ dot :: comLabel

/-- `Question{FQDN: "example.com", Type: A, Class: IN}`. -/
def exampleQuestion : Question := ⟨exampleName, A, IN⟩

/-- The question `example.com A IN` as it stands on the wire. -/
def exampleWireQuestion : WireQuestion := ⟨[exampleLabel, comLabel], A, IN⟩

/-- The answer `example.com A IN`, TTL 300, RDATA `93 B8 D8 22`, as it stands
on the wire with an inline name. -/
def exampleWireAnswer : WireAnswer :=
  ⟨[exampleLabel, comLabel], A, IN, 300, [0x93, 0xB8, 0xD8, 0x22]⟩

/-- `Question{FQDN: "a", Type: A, Class: IN}`. -/
def shortQuestion : Question := ⟨[97], A, IN⟩

/-- A response to the question `com A IN` whose answer, at offset 21, is named
by the label `a` followed by the pointer `C0 0C`: `a.com A IN`, TTL 0, RDATA
`5D B8 D8 22`. -/
def labelPointerResponse : Bytes :=
  [0, 0, 0x81, 0x80, 0, 1, 0, 1, 0, 0, 0, 0,
    3, 99, 111, 109, 0, 0, 1, 0, 1,
    1, 97, 0xC0, 0x0C, 0, 1, 0, 1, 0, 0, 0, 0, 0, 4, 0x5D, 0xB8, 0xD8, 0x22]

/-- A buffer whose only pointer, at position 2, points back to position 0:
the label `a` followed by `C0 00`. -/
def loopBuffer : Bytes := [1, 97, 0xC0, 0]

/-! ## Pointers and name walks -/

/-- The 14-bit offset that `parseName` reads from a pointer standing at
position `pos` of the buffer. -/
def pointerOffset (buf : Bytes) (pos : Nat) : Nat :=
  (buf.getD (pos + 1) 0 ||| (buf.getD pos 0 <<< 8)) &&& 0x3FFF

/-- Every octet of the buffer that has its two top bits set, read as a
compression pointer, has an offset strictly less than its own position. -/
def pointersBackward (buf : Bytes) : Prop :=
  ∀ pos < buf.length, buf.getD pos 0 &&& 0xC0 = 0xC0 → pointerOffset buf pos < pos

instance (buf : Bytes) : Decidable (pointersBackward buf) :=
  inferInstanceAs (Decidable (∀ pos < buf.length,
    buf.getD pos 0 &&& 0xC0 = 0xC0 → pointerOffset buf pos < pos))

/-- The position at which reading inline labels from position `pos` stops: the
first length octet that is zero or has its two top bits set; `none` when the
walk leaves the buffer (or takes more than `steps` labels). -/
def nameStop (buf : Bytes) : Nat → Nat → Option Nat
  | 0, _ => none
  | steps + 1, pos =>
    match buf[pos]? with
    | none => none
    | some length =>
      if length = 0 ∨ length &&& 0xC0 = 0xC0 then some pos
      else nameStop buf steps (pos + 1 + length)

/-- The compression pointers that `parseName` follows from position `pos`
point backwards: the run of inline labels that starts at `pos` ends in a zero
octet or leaves the buffer, or it ends in a compression pointer whose 14-bit
offset is strictly less than `pos`, the start of the name that it ends, and
from that offset the same holds. At most `depth` names are visited; offsets
that decrease from `pos` visit at most `pos + 1` of them. -/
def pointerChainBackward (buf : Bytes) : Nat → Nat → Bool
  | 0, _ => false
  | depth + 1, pos =>
    match nameStop buf buf.length pos with
    | none => true
    | some stop =>
      if buf.getD stop 0 &&& 0xC0 = 0xC0 then
        decide (pointerOffset buf stop < pos)
          && pointerChainBackward buf depth (pointerOffset buf stop)
      else true

/-- Following the compression pointers from position `pos`, at most `depth`
names are visited before one ends: the run of inline labels that starts at
`pos` ends in a zero octet, or leaves the buffer, or ends in a pointer whose
second byte is missing or whose 14-bit offset is beyond the end of the buffer
(`parseName` panics there), or it ends in a pointer from whose offset at most
`depth - 1` names are visited before one ends. -/
def pointerChainEnds (buf : Bytes) : Nat → Nat → Bool
  | 0, _ => false
  | depth + 1, pos =>
    match nameStop buf buf.length pos with
    | none => true
    | some stop =>
      if buf.getD stop 0 &&& 0xC0 = 0xC0 then
        if stop + 1 < buf.length ∧ pointerOffset buf stop ≤ buf.length then
          pointerChainEnds buf depth (pointerOffset buf stop)
        else true
      else true

/-- The response to `example.com A IN` whose answer, at offset 29, is named by
the pointer `C0 0C`: TTL 300 and RDATA `93 B8 D8 22`. -/
def pointerResponse : Bytes :=
  [0, 0, 0x81, 0x80, 0, 1, 0, 1, 0, 0, 0, 0,
    7, 101, 120, 97, 109, 112, 108, 101, 3, 99, 111, 109, 0, 0, 1, 0, 1,
    0xC0, 0x0C, 0, 1, 0, 1, 0, 0, 1, 0x2C, 0, 4, 0x93, 0xB8, 0xD8, 0x22]

/-- A response to `example.com A IN` whose answer, named by the pointer
`C0 0C`, announces 4 bytes of RDATA and ends right after the RDLENGTH field. -/
def overrunResponse : Bytes :=
  [0, 0, 0x81, 0x80, 0, 1, 0, 1, 0, 0, 0, 0,
    7, 101, 120, 97, 109, 112, 108, 101, 3, 99, 111, 109, 0, 0, 1, 0, 1,
    0xC0, 0x0C, 0, 1, 0, 1, 0, 0, 1, 0x2C, 0, 4]

/-! ## Walking the question section -/

/-- A question whose FQDN is made of labels of 1 to 63 bytes and whose Type and
Class are 16-bit values. -/
def Question.valid (q : Question) : Prop :=
  validLabels (stringsSplit q.FQDN) ∧ q.Typ < 65536 ∧ q.Cls < 65536

instance (q : Question) : Decidable q.valid :=
  inferInstanceAs (Decidable (validLabels (stringsSplit q.FQDN) ∧ q.Typ < 65536
    ∧ q.Cls < 65536))

/-- The wire form of a question: the labels `encodeQuestion` writes. -/
def Question.wire (q : Question) : WireQuestion := ⟨stringsSplit q.FQDN, q.Typ, q.Cls⟩

/-- The question loop of `parseMessage` with the decoded questions kept:
`count` times `decodeQuestion` and `buf = buf[offset:]`; the questions in order
and the cursor that is left. -/
def walkQuestions (m : Slice) (fuel : Nat) : Nat → Slice → Run (List Question × Slice)
  | 0, buf => pure ([], buf)
  | count + 1, buf => do
    let (question, offset) ← decodeQuestion m fuel buf
    let buf ← buf.sliceFrom offset
    let (rest, buf) ← walkQuestions m fuel count buf
    pure (question :: rest, buf)

/-- Position, in the QNAME that `encodeQuestion` writes for these labels, of
the length octet of label number `i`, and of the terminating octet when `i` is
the number of labels. -/
def lengthOctetPosition (labels : List Bytes) (i : Nat) : Nat :=
  ((labels.take i).map (fun label => 1 + label.length)).sum

/-- A question whose FQDN is one label of 64 bytes. -/
def longLabelQuestion : Question := ⟨List.replicate 64 97, A, IN⟩

/-! ## Counting the answers -/

/-- Bytes 6..7 of a message read as a big-endian unsigned 16-bit integer. -/
def ancountField (msg : Bytes) : Nat := msg.getD 6 0 * 256 + msg.getD 7 0

/-- The answer loop of `parseMessage` with, next to each record, the cursor
advance that `decodeAnswer` returned for it. -/
def decodeAnswersSteps (m : Slice) (fuel : Nat) : Nat → Slice → Run (List (Record × Nat))
  | 0, _ => pure []
  | count + 1, buf => do
    let (answer, offset) ← decodeAnswer m fuel buf
    let buf ← buf.sliceFrom offset
    let rest ← decodeAnswersSteps m fuel count buf
    pure ((answer, offset) :: rest)

/-- The response with one A record for `example.com`, TTL 300 and RDATA
`93 B8 D8 22`, its name inline. -/
def exampleResponse : Bytes :=
  [0, 0, 0x81, 0x80, 0, 1, 0, 1, 0, 0, 0, 0,
    7, 101, 120, 97, 109, 112, 108, 101, 3, 99, 111, 109, 0, 0, 1, 0, 1,
    7, 101, 120, 97, 109, 112, 108, 101, 3, 99, 111, 109, 0, 0, 1, 0, 1,
    0, 0, 1, 0x2C, 0, 4, 0x93, 0xB8, 0xD8, 0x22]

/-! ## A question named by a forward pointer -/

/-- A header with QDCOUNT 1 and ANCOUNT 0 and a question whose QNAME is the
pointer `C0 14`, to offset 20, with QTYPE A and QCLASS IN: 18 bytes, the
question section ends at offset 18. -/
def forwardPointerQuestion : Bytes :=
  [0, 0, 0x81, 0x80, 0, 1, 0, 0, 0, 0, 0, 0, 0xC0, 0x14, 0, 1, 0, 1]

/-! ## Resolver (`resolver.go`, `options.go`)

The HTTPS exchange is outside the package: `http.NewRequest`, `client.Do` and
`io.ReadAll` are taken as a `Network`, which says whether building a request
fails, what a client answers to a request, and what reading the body of a
response gives. The debug prints to standard output are not part of the
model. -/

/-- The bytes of an ASCII text. -/
def ascii (s : String) : Bytes := s.toList.map Char.toNat

/-- `CloudflareHost`. -/
def CloudflareHost : Bytes := ascii "cloudflare-dns.com"

/-- `GoogleHost`. -/
def GoogleHost : Bytes := ascii "dns.google"

/-- A `*http.Client` that is not nil: `http.DefaultClient`, or another one. -/
inductive Client where
  | DefaultClient : Client
  | other (id : Nat) : Client
  deriving DecidableEq, Repr

/-- The `Resolver` struct; a nil `client` is `none`. -/
structure Resolver where
  Host : Bytes
  debug : Bool
  client : Option Client
  deriving DecidableEq, Repr

/-- The `option` type, `func(r *Resolver)`: what it does to the Resolver. -/
abbrev option := Resolver → Resolver

/-- `WithDebug()`. -/
def WithDebug : option := fun r => { r with debug := true }

/-- `WithClient(c)`; `c` may be nil. -/
def WithClient (c : Option Client) : option := fun r => { r with client := c }

/-- `New`: the options are applied in order to `&Resolver{Host: host}`. -/
def New (host : Bytes) (opts : List option) : Resolver :=
  opts.foldl (fun r opt => opt r) ⟨host, false, none⟩

/-- An `*http.Request`: method, URL, header and the bytes of the body. -/
structure Request where
  Method : Bytes
  URL : Bytes
  Header : List (Bytes × Bytes)
  Body : Bytes
  deriving DecidableEq, Repr

/-- `req.Header.Set(key, value)`: the value replaces the ones under the key. -/
def Request.setHeader (req : Request) (key value : Bytes) : Request :=
  { req with Header := req.Header.filter (fun kv => kv.1 ≠ key) ++ [(key, value)] }

/-- An `*http.Response`: the status code, and what `io.ReadAll(resp.Body)`
returns, the bytes read (as a slice, with its spare capacity) or an error. -/
structure Response where
  StatusCode : Nat
  Body : Except String Slice

/-- The world of `net/http`: the error of `http.NewRequest(method, url, body)`
if it has one, and the outcome of `client.Do(req)`, an error or a response. -/
structure Network where
  requestError : Bytes → Bytes → Option String
  Do : Client → Request → Except String Response

/-- The URL of the query endpoint of the Resolver. -/
def Resolver.url (r : Resolver) : Bytes := ascii "https://" ++ r.Host ++ ascii "/dns-query"

/-- The request that `lookup` builds and sends: a POST of the query to the
endpoint with the two `application/dns-message` headers. -/
def Resolver.request (r : Resolver) (query : Bytes) : Request :=
  ((Request.mk (ascii "POST") r.url [] query).setHeader (ascii "Accept")
    (ascii "application/dns-message")).setHeader (ascii "Content-Type")
    (ascii "application/dns-message")

/-- `Resolver.lookup`: the Resolver as the call leaves it, and the message or
the error returned. -/
def Resolver.lookup (net : Network) (r : Resolver) (query : Bytes) :
    Resolver × Except String Slice :=
  match net.requestError (ascii "POST") r.url with
  | some err => (r, .error err)
  | none =>
    let req := r.request query
    let r := if r.client = none then { r with client := some Client.DefaultClient } else r
    match net.Do (r.client.getD Client.DefaultClient) req with
    | .error err => (r, .error err)
    | .ok resp =>
      if resp.StatusCode ≠ 200 then
        (r, .error ("unexpected status code: " ++ toString resp.StatusCode))
      else
        match resp.Body with
        | .error err => (r, .error err)
        | .ok buf => (r, .ok buf)

/-- `Resolver.Lookup`: the records and the error returned, or the panic of
`parseMessage`. -/
def Resolver.Lookup (net : Network) (fuel : Nat) (r : Resolver) (q : Question) :
    Resolver × Run (List Record × Option String) :=
  match r.lookup net (encodeMessage [q]) with
  | (r, .error err) => (r, .ok ([], some err))
  | (r, .ok msg) => (r, parseMessage msg fuel)

/-- `Resolver.LookupRaw`: the buffer of the message, or the error. -/
def Resolver.LookupRaw (net : Network) (r : Resolver) (q : Bytes) :
    Resolver × Except String Slice :=
  match r.lookup net q with
  | (r, .error err) => (r, .error err)
  | (r, .ok msg) => (r, .ok msg)

/-! ## Proxy (`internal/cmd/proxy.go`) -/

/-- How a call ends: it returns, or it panics with a value. -/
inductive Ended where
  | returned : Ended
  | panicked (value : String) : Ended
  deriving DecidableEq, Repr

/-- The UDP connection: `conn.WriteTo(message, addr)` gives the number of
bytes written, or an error. -/
structure PacketConn where
  WriteTo : Bytes → Nat → Except String Nat

/-- `handleRequest`. -/
def handleRequest (net : Network) (conn : PacketConn) (addr : Nat) (buf : Bytes) : Ended :=
  let resolver := New GoogleHost []
  match (resolver.LookupRaw net buf).2 with
  | .error err => .panicked err
  | .ok message =>
    match conn.WriteTo message.data addr with
    | .error err => .panicked err
    | .ok b => if b ≠ message.data.length then .panicked "message not sent" else .returned

/-- A network on which every request is built and no connection is made. -/
def refusingNetwork : Network :=
  ⟨fun _ _ => none, fun _ _ => .error "connection refused"⟩

/-- A network that answers every request with status 200 and the body
`body`. -/
def answeringNetwork (body : Bytes) : Network :=
  ⟨fun _ _ => none, fun _ _ => .ok ⟨200, .ok ⟨body, []⟩⟩⟩

/-- A connection that writes every message in full. -/
def writingConn : PacketConn := ⟨fun message _ => .ok message.length⟩

/-! ## Warning printer (`cli-runtime/printer/warning.go`) -/

/-- `yellowColor`. -/
def yellowColor : Bytes := ascii "\x1b[33;1m"

/-- `resetColor`. -/
def resetColor : Bytes := ascii "\x1b[0m"

/-- `WarningPrinterOptions`. -/
structure WarningPrinterOptions where
  Color : Bool
  deriving DecidableEq, Repr

/-- `WarningPrinter`; the writer `out` is what has been written to it. -/
structure WarningPrinter where
  out : Bytes
  opts : WarningPrinterOptions
  deriving DecidableEq, Repr

/-- `NewWarningPrinter`. -/
def NewWarningPrinter (out : Bytes) (opts : WarningPrinterOptions) : WarningPrinter :=
  ⟨out, opts⟩

/-- Go `fmt.Sprintf` for a format whose only verb is `%s` (`%` is 37 and `s` is
115) and operands that are strings: each `%s` is replaced by the bytes of the
next operand, `%!s(MISSING)` when there is none left; the other bytes of the
format are copied. -/
def Sprintf : Bytes → List Bytes → Bytes
  | [], _ => []
  | [c], _ => [c]
  | c :: d :: rest, args =>
    if c = 37 ∧ d = 115 then
      match args with
      | [] => ascii "%!s(MISSING)" ++ Sprintf rest []
      | arg :: args => arg ++ Sprintf rest args
    else c :: Sprintf (d :: rest) args

/-- Go `fmt.Fprintf(w, format, args...)` on a writer that appends. -/
def Fprintf (w : Bytes) (format : Bytes) (args : List Bytes) : Bytes :=
  w ++ Sprintf format args

/-- `WarningPrinter.Print`. -/
def WarningPrinter.Print (w : WarningPrinter) (message : Bytes) : WarningPrinter :=
  if w.opts.Color then
    { w with out := Fprintf w.out (ascii "%sWarning:%s %s\n") [yellowColor, resetColor, message] }
  else
    { w with out := Fprintf w.out (ascii "Warning: %s\n") [message] }


/-! ## Depth of the recursion of `parseName` -/

/-- The number of nested calls of `parseName` that a call on `b` at `offset`
has opened within `fuel` iterations, counted along the run of `parseNameLoop`:
an iteration that follows a pointer opens one more call, on `m.buf[ptr:]`; an
iteration that reads a label stays in its call; an iteration that ends the
name, or panics, opens none. -/
def parseNameDepth (m : Slice) : Nat → Slice → Nat → Nat
  | 0, _, _ => 0
  | fuel + 1, b, offset =>
    match b.index offset with
    | .ok length =>
      if length = 0 then 0
      else if length &&& 0xC0 = 0xC0 then
        match b.index (offset + 1) with
        | .ok lo =>
          match bigEndianUint16 ⟨[length, lo], []⟩ with
          | .ok v =>
            match m.sliceFrom (v &&& 0x3FFF) with
            | .ok target => 1 + parseNameDepth m fuel target 0
            | _ => 0
          | _ => 0
        | _ => 0
      else
        match b.slice (offset + 1) (offset + 1 + length) with
        | .ok _ => parseNameDepth m fuel b (offset + 1 + length)
        | _ => 0
    | _ => 0

/-- A response with one question whose name, at offset 12, is the pointer
`C0 0C`, a pointer to offset 12. -/
def selfPointerBuffer : Bytes :=
  [0, 0, 0x81, 0x80, 0, 1, 0, 0, 0, 0, 0, 0, 0xC0, 0x0C, 0, 1, 0, 1]

/-! ## The HTTPS transport as a function -/

/-- The HTTPS transport as a function from the posted body to a transport
error or to a status code and the bytes of the body of the response. -/
abbrev Transport := Bytes → Except String (Nat × Bytes)

/-- The network of a transport: every request is built, `client.Do` applies
the transport to the body of the request, whatever the client, and
`io.ReadAll` gives the bytes of the body in a buffer whose spare capacity is
`spare`. -/
def transportNetwork (t : Transport) (spare : Bytes) : Network :=
  ⟨fun _ _ => none,
    fun _ req =>
      match t req.Body with
      | .error err => .error err
      | .ok (status, body) => .ok ⟨status, .ok ⟨body, spare⟩⟩⟩

/-- A transport that answers a query of at most 512 bytes with status 200 and
the query followed by `2A`, a longer one with status 413 and an empty body,
and fails on the empty query. -/
def echoTransport : Transport := fun body =>
  if body = [] then .error "connection reset"
  else if body.length ≤ 512 then .ok (200, body ++ [0x2A])
  else .ok (413, [])

/-! ## A record decoded from inside the previous one -/

/-- A response with QDCOUNT 1 and ANCOUNT 2: the question `com A IN`, at
offset 21 the answer of `labelPointerResponse` (NAME `01 'a' C0 0C`, 4 bytes,
then TYPE, CLASS, TTL, RDLENGTH 4 and 4 bytes of RDATA: 18 bytes, up to offset
39), then 5 zero bytes. -/
def overlappingResponse : Bytes :=
  [0, 0, 0x81, 0x80, 0, 1, 0, 2, 0, 0, 0, 0,
    3, 99, 111, 109, 0, 0, 1, 0, 1,
    1, 97, 0xC0, 0x0C, 0, 1, 0, 1, 0, 0, 0, 0, 0, 4, 0x5D, 0xB8, 0xD8, 0x22,
    0, 0, 0, 0, 0]

/-! ## Lemmas -/

/-! ### Runs and slices -/

@[simp] theorem Run.ok_bind {α β : Type} (a : α) (f : α → Run β) :
    (Run.ok a >>= f) = f a := rfl

@[simp] theorem Run.panic_bind {α β : Type} (f : α → Run β) :
    ((Run.panic : Run α) >>= f) = Run.panic := rfl

@[simp] theorem Run.timeout_bind {α β : Type} (f : α → Run β) :
    ((Run.timeout : Run α) >>= f) = Run.timeout := rfl

@[simp] theorem Run.pure_eq {α : Type} (a : α) : (pure a : Run α) = Run.ok a := rfl

theorem Slice.index_append (pre post spare : Bytes) (c i : Nat) (hi : i = pre.length) :
    Slice.index ⟨pre ++ c :: post, spare⟩ i = .ok c := by
  subst hi
  have h : (pre ++ c :: post)[pre.length]? = some c := by
    rw [List.getElem?_append_right (le_refl _)]
    simp
  simp [Slice.index, h]

theorem Slice.slice_append (pre x post spare : Bytes) (lo hi : Nat)
    (hlo : lo = pre.length) (hhi : hi = lo + x.length) :
    Slice.slice ⟨pre ++ (x ++ post), spare⟩ lo hi = .ok ⟨x, post ++ spare⟩ := by
  subst hlo hhi
  simp [Slice.slice, Slice.cap]
  omega

theorem Slice.sliceFrom_append (pre post spare : Bytes) (lo : Nat) (hlo : lo = pre.length) :
    Slice.sliceFrom ⟨pre ++ post, spare⟩ lo = .ok ⟨post, spare⟩ := by
  subst hlo
  simp [Slice.sliceFrom, Slice.len]

/-! ### Inline names -/

theorem label_length_not_pointer (n : Nat) (h : n ≤ 63) : n &&& 0xC0 ≠ 0xC0 := by
  have := @Nat.and_le_left n 0xC0
  omega

theorem parseNameLoop_inline (m : Slice) (post spare : Bytes) :
    ∀ (labels : List Bytes) (pre name : Bytes) (fuel : Nat),
      (∀ l ∈ labels, 0 < l.length ∧ l.length ≤ 63) → labels.length < fuel →
      parseNameLoop m fuel ⟨pre ++ (encodeLabels labels ++ 0 :: post), spare⟩ name pre.length
        = .ok (name ++ dotted labels, pre.length + (encodeLabels labels).length + 1) := by
  intro labels
  induction labels with
  | nil =>
    intro pre name fuel _ hf
    obtain ⟨f, rfl⟩ : ∃ f, fuel = f + 1 := ⟨fuel - 1, by simp at hf; omega⟩
    simp [parseNameLoop, encodeLabels, dotted, Slice.index_append pre post spare 0 pre.length rfl]
  | cons l ls ih =>
    intro pre name fuel hl hf
    obtain ⟨f, rfl⟩ : ∃ f, fuel = f + 1 := ⟨fuel - 1, by simp at hf; omega⟩
    have hl1 := hl l (List.mem_cons_self _ _)
    have hmod : l.length % 256 = l.length := Nat.mod_eq_of_lt (by omega)
    have hidx : Slice.index ⟨pre ++ (encodeLabels (l :: ls) ++ 0 :: post), spare⟩ pre.length
        = .ok l.length := by
      simp only [encodeLabels, hmod, List.cons_append]
      exact Slice.index_append pre _ spare _ _ rfl
    have hsl : Slice.slice ⟨pre ++ (encodeLabels (l :: ls) ++ 0 :: post), spare⟩
        (pre.length + 1) (pre.length + 1 + l.length)
        = .ok ⟨l, (encodeLabels ls ++ 0 :: post) ++ spare⟩ := by
      have := Slice.slice_append (pre ++ [l.length]) l (encodeLabels ls ++ 0 :: post) spare
        (pre.length + 1) (pre.length + 1 + l.length) (by simp) rfl
      simpa [encodeLabels, hmod] using this
    have hdata : pre ++ (encodeLabels (l :: ls) ++ 0 :: post)
        = (pre ++ l.length :: l) ++ (encodeLabels ls ++ 0 :: post) := by
      simp [encodeLabels, hmod]
    have hrec := ih (pre ++ l.length :: l) (name ++ l ++ [dot]) f
      (fun x hx => hl x (List.mem_cons_of_mem _ hx)) (by simp at hf; omega)
    rw [parseNameLoop]
    simp only [hidx, hsl, Run.ok_bind]
    rw [if_neg (by omega), if_neg (label_length_not_pointer _ hl1.2)]
    rw [hdata]
    have hoff : pre.length + 1 + l.length = (pre ++ l.length :: l).length := by simp; omega
    rw [hoff, hrec]
    simp [encodeLabels, dotted, hmod]
    omega

/-! ### Big-endian fields -/

theorem or_shiftLeft (x y k : Nat) (h : x < 2 ^ k) : x ||| (y <<< k) = y * 2 ^ k + x := by
  rw [Nat.or_comm, Nat.shiftLeft_eq, Nat.mul_comm y, Nat.mul_add_lt_is_or h]

theorem bigEndianUint16_bytes (hi lo : Nat) (spare : Bytes) (hlo : lo < 256) :
    bigEndianUint16 ⟨[hi, lo], spare⟩ = .ok (hi * 256 + lo) := by
  simp [bigEndianUint16, Slice.index, or_shiftLeft lo hi 8 (by simpa using hlo)]

theorem bigEndianUint16_encode (v : Nat) (spare : Bytes) (hv : v < 65536) :
    bigEndianUint16 ⟨binaryBigEndianUint16 v, spare⟩ = .ok v := by
  rw [binaryBigEndianUint16, bigEndianUint16_bytes _ _ _ (Nat.mod_lt _ (by decide))]
  congr 1
  omega

theorem bigEndianUint32_encode (v : Nat) (spare : Bytes) (hv : v < 4294967296) :
    bigEndianUint32 ⟨bigEndianBytes32 v, spare⟩ = .ok v := by
  have h0 : v % 256 < 2 ^ 8 := Nat.mod_lt _ (by decide)
  have h1 : (v / 256 % 256) * 2 ^ 8 + v % 256 < 2 ^ 16 := by omega
  have h2 : (v / 65536 % 256) * 2 ^ 16 + ((v / 256 % 256) * 2 ^ 8 + v % 256) < 2 ^ 24 := by
    omega
  simp only [bigEndianUint32, bigEndianBytes32, Slice.index, List.getElem?_cons_succ,
    List.getElem?_cons_zero, Run.ok_bind, Run.pure_eq]
  rw [or_shiftLeft _ _ 8 h0, or_shiftLeft _ _ 16 h1, or_shiftLeft _ _ 24 h2]
  congr 1
  omega

/-! ### Questions and answers with inline names -/

theorem parseName_inline (m : Slice) (labels : List Bytes) (post spare : Bytes) (fuel : Nat)
    (hl : validLabels labels) (hf : labels.length < fuel) :
    parseName m fuel ⟨encodeLabels labels ++ 0 :: post, spare⟩
      = .ok (dotted labels, (encodeLabels labels).length + 1) := by
  have := parseNameLoop_inline m post spare labels [] [] fuel hl hf
  simpa [parseName] using this

/-- Slicing out a 16-bit field that stands right after `pre`. -/
theorem slice16 (pre post spare : Bytes) (v lo hi : Nat)
    (hlo : lo = pre.length) (hhi : hi = lo + 2) :
    Slice.slice ⟨pre ++ (binaryBigEndianUint16 v ++ post), spare⟩ lo hi
      = .ok ⟨binaryBigEndianUint16 v, post ++ spare⟩ :=
  Slice.slice_append pre _ post spare lo hi hlo (by simpa [binaryBigEndianUint16] using hhi)

/-- Slicing out a 32-bit field that stands right after `pre`. -/
theorem slice32 (pre post spare : Bytes) (v lo hi : Nat)
    (hlo : lo = pre.length) (hhi : hi = lo + 4) :
    Slice.slice ⟨pre ++ (bigEndianBytes32 v ++ post), spare⟩ lo hi
      = .ok ⟨bigEndianBytes32 v, post ++ spare⟩ :=
  Slice.slice_append pre _ post spare lo hi hlo (by simpa [bigEndianBytes32] using hhi)

theorem decodeQuestion_wire (m : Slice) (q : WireQuestion) (post spare : Bytes) (fuel : Nat)
    (hq : q.valid) (hf : q.labels.length < fuel) :
    decodeQuestion m fuel ⟨q.encode ++ post, spare⟩
      = .ok (⟨dotted q.labels, q.typ, q.cls⟩, q.encode.length) := by
  obtain ⟨hl, ht, hc⟩ := hq
  have hname := parseName_inline m q.labels
    (binaryBigEndianUint16 q.typ ++ (binaryBigEndianUint16 q.cls ++ post)) spare fuel hl hf
  have hdata : q.encode ++ post = encodeLabels q.labels ++ 0 ::
      (binaryBigEndianUint16 q.typ ++ (binaryBigEndianUint16 q.cls ++ post)) := by
    simp [WireQuestion.encode]
  have h1 := slice16 (encodeLabels q.labels ++ [0]) (binaryBigEndianUint16 q.cls ++ post) spare
    q.typ ((encodeLabels q.labels).length + 1) ((encodeLabels q.labels).length + 1 + 2)
    (by simp) rfl
  have h2 := slice16 (encodeLabels q.labels ++ [0] ++ binaryBigEndianUint16 q.typ) post spare
    q.cls ((encodeLabels q.labels).length + 1 + 2) ((encodeLabels q.labels).length + 1 + 4)
    (by simp [binaryBigEndianUint16]) rfl
  simp only [List.append_assoc, List.singleton_append, List.cons_append, List.nil_append]
    at h1 h2
  rw [hdata]
  simp only [decodeQuestion, hname, h1, h2, Run.ok_bind, Run.pure_eq,
    bigEndianUint16_encode _ _ ht, bigEndianUint16_encode _ _ hc]
  simp [WireQuestion.encode, binaryBigEndianUint16]

/-- An answer whose name has been read: the fixed fields are decoded and RDATA
is sliced out. -/
theorem decodeAnswer_fixed (m : Slice) (fuel : Nat) (pre rest spare name : Bytes)
    (typ cls ttl rdlength : Nat)
    (ht : typ < 65536) (hc : cls < 65536) (httl : ttl < 4294967296) (hrd : rdlength < 65536)
    (hname : parseName m fuel ⟨pre ++ wireFixed typ cls ttl rdlength rest, spare⟩
      = .ok (name, pre.length)) :
    decodeAnswer m fuel ⟨pre ++ wireFixed typ cls ttl rdlength rest, spare⟩
      = (Slice.slice ⟨pre ++ wireFixed typ cls ttl rdlength rest, spare⟩
          (pre.length + 10) (pre.length + 10 + rdlength) >>= fun rdata =>
            pure (⟨name, typ, cls, ttl, rdata.data⟩, pre.length + 10 + rdlength)) := by
  have h1 := slice16 pre
    (binaryBigEndianUint16 cls ++ (bigEndianBytes32 ttl
      ++ (binaryBigEndianUint16 rdlength ++ rest))) spare
    typ pre.length (pre.length + 2) rfl rfl
  have h2 := slice16 (pre ++ binaryBigEndianUint16 typ)
    (bigEndianBytes32 ttl ++ (binaryBigEndianUint16 rdlength ++ rest)) spare
    cls (pre.length + 2) (pre.length + 4)
    (by simp [binaryBigEndianUint16]) rfl
  have h3 := slice32 (pre ++ binaryBigEndianUint16 typ ++ binaryBigEndianUint16 cls)
    (binaryBigEndianUint16 rdlength ++ rest) spare
    ttl (pre.length + 4) (pre.length + 8)
    (by simp [binaryBigEndianUint16]) rfl
  have h4 := slice16 (pre ++ binaryBigEndianUint16 typ ++ binaryBigEndianUint16 cls
      ++ bigEndianBytes32 ttl) rest spare
    rdlength (pre.length + 8) (pre.length + 10)
    (by simp [binaryBigEndianUint16, bigEndianBytes32]) rfl
  simp only [List.append_assoc] at h1 h2 h3 h4
  simp only [wireFixed] at hname ⊢
  simp only [decodeAnswer, hname, h1, h2, h3, h4, Run.ok_bind, Run.pure_eq,
    bigEndianUint16_encode _ _ ht, bigEndianUint16_encode _ _ hc,
    bigEndianUint16_encode _ _ hrd, bigEndianUint32_encode _ _ httl]

/-- An answer whose name has been read and whose RDATA is all there. -/
theorem decodeAnswer_complete (m : Slice) (fuel : Nat) (pre rdata post spare name : Bytes)
    (typ cls ttl : Nat)
    (ht : typ < 65536) (hc : cls < 65536) (httl : ttl < 4294967296)
    (hrd : rdata.length < 65536)
    (hname : parseName m fuel ⟨pre ++ wireFixed typ cls ttl rdata.length (rdata ++ post), spare⟩
      = .ok (name, pre.length)) :
    decodeAnswer m fuel ⟨pre ++ wireFixed typ cls ttl rdata.length (rdata ++ post), spare⟩
      = .ok (⟨name, typ, cls, ttl, rdata⟩, pre.length + 10 + rdata.length) := by
  rw [decodeAnswer_fixed m fuel pre _ spare name typ cls ttl _ ht hc httl hrd hname]
  have h5 := Slice.slice_append (pre ++ binaryBigEndianUint16 typ ++ binaryBigEndianUint16 cls
      ++ bigEndianBytes32 ttl ++ binaryBigEndianUint16 rdata.length) rdata post spare
    (pre.length + 10) (pre.length + 10 + rdata.length)
    (by simp [binaryBigEndianUint16, bigEndianBytes32]) rfl
  simp only [List.append_assoc] at h5
  simp only [wireFixed, h5, Run.ok_bind, Run.pure_eq]

theorem decodeAnswer_wire (m : Slice) (a : WireAnswer) (post spare : Bytes) (fuel : Nat)
    (ha : a.valid) (hf : a.labels.length < fuel) :
    decodeAnswer m fuel ⟨a.encode ++ post, spare⟩ = .ok (a.record, a.encode.length) := by
  obtain ⟨hl, ht, hc, httl, hrd⟩ := ha
  have hname := parseName_inline m a.labels
    (wireFixed a.typ a.cls a.ttl a.rdata.length (a.rdata ++ post)) spare fuel hl hf
  have hdata : a.encode ++ post = (encodeLabels a.labels ++ [0]) ++
      wireFixed a.typ a.cls a.ttl a.rdata.length (a.rdata ++ post) := by
    simp [WireAnswer.encode, wireFixed]
  have hlen : (encodeLabels a.labels).length + 1 = (encodeLabels a.labels ++ [0]).length := by
    simp
  rw [hlen] at hname
  rw [hdata]
  have hname2 : parseName m fuel ⟨(encodeLabels a.labels ++ [0]) ++
      wireFixed a.typ a.cls a.ttl a.rdata.length (a.rdata ++ post), spare⟩
      = .ok (dotted a.labels, (encodeLabels a.labels ++ [0]).length) := by
    simpa using hname
  rw [decodeAnswer_complete m fuel _ a.rdata post spare _ a.typ a.cls a.ttl ht hc httl hrd hname2]
  simp [WireAnswer.encode, WireAnswer.record, wireFixed, binaryBigEndianUint16,
    bigEndianBytes32]
  omega

theorem Run.bind_pure_bind {α β γ : Type} (x : Run α) (f : α → β) (g : β → Run γ) :
    ((x >>= fun a => pure (f a)) >>= g) = (x >>= fun a => g (f a)) := by
  cases x <;> rfl

theorem skipQuestions_wire (m : Slice) (spare : Bytes) (fuel : Nat) :
    ∀ (qs : List WireQuestion) (post : Bytes),
      (∀ q ∈ qs, q.valid) → (∀ q ∈ qs, q.labels.length < fuel) →
      skipQuestions m fuel qs.length ⟨encodeWireQuestions qs ++ post, spare⟩
        = .ok ⟨post, spare⟩ := by
  intro qs
  induction qs with
  | nil => intro post _ _; rfl
  | cons q qs ih =>
    intro post hv hf
    have hq := decodeQuestion_wire m q (encodeWireQuestions qs ++ post) spare fuel
      (hv q (List.mem_cons_self _ _)) (hf q (List.mem_cons_self _ _))
    have hs := Slice.sliceFrom_append q.encode (encodeWireQuestions qs ++ post) spare
      q.encode.length rfl
    have hrec := ih post (fun x hx => hv x (List.mem_cons_of_mem _ hx))
      (fun x hx => hf x (List.mem_cons_of_mem _ hx))
    simp only [encodeWireQuestions, List.append_assoc, List.length_cons, skipQuestions,
      hq, hs, hrec, Run.ok_bind]

theorem decodeAnswers_wire (m : Slice) (spare : Bytes) (fuel : Nat) :
    ∀ (as : List WireAnswer) (count : Nat) (post : Bytes),
      (∀ a ∈ as, a.valid) → (∀ a ∈ as, a.labels.length < fuel) →
      decodeAnswers m fuel (as.length + count) ⟨encodeWireAnswers as ++ post, spare⟩
        = (decodeAnswers m fuel count ⟨post, spare⟩ >>= fun rest =>
            pure (as.map WireAnswer.record ++ rest)) := by
  intro as
  induction as with
  | nil =>
    intro count post _ _
    simp only [List.length_nil, Nat.zero_add, encodeWireAnswers, List.nil_append, List.map_nil]
    cases decodeAnswers m fuel count ⟨post, spare⟩ <;> rfl
  | cons a as ih =>
    intro count post hv hf
    have ha := decodeAnswer_wire m a (encodeWireAnswers as ++ post) spare fuel
      (hv a (List.mem_cons_self _ _)) (hf a (List.mem_cons_self _ _))
    have hs := Slice.sliceFrom_append a.encode (encodeWireAnswers as ++ post) spare
      a.encode.length rfl
    have hrec := ih count post (fun x hx => hv x (List.mem_cons_of_mem _ hx))
      (fun x hx => hf x (List.mem_cons_of_mem _ hx))
    have hlen : (a :: as).length + count = (as.length + count) + 1 := by
      simp only [List.length_cons]; omega
    rw [hlen]
    simp only [encodeWireAnswers, List.append_assoc, decodeAnswers, ha, hs, hrec, Run.ok_bind,
      Run.bind_pure_bind, List.map_cons, List.cons_append]

/-! ### Pointers and presentation form -/

/-- The pointer branch of `parseName`: the name is decoded at the pointed-to
offset of the message and the advance is 2. -/
theorem parseNameLoop_pointer (m : Slice) (fuel : Nat) (pre post spare name : Bytes)
    (hi lo : Nat) (hhi : hi &&& 0xC0 = 0xC0) (hlo : lo < 256) :
    parseNameLoop m (fuel + 1) ⟨pre ++ hi :: lo :: post, spare⟩ name pre.length
      = (m.sliceFrom ((hi * 256 + lo) &&& 0x3FFF) >>= fun target =>
          parseNameLoop m fuel target [] 0 >>= fun r => pure (r.1, 2)) := by
  have h0 : hi ≠ 0 := by
    rintro rfl
    simp at hhi
  have hidx := Slice.index_append pre (lo :: post) spare hi pre.length rfl
  have hidx1 := Slice.index_append (pre ++ [hi]) post spare lo (pre.length + 1) (by simp)
  simp only [List.append_assoc, List.singleton_append] at hidx1
  rw [parseNameLoop]
  simp only [hidx, hidx1, Run.ok_bind, if_neg h0, if_pos hhi,
    bigEndianUint16_bytes hi lo [] hlo]

theorem dotted_eq_intercalate (labels : List Bytes) (h : labels ≠ []) :
    dotted labels = [dot].intercalate labels ++ [dot] := by
  induction labels with
  | nil => exact absurd rfl h
  | cons l ls ih =>
    cases ls with
    | nil => simp [dotted, List.intercalate]
    | cons l2 ls =>
      have := ih (by simp)
      simp only [dotted] at this ⊢
      rw [this]
      simp [List.intercalate, List.intersperse]

theorem dotted_stringsSplit (s : Bytes) : dotted (stringsSplit s) = s ++ [dot] := by
  induction s with
  | nil => rfl
  | cons c cs ih =>
    by_cases hc : c = dot
    · simp [stringsSplit, hc, dotted, ih]
    · cases hs : stringsSplit cs with
      | nil => simp [hs, dotted] at ih
      | cons l ls =>
        rw [hs] at ih
        simp only [dotted] at ih
        simp [stringsSplit, hc, hs, dotted, ih]

/-! ### The header -/

/-- Reading the two counts and skipping the header and the questions. -/
theorem parseMessage_after_questions (idFlags nsAr : Bytes) (qs : List WireQuestion)
    (ancount : Nat) (post spare : Bytes) (fuel : Nat)
    (hid : idFlags.length = 4) (hns : nsAr.length = 4)
    (hqn : qs.length < 65536) (han : ancount < 65536)
    (hq : ∀ q ∈ qs, q.valid) (hqf : ∀ q ∈ qs, q.labels.length < fuel) :
    parseMessage ⟨wireHeader idFlags qs.length ancount nsAr
        ++ (encodeWireQuestions qs ++ post), spare⟩ fuel
      = (decodeAnswers ⟨wireHeader idFlags qs.length ancount nsAr
            ++ (encodeWireQuestions qs ++ post), spare⟩ fuel ancount ⟨post, spare⟩
          >>= fun answers => pure (answers, none)) := by
  have h1 := slice16 idFlags (binaryBigEndianUint16 ancount ++ (nsAr
      ++ (encodeWireQuestions qs ++ post))) spare qs.length 4 6 hid.symm rfl
  have h2 := slice16 (idFlags ++ binaryBigEndianUint16 qs.length) (nsAr
      ++ (encodeWireQuestions qs ++ post)) spare ancount 6 8
    (by simp [binaryBigEndianUint16, hid]) rfl
  have h3 := Slice.sliceFrom_append (idFlags ++ (binaryBigEndianUint16 qs.length
      ++ (binaryBigEndianUint16 ancount ++ nsAr)))
    (encodeWireQuestions qs ++ post) spare 12
    (by simp [binaryBigEndianUint16, hid, hns])
  have h4 := skipQuestions_wire ⟨wireHeader idFlags qs.length ancount nsAr
      ++ (encodeWireQuestions qs ++ post), spare⟩ spare fuel qs post hq hqf
  simp only [List.append_assoc] at h1 h2 h3
  simp only [parseMessage, wireHeader, List.append_assoc, h1, h2, h3, Run.ok_bind,
    bigEndianUint16_encode _ _ hqn, bigEndianUint16_encode _ _ han] at h4 ⊢
  rw [h4]
  simp only [Run.ok_bind]

/-! ### The question count of an encoded message -/

theorem qdcountField_encodeMessage (q : List Question) :
    qdcountField (encodeMessage q) = q.length % 65536 := by
  simp only [qdcountField, encodeMessage, binaryBigEndianUint16, List.cons_append,
    List.nil_append, List.getD_cons_succ, List.getD_cons_zero]
  omega

/-! ### Termination of `parseName` -/

theorem nameStop_succ (buf : Bytes) : ∀ (n pos s : Nat),
    nameStop buf n pos = some s → nameStop buf (n + 1) pos = some s := by
  intro n
  induction n with
  | zero => intro pos s h; simp [nameStop] at h
  | succ n ih =>
    intro pos s h
    rw [nameStop] at h ⊢
    cases hb : buf[pos]? with
    | none => simp [hb] at h
    | some len =>
      simp only [hb] at h ⊢
      by_cases hc : len = 0 ∨ len &&& 0xC0 = 0xC0
      · simpa [hc] using h
      · simp only [hc, if_false] at h ⊢
        exact ih _ _ h

theorem nameStop_mono (buf : Bytes) (n k pos s : Nat)
    (h : nameStop buf n pos = some s) : nameStop buf (n + k) pos = some s := by
  induction k with
  | zero => exact h
  | succ k ih => exact nameStop_succ buf _ _ _ ih

theorem Slice.index_drop (buf spare : Bytes) (p o : Nat) :
    Slice.index ⟨buf.drop p, spare⟩ o = Slice.index ⟨buf, spare⟩ (p + o) := by
  simp [Slice.index, List.getElem?_drop]

theorem Slice.index_some (buf spare : Bytes) (i b : Nat) (h : buf[i]? = some b) :
    Slice.index ⟨buf, spare⟩ i = .ok b := by
  simp [Slice.index, h]

theorem Slice.index_none (buf spare : Bytes) (i : Nat) (h : buf[i]? = none) :
    Slice.index ⟨buf, spare⟩ i = .panic := by
  simp [Slice.index, h]

/-- One name walk: from position `a` of the name started at `p`, the loop of
`parseName` ends within `n + 1` iterations and the run of a pointed-to name,
given that the name to which the pointer that the walk can reach points ends
within `R`. -/
theorem parseNameLoop_walk (buf spare : Bytes) (p R : Nat) :
    ∀ (n a : Nat) (name : Bytes), p ≤ a → buf.length ≤ a + n →
      (∀ s ∈ nameStop buf n a, buf.getD s 0 &&& 0xC0 = 0xC0 → s + 1 < buf.length →
        pointerOffset buf s ≤ buf.length → ∀ fuel, R ≤ fuel →
          parseNameLoop ⟨buf, spare⟩ fuel ⟨buf.drop (pointerOffset buf s), spare⟩ [] 0
            ≠ .timeout) →
      ∀ fuel, n + R + 1 ≤ fuel →
        parseNameLoop ⟨buf, spare⟩ fuel ⟨buf.drop p, spare⟩ name (a - p) ≠ .timeout := by
  intro n
  induction n with
  | zero =>
    intro a name hpa hla _ fuel hf
    obtain ⟨f, rfl⟩ : ∃ f, fuel = f + 1 := ⟨fuel - 1, by omega⟩
    have hnone : buf[p + (a - p)]? = none := by
      rw [List.getElem?_eq_none]; omega
    rw [parseNameLoop, Slice.index_drop, Slice.index_none _ _ _ hnone]
    simp
  | succ n ih =>
    intro a name hpa hla hptr fuel hf
    obtain ⟨f, rfl⟩ : ∃ f, fuel = f + 1 := ⟨fuel - 1, by omega⟩
    have hpa2 : p + (a - p) = a := by omega
    rw [parseNameLoop, Slice.index_drop, hpa2]
    cases hb : buf[a]? with
    | none => rw [Slice.index_none _ _ _ hb]; simp
    | some len =>
      rw [Slice.index_some _ _ _ _ hb]
      simp only [Run.ok_bind]
      by_cases h0 : len = 0
      · simp [h0]
      · rw [if_neg h0]
        by_cases hc : len &&& 0xC0 = 0xC0
        · rw [if_pos hc]
          have hstop : nameStop buf (n + 1) a = some a := by
            simp [nameStop, hb, hc]
          have hgetD : buf.getD a 0 = len := by
            simp [List.getD_eq_getElem?_getD, hb]
          have hpa3 : p + (a - p + 1) = a + 1 := by omega
          rw [Slice.index_drop, hpa3]
          cases hb1 : buf[a + 1]? with
          | none => rw [Slice.index_none _ _ _ hb1]; simp
          | some lo =>
            have ha1 : a + 1 < buf.length := by
              rcases Nat.lt_or_ge (a + 1) buf.length with h | h
              · exact h
              · rw [List.getElem?_eq_none h] at hb1; cases hb1
            have hgetD1 : buf.getD (a + 1) 0 = lo := by
              simp [List.getD_eq_getElem?_getD, hb1]
            rw [Slice.index_some _ _ _ _ hb1]
            simp only [Run.ok_bind, bigEndianUint16, Slice.index, List.getElem?_cons_succ,
              List.getElem?_cons_zero, Run.pure_eq]
            have hoff : (lo ||| len <<< 8) &&& 0x3FFF = pointerOffset buf a := by
              rw [pointerOffset, hgetD, hgetD1]
            rw [hoff]
            by_cases hle : pointerOffset buf a ≤ buf.length
            · have hsl : Slice.sliceFrom ⟨buf, spare⟩ (pointerOffset buf a)
                  = .ok ⟨buf.drop (pointerOffset buf a), spare⟩ := by
                simp only [Slice.sliceFrom, Slice.len]
                rw [if_pos hle]
              rw [hsl]
              simp only [Run.ok_bind]
              have hr := hptr a (by simp [hstop]) (by rw [hgetD]; exact hc) ha1 hle f
                (by omega)
              cases hres : parseNameLoop ⟨buf, spare⟩ f
                  ⟨buf.drop (pointerOffset buf a), spare⟩ [] 0 with
              | ok r => simp
              | panic => simp
              | timeout => exact absurd hres hr
            · have hsl : Slice.sliceFrom ⟨buf, spare⟩ (pointerOffset buf a) = .panic := by
                simp only [Slice.sliceFrom, Slice.len]
                rw [if_neg hle]
              rw [hsl]
              simp
        · rw [if_neg hc]
          cases hsl : Slice.slice ⟨buf.drop p, spare⟩ (a - p + 1) (a - p + 1 + len) with
          | panic => simp
          | timeout => simp [Slice.slice] at hsl; split at hsl <;> cases hsl
          | ok label =>
            simp only [Run.ok_bind]
            have hnext : a - p + 1 + len = (a + 1 + len) - p := by omega
            rw [hnext]
            apply ih (a + 1 + len) _ (by omega) (by omega) _ f (by omega)
            intro s hs
            apply hptr s
            have : nameStop buf (n + 1) a = nameStop buf n (a + 1 + len) := by
              rw [nameStop]
              simp [hb, h0, hc]
            rw [this]
            exact hs

/-- A chain of names that ends lets `parseName` end: `depth` names of at most
`len + 1` iterations each. -/
theorem parseNameLoop_terminates (buf spare : Bytes) :
    ∀ (depth pos : Nat), pos ≤ buf.length → pointerChainEnds buf depth pos = true →
      ∀ fuel, depth * (buf.length + 1) ≤ fuel →
        parseNameLoop ⟨buf, spare⟩ fuel ⟨buf.drop pos, spare⟩ [] 0 ≠ .timeout := by
  intro depth
  induction depth with
  | zero =>
    intro pos _ h
    simp [pointerChainEnds] at h
  | succ d ih =>
    intro pos hp hH fuel hf
    have hwalk := parseNameLoop_walk buf spare pos (d * (buf.length + 1))
      (buf.length - pos) pos [] (le_refl _) (by omega)
      (by
        intro s hs hc hs1 hle
        have hstop : nameStop buf buf.length pos = some s := by
          have := nameStop_mono buf (buf.length - pos) pos pos s (by simpa using hs)
          have hl : buf.length - pos + pos = buf.length := by omega
          rw [hl] at this
          exact this
        rw [pointerChainEnds, hstop] at hH
        simp only [hc, hs1, hle, and_self, if_true] at hH
        exact fun fuel hfuel => ih _ hle hH fuel hfuel)
      fuel (by rw [Nat.succ_mul] at hf; omega)
    simpa using hwalk

/-- A chain of pointers that point backwards, each before the start of the
name that it ends, is a chain that ends. -/
theorem pointerChainBackward_ends (buf : Bytes) :
    ∀ (depth pos : Nat), pointerChainBackward buf depth pos = true →
      pointerChainEnds buf depth pos = true := by
  intro depth
  induction depth with
  | zero =>
    intro pos h
    simp [pointerChainBackward] at h
  | succ d ih =>
    intro pos h
    rw [pointerChainBackward] at h
    rw [pointerChainEnds]
    cases hstop : nameStop buf buf.length pos with
    | none => rfl
    | some stop =>
      simp only [hstop] at h ⊢
      by_cases hc : buf.getD stop 0 &&& 0xC0 = 0xC0
      · simp only [hc, if_true, Bool.and_eq_true, decide_eq_true_eq] at h ⊢
        split
        · exact ih _ h.2
        · rfl
      · simp only [hc, if_false]

/-- The walk over the labels of a name that ends in a pointer to a name whose
run does not end: the run does not end. -/
theorem parseNameLoop_walk_timeout (buf spare : Bytes) (p s : Nat)
    (hc : buf.getD s 0 &&& 0xC0 = 0xC0) (hs1 : s + 1 < buf.length)
    (hle : pointerOffset buf s ≤ buf.length) :
    ∀ (n a : Nat) (name : Bytes) (fuel : Nat), p ≤ a → nameStop buf n a = some s →
      (∀ f, f < fuel →
        parseNameLoop ⟨buf, spare⟩ f ⟨buf.drop (pointerOffset buf s), spare⟩ [] 0 = .timeout) →
      parseNameLoop ⟨buf, spare⟩ fuel ⟨buf.drop p, spare⟩ name (a - p) = .timeout := by
  intro n
  induction n with
  | zero =>
    intro a name fuel _ hstop
    simp [nameStop] at hstop
  | succ n ih =>
    intro a name fuel hpa hstop hrec
    cases fuel with
    | zero => rfl
    | succ f =>
      have hpa2 : p + (a - p) = a := by omega
      rw [nameStop] at hstop
      rw [parseNameLoop, Slice.index_drop, hpa2]
      cases hb : buf[a]? with
      | none => simp [hb] at hstop
      | some len =>
        simp only [hb] at hstop
        have hgetD : buf.getD a 0 = len := by
          simp [List.getD_eq_getElem?_getD, hb]
        rw [Slice.index_some _ _ _ _ hb]
        simp only [Run.ok_bind]
        by_cases hstopc : len = 0 ∨ len &&& 0xC0 = 0xC0
        · rw [if_pos hstopc] at hstop
          have has : a = s := by
            injection hstop
          rw [← has] at hc hs1 hle hrec
          rw [hgetD] at hc
          have h0 : len ≠ 0 := by
            rintro rfl
            simp at hc
          rw [if_neg h0, if_pos hc]
          have hpa3 : p + (a - p + 1) = a + 1 := by omega
          have hb1 : buf[a + 1]? = some (buf.getD (a + 1) 0) := by
            rw [List.getD_eq_getElem?_getD, List.getElem?_eq_getElem hs1]
            rfl
          rw [Slice.index_drop, hpa3, Slice.index_some _ _ _ _ hb1]
          simp only [Run.ok_bind, bigEndianUint16, Slice.index, List.getElem?_cons_succ,
            List.getElem?_cons_zero, Run.pure_eq]
          have hoff : (buf.getD (a + 1) 0 ||| len <<< 8) &&& 0x3FFF = pointerOffset buf a := by
            rw [pointerOffset, hgetD]
          rw [hoff]
          have hsl : Slice.sliceFrom ⟨buf, spare⟩ (pointerOffset buf a)
              = .ok ⟨buf.drop (pointerOffset buf a), spare⟩ := by
            simp only [Slice.sliceFrom, Slice.len]
            rw [if_pos hle]
          rw [hsl]
          simp only [Run.ok_bind]
          rw [hrec f (Nat.lt_succ_self f)]
          rfl
        · rw [if_neg hstopc] at hstop
          have h0 : len ≠ 0 := fun h => hstopc (Or.inl h)
          have hnc : ¬ len &&& 0xC0 = 0xC0 := fun h => hstopc (Or.inr h)
          rw [if_neg h0, if_neg hnc]
          have hnext : a + 1 + len < buf.length := by
            cases n with
            | zero => simp [nameStop] at hstop
            | succ k =>
              rw [nameStop] at hstop
              rcases Nat.lt_or_ge (a + 1 + len) buf.length with h | h
              · exact h
              · rw [List.getElem?_eq_none h] at hstop
                simp at hstop
          have hsl : Slice.slice ⟨buf.drop p, spare⟩ (a - p + 1) (a - p + 1 + len)
              = .ok ⟨(((buf.drop p) ++ spare).drop (a - p + 1)).take len,
                  ((buf.drop p) ++ spare).drop (a - p + 1 + len)⟩ := by
            simp only [Slice.slice, Slice.cap, List.length_drop]
            rw [if_pos (by omega)]
            congr 3
            omega
          rw [hsl]
          simp only [Run.ok_bind]
          have hn : a - p + 1 + len = (a + 1 + len) - p := by omega
          rw [hn]
          exact ih (a + 1 + len) _ f (by omega) hstop
            (fun f2 hf2 => hrec f2 (Nat.lt_succ_of_lt hf2))

/-- A chain of names that does not end, at any depth, is a run of `parseName`
that does not end, whatever the fuel. -/
theorem parseNameLoop_never_ends (buf spare : Bytes) :
    ∀ (fuel pos : Nat), pos ≤ buf.length → (∀ d, pointerChainEnds buf d pos = false) →
      parseNameLoop ⟨buf, spare⟩ fuel ⟨buf.drop pos, spare⟩ [] 0 = .timeout := by
  intro fuel
  induction fuel using Nat.strong_induction_on with
  | _ fuel ih =>
    intro pos hp hH
    have h1 := hH 1
    rw [pointerChainEnds] at h1
    cases hstop : nameStop buf buf.length pos with
    | none =>
      simp only [hstop] at h1
      cases h1
    | some s =>
      simp only [hstop] at h1
      by_cases hc : buf.getD s 0 &&& 0xC0 = 0xC0
      · by_cases hin : s + 1 < buf.length ∧ pointerOffset buf s ≤ buf.length
        · have hnext : ∀ d, pointerChainEnds buf d (pointerOffset buf s) = false := by
            intro d
            have := hH (d + 1)
            rw [pointerChainEnds] at this
            simpa only [hstop, hc, hin, and_self, if_true] using this
          have hw := parseNameLoop_walk_timeout buf spare pos s hc hin.1 hin.2 buf.length pos []
            fuel (le_refl _) hstop (fun f hf => ih f hf _ hin.2 hnext)
          simpa using hw
        · rw [if_pos hc, if_neg hin] at h1
          cases h1
      · rw [if_neg hc] at h1
        cases h1

/-- In `loopBuffer` the pointer that ends the name at position 0 has offset 0,
not less than 0: the chain from position 0 is not backward, at any depth. -/
theorem pointerChainBackward_loopBuffer (depth : Nat) :
    pointerChainBackward loopBuffer depth 0 = false := by
  cases depth with
  | zero => rfl
  | succ d =>
    have hstop : nameStop loopBuffer loopBuffer.length 0 = some 2 := by decide
    have hptr : loopBuffer.getD 2 0 &&& 0xC0 = 0xC0 := by decide
    have hoff : pointerOffset loopBuffer 2 = 0 := by decide
    rw [pointerChainBackward, hstop]
    simp only [hptr, hoff, if_true, Nat.lt_irrefl, decide_False, Bool.false_and]

/-! ### A loop through a backward pointer -/

theorem parseNameLoop_loopBuffer_step (f : Nat) :
    parseNameLoop ⟨loopBuffer, []⟩ (f + 2) ⟨loopBuffer, []⟩ [] 0
      = (parseNameLoop ⟨loopBuffer, []⟩ f ⟨loopBuffer, []⟩ [] 0 >>= fun r => pure (r.1, 2)) := by
  rfl

theorem parseNameLoop_loopBuffer : ∀ (fuel : Nat),
    parseNameLoop ⟨loopBuffer, []⟩ fuel ⟨loopBuffer, []⟩ [] 0 = .timeout
  | 0 => rfl
  | 1 => rfl
  | f + 2 => by
    rw [parseNameLoop_loopBuffer_step, parseNameLoop_loopBuffer f]
    rfl

/-! ### More fuel does not change a run that ends -/

/-- A run of the loop of `parseName` that ends keeps its result when it is
given more fuel. -/
theorem parseNameLoop_succ (m : Slice) : ∀ (fuel : Nat) (b : Slice) (name : Bytes)
    (offset : Nat), parseNameLoop m fuel b name offset ≠ .timeout →
      parseNameLoop m (fuel + 1) b name offset = parseNameLoop m fuel b name offset := by
  intro fuel
  induction fuel with
  | zero => intro b name offset h; exact absurd rfl h
  | succ f ih =>
    intro b name offset h
    rw [parseNameLoop] at h
    conv_lhs => rw [parseNameLoop]
    conv_rhs => rw [parseNameLoop]
    cases hidx : b.index offset with
    | panic => rfl
    | timeout => rfl
    | ok len =>
      simp only [hidx, Run.ok_bind] at h ⊢
      by_cases h0 : len = 0
      · simp only [h0, if_true]
      · simp only [h0, if_false] at h ⊢
        by_cases hc : len &&& 0xC0 = 0xC0
        · simp only [hc, if_true] at h ⊢
          cases hlo : b.index (offset + 1) with
          | panic => rfl
          | timeout => rfl
          | ok lo =>
            simp only [hlo, Run.ok_bind] at h ⊢
            cases hbe : bigEndianUint16 ⟨[len, lo], []⟩ with
            | panic => rfl
            | timeout => rfl
            | ok v =>
              simp only [hbe, Run.ok_bind] at h ⊢
              cases hsl : m.sliceFrom (v &&& 0x3FFF) with
              | panic => rfl
              | timeout => rfl
              | ok target =>
                simp only [hsl, Run.ok_bind] at h ⊢
                have hne : parseNameLoop m f target [] 0 ≠ .timeout := by
                  intro ht
                  rw [ht] at h
                  exact h rfl
                rw [ih target [] 0 hne]
        · simp only [hc, if_false] at h ⊢
          cases hsl : b.slice (offset + 1) (offset + 1 + len) with
          | panic => rfl
          | timeout => rfl
          | ok label =>
            simp only [hsl, Run.ok_bind] at h ⊢
            exact ih _ _ _ h

theorem parseNameLoop_mono (m : Slice) (fuel k : Nat) (b : Slice) (name : Bytes)
    (offset : Nat) (h : parseNameLoop m fuel b name offset ≠ .timeout) :
    parseNameLoop m (fuel + k) b name offset = parseNameLoop m fuel b name offset := by
  induction k with
  | zero => rfl
  | succ k ih =>
    rw [← Nat.add_assoc, parseNameLoop_succ m (fuel + k) b name offset (by rw [ih]; exact h), ih]

/-! ### Panics on malformed buffers -/

theorem Run.bind_eq_ok {α β : Type} (x : Run α) (f : α → Run β) (v : β) :
    (x >>= f) = .ok v ↔ ∃ a, x = .ok a ∧ f a = .ok v := by
  cases x with
  | ok a => simp
  | panic => simp
  | timeout => simp

/-- The `error` result of `parseMessage` is `nil` whenever it returns. -/
theorem parseMessage_error_nil (m : Slice) (fuel : Nat) (rs : List Record)
    (e : Option String) (h : parseMessage m fuel = .ok (rs, e)) : e = none := by
  simp only [parseMessage, Run.bind_eq_ok, Run.pure_eq] at h
  obtain ⟨_, _, _, _, _, _, _, _, _, _, _, _, _, _, h⟩ := h
  cases h
  rfl

theorem Slice.slice_ne_timeout (s : Slice) (lo hi : Nat) : s.slice lo hi ≠ .timeout := by
  unfold Slice.slice
  split <;> simp

theorem Slice.index_ne_timeout (s : Slice) (i : Nat) : s.index i ≠ .timeout := by
  unfold Slice.index
  split <;> simp

theorem bigEndianUint16_ne_timeout (s : Slice) : bigEndianUint16 s ≠ .timeout := by
  unfold bigEndianUint16
  cases h1 : s.index 1 with
  | timeout => exact absurd h1 (Slice.index_ne_timeout _ _)
  | panic => simp
  | ok b1 =>
    cases h0 : s.index 0 with
    | timeout => exact absurd h0 (Slice.index_ne_timeout _ _)
    | panic => simp
    | ok b0 => simp

/-- A buffer shorter than the header: `m.buf[12:]` is out of range. -/
theorem parseMessage_short (m : Slice) (fuel : Nat) (h : m.len < 12) :
    parseMessage m fuel = .panic := by
  have h3 : m.sliceFrom 12 = .panic := by
    simp only [Slice.sliceFrom]
    rw [if_neg (by omega)]
  unfold parseMessage
  cases h1 : m.slice 4 6 with
  | timeout => exact absurd h1 (Slice.slice_ne_timeout _ _ _)
  | panic => simp only [Run.panic_bind]
  | ok s1 =>
    cases h1b : bigEndianUint16 s1 with
    | timeout => exact absurd h1b (bigEndianUint16_ne_timeout _)
    | panic => simp only [Run.ok_bind, h1b, Run.panic_bind]
    | ok qd =>
      cases h2 : m.slice 6 8 with
      | timeout => exact absurd h2 (Slice.slice_ne_timeout _ _ _)
      | panic => simp only [Run.ok_bind, h1b, Run.panic_bind]
      | ok s2 =>
        cases h2b : bigEndianUint16 s2 with
        | timeout => exact absurd h2b (bigEndianUint16_ne_timeout _)
        | panic => simp only [Run.ok_bind, h1b, h2b, Run.panic_bind]
        | ok an => simp only [Run.ok_bind, h1b, h2b, h3, Run.panic_bind]

/-- Reading the two counts of a 12-byte header. -/
theorem parseMessage_header (idFlags nsAr : Bytes) (qdcount ancount : Nat)
    (body spare : Bytes) (fuel : Nat)
    (hid : idFlags.length = 4) (hns : nsAr.length = 4)
    (hqn : qdcount < 65536) (han : ancount < 65536) :
    parseMessage ⟨wireHeader idFlags qdcount ancount nsAr ++ body, spare⟩ fuel
      = (skipQuestions ⟨wireHeader idFlags qdcount ancount nsAr ++ body, spare⟩ fuel qdcount
            ⟨body, spare⟩ >>= fun buf =>
          decodeAnswers ⟨wireHeader idFlags qdcount ancount nsAr ++ body, spare⟩ fuel ancount
            buf >>= fun answers => pure (answers, none)) := by
  have h1 := slice16 idFlags (binaryBigEndianUint16 ancount ++ (nsAr ++ body)) spare
    qdcount 4 6 hid.symm rfl
  have h2 := slice16 (idFlags ++ binaryBigEndianUint16 qdcount) (nsAr ++ body) spare
    ancount 6 8 (by simp [binaryBigEndianUint16, hid]) rfl
  have h3 := Slice.sliceFrom_append (idFlags ++ (binaryBigEndianUint16 qdcount
      ++ (binaryBigEndianUint16 ancount ++ nsAr))) body spare 12
    (by simp [binaryBigEndianUint16, hid, hns])
  simp only [List.append_assoc] at h1 h2 h3
  simp only [parseMessage, wireHeader, List.append_assoc, h1, h2, h3, Run.ok_bind,
    bigEndianUint16_encode _ _ hqn, bigEndianUint16_encode _ _ han]

/-- A name that starts with a compression pointer whose offset is beyond the
end of the message: `m.buf[ptr:]` is out of range. -/
theorem parseName_pointer_out_of_range (m : Slice) (fuel : Nat) (post spare : Bytes)
    (hi lo : Nat) (hhi : hi &&& 0xC0 = 0xC0) (hlo : lo < 256)
    (hout : m.len < (hi * 256 + lo) &&& 0x3FFF) :
    parseName m (fuel + 1) ⟨hi :: lo :: post, spare⟩ = .panic := by
  have h := parseNameLoop_pointer m fuel [] post spare [] hi lo hhi hlo
  have hs : m.sliceFrom ((hi * 256 + lo) &&& 0x3FFF) = .panic := by
    simp only [Slice.sliceFrom]
    rw [if_neg (by omega)]
  rw [hs] at h
  simpa [parseName] using h

theorem parseMessage_pointer_out_of_range (idFlags nsAr : Bytes) (qdcount ancount : Nat)
    (hi lo : Nat) (post spare : Bytes) (fuel : Nat)
    (hid : idFlags.length = 4) (hns : nsAr.length = 4)
    (hqn : qdcount < 65536) (han : ancount < 65536) (hcount : 0 < qdcount ∨ 0 < ancount)
    (hhi : hi &&& 0xC0 = 0xC0) (hlo : lo < 256)
    (hout : 14 + post.length < (hi * 256 + lo) &&& 0x3FFF) (hf : 0 < fuel) :
    parseMessage ⟨wireHeader idFlags qdcount ancount nsAr ++ hi :: lo :: post, spare⟩ fuel
      = .panic := by
  rw [parseMessage_header idFlags nsAr qdcount ancount _ spare fuel hid hns hqn han]
  obtain ⟨f, rfl⟩ : ∃ f, fuel = f + 1 := ⟨fuel - 1, by omega⟩
  have hname := parseName_pointer_out_of_range
    ⟨wireHeader idFlags qdcount ancount nsAr ++ hi :: lo :: post, spare⟩ f post spare hi lo
    hhi hlo (by
      simp only [Slice.len, wireHeader, binaryBigEndianUint16, List.length_append,
        List.length_cons, List.length_nil, hid, hns]
      omega)
  cases qdcount with
  | succ k => simp only [skipQuestions, decodeQuestion, hname, Run.panic_bind]
  | zero =>
    cases ancount with
    | zero => omega
    | succ k =>
      simp only [skipQuestions, decodeAnswers, decodeAnswer, hname, Run.pure_eq, Run.ok_bind,
        Run.panic_bind]

/-- An answer whose name has been read and whose RDLENGTH is more than the
bytes left after the RDLENGTH field: either the RDATA slice is out of range,
or (when the capacity allows it) the cursor advance is, in `buf[offset:]`. -/
theorem decodeAnswers_overrun (m : Slice) (fuel count : Nat) (pre name : Bytes)
    (typ cls ttl rdlength : Nat) (rest spare : Bytes)
    (ht : typ < 65536) (hc : cls < 65536)
    (httl : ttl < 4294967296) (hrd : rdlength < 65536) (hover : rest.length < rdlength)
    (hname : parseName m fuel ⟨pre ++ wireFixed typ cls ttl rdlength rest, spare⟩
      = .ok (name, pre.length)) :
    decodeAnswers m fuel (count + 1) ⟨pre ++ wireFixed typ cls ttl rdlength rest, spare⟩
      = .panic := by
  rw [decodeAnswers,
    decodeAnswer_fixed m fuel _ rest spare _ typ cls ttl rdlength ht hc httl hrd hname]
  have hfrom : Slice.sliceFrom ⟨pre ++ wireFixed typ cls ttl rdlength rest, spare⟩
      (pre.length + 10 + rdlength) = .panic := by
    simp only [Slice.sliceFrom, Slice.len]
    rw [if_neg]
    simp [wireFixed, binaryBigEndianUint16, bigEndianBytes32]
    omega
  cases hs : Slice.slice ⟨pre ++ wireFixed typ cls ttl rdlength rest, spare⟩
      (pre.length + 10) (pre.length + 10 + rdlength) with
  | timeout => exact absurd hs (Slice.slice_ne_timeout _ _ _)
  | panic => simp only [Run.panic_bind]
  | ok rdata => simp only [Run.ok_bind, Run.pure_eq, hfrom, Run.panic_bind]

/-! ### Truncated responses -/

theorem bigEndianUint32_ne_timeout (s : Slice) : bigEndianUint32 s ≠ .timeout := by
  unfold bigEndianUint32
  cases h3 : s.index 3 with
  | timeout => exact absurd h3 (Slice.index_ne_timeout _ _)
  | panic => simp
  | ok b3 =>
    cases h0 : s.index 0 with
    | timeout => exact absurd h0 (Slice.index_ne_timeout _ _)
    | panic => simp
    | ok b0 =>
      cases h1 : s.index 1 with
      | timeout => exact absurd h1 (Slice.index_ne_timeout _ _)
      | panic => simp
      | ok b1 =>
        cases h2 : s.index 2 with
        | timeout => exact absurd h2 (Slice.index_ne_timeout _ _)
        | panic => simp
        | ok b2 => simp

/-- The loop of `parseName` at an offset that is not below the length of the
slice: the index is out of range. -/
theorem parseNameLoop_index_out (m : Slice) (fuel : Nat) (b : Slice) (name : Bytes)
    (offset : Nat) (h : b.len ≤ offset) :
    parseNameLoop m (fuel + 1) b name offset = .panic := by
  have hidx : b.index offset = .panic := by
    simp only [Slice.index]
    rw [List.getElem?_eq_none (by simpa [Slice.len] using h)]
  rw [parseNameLoop, hidx]
  rfl

/-- A name cut before its zero octet: however many of its bytes are left,
`parseName` panics. -/
theorem parseNameLoop_truncated (m : Slice) (spare : Bytes) :
    ∀ (labels : List Bytes) (pre name : Bytes) (fuel k : Nat),
      validLabels labels → labels.length < fuel →
      parseNameLoop m fuel ⟨pre ++ (encodeLabels labels).take k, spare⟩ name pre.length
        = .panic := by
  intro labels
  induction labels with
  | nil =>
    intro pre name fuel k _ hf
    obtain ⟨f, rfl⟩ : ∃ f, fuel = f + 1 := ⟨fuel - 1, by simp at hf; omega⟩
    exact parseNameLoop_index_out m f _ name _ (by simp [Slice.len, encodeLabels])
  | cons l ls ih =>
    intro pre name fuel k hl hf
    obtain ⟨f, rfl⟩ : ∃ f, fuel = f + 1 := ⟨fuel - 1, by simp at hf; omega⟩
    have hl1 := hl l (List.mem_cons_self _ _)
    have hmod : l.length % 256 = l.length := Nat.mod_eq_of_lt (by omega)
    cases k with
    | zero => exact parseNameLoop_index_out m f _ name _ (by simp [Slice.len])
    | succ k =>
      have hdata : pre ++ (encodeLabels (l :: ls)).take (k + 1)
          = pre ++ l.length :: (l ++ encodeLabels ls).take k := by
        simp [encodeLabels, hmod]
      have hidx : Slice.index ⟨pre ++ l.length :: (l ++ encodeLabels ls).take k, spare⟩
          pre.length = .ok l.length := Slice.index_append pre _ spare _ _ rfl
      rw [hdata, parseNameLoop]
      simp only [hidx, Run.ok_bind]
      rw [if_neg (by omega), if_neg (label_length_not_pointer _ hl1.2)]
      cases hs : Slice.slice ⟨pre ++ l.length :: (l ++ encodeLabels ls).take k, spare⟩
          (pre.length + 1) (pre.length + 1 + l.length) with
      | timeout => exact absurd hs (Slice.slice_ne_timeout _ _ _)
      | panic => rfl
      | ok label =>
        simp only [Run.ok_bind]
        obtain ⟨f2, rfl⟩ : ∃ f2, f = f2 + 1 := ⟨f - 1, by simp at hf; omega⟩
        rcases Nat.lt_or_ge k l.length with hk | hk
        · apply parseNameLoop_index_out
          simp only [Slice.len, List.length_append, List.length_cons, List.length_take]
          omega
        · have htake : (l ++ encodeLabels ls).take k
              = l ++ (encodeLabels ls).take (k - l.length) := by
            rw [List.take_append_eq_append_take, List.take_of_length_le hk]
          have hd2 : pre ++ l.length :: (l ++ encodeLabels ls).take k
              = (pre ++ l.length :: l) ++ (encodeLabels ls).take (k - l.length) := by
            rw [htake]; simp
          have hoff : pre.length + 1 + l.length = (pre ++ l.length :: l).length := by
            simp; omega
          rw [hd2, hoff]
          exact ih _ _ _ _ (fun x hx => hl x (List.mem_cons_of_mem _ hx))
            (by simp at hf; omega)

theorem parseName_truncated (m : Slice) (spare : Bytes) (labels : List Bytes)
    (fuel k : Nat) (hl : validLabels labels) (hf : labels.length < fuel) :
    parseName m fuel ⟨(encodeLabels labels).take k, spare⟩ = .panic := by
  have := parseNameLoop_truncated m spare labels [] [] fuel k hl hf
  simpa [parseName] using this

/-- A question whose name has been read and whose QTYPE and QCLASS are not
both within the length of the cursor: a slice or the cursor advance is out of
range. -/
theorem skipQuestions_short_fields (m : Slice) (fuel count : Nat) (b : Slice)
    (name : Bytes) (offset : Nat) (hname : parseName m fuel b = .ok (name, offset))
    (hshort : b.len < offset + 4) :
    skipQuestions m fuel (count + 1) b = .panic := by
  have hfrom : b.sliceFrom (offset + 4) = .panic := by
    simp only [Slice.sliceFrom]
    rw [if_neg (by omega)]
  simp only [skipQuestions, decodeQuestion, hname, Run.ok_bind]
  cases h1 : b.slice offset (offset + 2) with
  | timeout => exact absurd h1 (Slice.slice_ne_timeout _ _ _)
  | panic => rfl
  | ok s1 =>
    cases h1b : bigEndianUint16 s1 with
    | timeout => exact absurd h1b (bigEndianUint16_ne_timeout _)
    | panic => simp only [Run.ok_bind, h1b, Run.panic_bind]
    | ok v1 =>
      cases h2 : b.slice (offset + 2) (offset + 4) with
      | timeout => exact absurd h2 (Slice.slice_ne_timeout _ _ _)
      | panic => simp only [Run.ok_bind, h1b, Run.panic_bind]
      | ok s2 =>
        cases h2b : bigEndianUint16 s2 with
        | timeout => exact absurd h2b (bigEndianUint16_ne_timeout _)
        | panic => simp only [Run.ok_bind, h1b, h2b, Run.panic_bind]
        | ok v2 => simp only [Run.ok_bind, h1b, h2b, Run.pure_eq, hfrom, Run.panic_bind]

/-- An answer whose name has been read and whose fixed fields are not all
within the length of the cursor: a slice or the cursor advance is out of
range. -/
theorem decodeAnswers_short_fields (m : Slice) (fuel count : Nat) (b : Slice)
    (name : Bytes) (offset : Nat) (hname : parseName m fuel b = .ok (name, offset))
    (hshort : b.len < offset + 10) :
    decodeAnswers m fuel (count + 1) b = .panic := by
  have hfrom : ∀ v, b.sliceFrom (offset + 10 + v) = .panic := by
    intro v
    simp only [Slice.sliceFrom]
    rw [if_neg (by omega)]
  simp only [decodeAnswers, decodeAnswer, hname, Run.ok_bind]
  cases h1 : b.slice offset (offset + 2) with
  | timeout => exact absurd h1 (Slice.slice_ne_timeout _ _ _)
  | panic => rfl
  | ok s1 =>
    cases h1b : bigEndianUint16 s1 with
    | timeout => exact absurd h1b (bigEndianUint16_ne_timeout _)
    | panic => simp only [Run.ok_bind, h1b, Run.panic_bind]
    | ok v1 =>
      cases h2 : b.slice (offset + 2) (offset + 4) with
      | timeout => exact absurd h2 (Slice.slice_ne_timeout _ _ _)
      | panic => simp only [Run.ok_bind, h1b, Run.panic_bind]
      | ok s2 =>
        cases h2b : bigEndianUint16 s2 with
        | timeout => exact absurd h2b (bigEndianUint16_ne_timeout _)
        | panic => simp only [Run.ok_bind, h1b, h2b, Run.panic_bind]
        | ok v2 =>
          cases h3 : b.slice (offset + 4) (offset + 8) with
          | timeout => exact absurd h3 (Slice.slice_ne_timeout _ _ _)
          | panic => simp only [Run.ok_bind, h1b, h2b, Run.panic_bind]
          | ok s3 =>
            cases h3b : bigEndianUint32 s3 with
            | timeout => exact absurd h3b (bigEndianUint32_ne_timeout _)
            | panic => simp only [Run.ok_bind, h1b, h2b, h3b, Run.panic_bind]
            | ok v3 =>
              cases h4 : b.slice (offset + 8) (offset + 10) with
              | timeout => exact absurd h4 (Slice.slice_ne_timeout _ _ _)
              | panic => simp only [Run.ok_bind, h1b, h2b, h3b, Run.panic_bind]
              | ok s4 =>
                cases h4b : bigEndianUint16 s4 with
                | timeout => exact absurd h4b (bigEndianUint16_ne_timeout _)
                | panic => simp only [Run.ok_bind, h1b, h2b, h3b, h4b, Run.panic_bind]
                | ok v4 =>
                  cases h5 : b.slice (offset + 10) (offset + 10 + v4) with
                  | timeout => exact absurd h5 (Slice.slice_ne_timeout _ _ _)
                  | panic => simp only [Run.ok_bind, h1b, h2b, h3b, h4b, h5, Run.panic_bind]
                  | ok s5 =>
                    simp only [Run.ok_bind, h1b, h2b, h3b, h4b, h5, Run.pure_eq, hfrom,
                      Run.panic_bind]

theorem encode_question_length (q : WireQuestion) :
    q.encode.length = (encodeLabels q.labels).length + 5 := by
  simp [WireQuestion.encode, binaryBigEndianUint16]

theorem encode_answer_length (a : WireAnswer) :
    a.encode.length = (encodeLabels a.labels).length + 11 + a.rdata.length := by
  simp [WireAnswer.encode, wireFixed, binaryBigEndianUint16, bigEndianBytes32]
  omega

/-- A question cut short: the question loop of `parseMessage` panics on it. -/
theorem skipQuestions_truncated (m : Slice) (spare : Bytes) (fuel count k : Nat)
    (q : WireQuestion) (hq : q.valid) (hf : q.labels.length < fuel)
    (hk : k < q.encode.length) :
    skipQuestions m fuel (count + 1) ⟨q.encode.take k, spare⟩ = .panic := by
  rw [encode_question_length] at hk
  rcases Nat.lt_or_ge (encodeLabels q.labels).length k with hlt | hge
  · have htake : q.encode.take k = encodeLabels q.labels ++ 0 ::
        (binaryBigEndianUint16 q.typ ++ binaryBigEndianUint16 q.cls).take
          (k - (encodeLabels q.labels).length - 1) := by
      obtain ⟨j, rfl⟩ : ∃ j, k = (encodeLabels q.labels).length + (j + 1) :=
        ⟨k - (encodeLabels q.labels).length - 1, by omega⟩
      rw [WireQuestion.encode, List.take_append]
      simp
    have hname := parseName_inline m q.labels
      ((binaryBigEndianUint16 q.typ ++ binaryBigEndianUint16 q.cls).take
        (k - (encodeLabels q.labels).length - 1)) spare fuel hq.1 hf
    rw [htake]
    apply skipQuestions_short_fields m fuel count _ _ _ hname
    simp only [Slice.len, List.length_append, List.length_cons, List.length_take,
      binaryBigEndianUint16, List.length_nil]
    omega
  · have htake : q.encode.take k = (encodeLabels q.labels).take k := by
      rw [WireQuestion.encode, List.take_append_of_le_length hge]
    rw [htake]
    simp only [skipQuestions, decodeQuestion, parseName_truncated m spare q.labels fuel k hq.1 hf,
      Run.panic_bind]

theorem wireFixed_take (typ cls ttl rdlength : Nat) (rest : Bytes) (j : Nat) :
    (wireFixed typ cls ttl rdlength rest).take (10 + j)
      = wireFixed typ cls ttl rdlength (rest.take j) := by
  simp [wireFixed, binaryBigEndianUint16, bigEndianBytes32, Nat.add_comm 10 j]

/-- An answer cut short: the answer loop of `parseMessage` panics on it. -/
theorem decodeAnswers_truncated (m : Slice) (spare : Bytes) (fuel count k : Nat)
    (a : WireAnswer) (ha : a.valid) (hf : a.labels.length < fuel)
    (hk : k < a.encode.length) :
    decodeAnswers m fuel (count + 1) ⟨a.encode.take k, spare⟩ = .panic := by
  rw [encode_answer_length] at hk
  obtain ⟨hl, ht, hc, httl, hrd⟩ := ha
  rcases Nat.lt_or_ge (encodeLabels a.labels).length k with hlt | hge
  · have htake : a.encode.take k = encodeLabels a.labels ++ 0 ::
        (wireFixed a.typ a.cls a.ttl a.rdata.length a.rdata).take
          (k - (encodeLabels a.labels).length - 1) := by
      obtain ⟨j, rfl⟩ : ∃ j, k = (encodeLabels a.labels).length + (j + 1) :=
        ⟨k - (encodeLabels a.labels).length - 1, by omega⟩
      rw [WireAnswer.encode, List.take_append]
      simp
    rw [htake]
    rcases Nat.lt_or_ge k ((encodeLabels a.labels).length + 11) with hfix | hfix
    · have hname := parseName_inline m a.labels
        ((wireFixed a.typ a.cls a.ttl a.rdata.length a.rdata).take
          (k - (encodeLabels a.labels).length - 1)) spare fuel hl hf
      apply decodeAnswers_short_fields m fuel count _ _ _ hname
      simp only [Slice.len, List.length_append, List.length_cons, List.length_take]
      omega
    · obtain ⟨j, hj⟩ : ∃ j, k - (encodeLabels a.labels).length - 1 = 10 + j :=
        ⟨k - (encodeLabels a.labels).length - 11, by omega⟩
      rw [hj, wireFixed_take]
      have hname := parseName_inline m a.labels
        (wireFixed a.typ a.cls a.ttl a.rdata.length (a.rdata.take j)) spare fuel hl hf
      have hdata : encodeLabels a.labels ++ 0 ::
          wireFixed a.typ a.cls a.ttl a.rdata.length (a.rdata.take j)
          = (encodeLabels a.labels ++ [0])
            ++ wireFixed a.typ a.cls a.ttl a.rdata.length (a.rdata.take j) := by simp
      have hlen : (encodeLabels a.labels).length + 1 = (encodeLabels a.labels ++ [0]).length := by
        simp
      rw [hlen, hdata] at hname
      rw [hdata]
      exact decodeAnswers_overrun m fuel count _ _ a.typ a.cls a.ttl a.rdata.length _ spare
        ht hc httl hrd (by simp only [List.length_take]; omega) hname
  · have htake : a.encode.take k = (encodeLabels a.labels).take k := by
      rw [WireAnswer.encode, List.take_append_of_le_length hge]
    rw [htake]
    simp only [decodeAnswers, decodeAnswer, parseName_truncated m spare a.labels fuel k hl hf,
      Run.panic_bind]

theorem skipQuestions_truncated_section (m : Slice) (spare : Bytes) (fuel : Nat) :
    ∀ (qs : List WireQuestion) (k : Nat),
      (∀ q ∈ qs, q.valid) → (∀ q ∈ qs, q.labels.length < fuel) →
      k < (encodeWireQuestions qs).length →
      skipQuestions m fuel qs.length ⟨(encodeWireQuestions qs).take k, spare⟩ = .panic := by
  intro qs
  induction qs with
  | nil => intro k _ _ hk; simp [encodeWireQuestions] at hk
  | cons q qs ih =>
    intro k hv hf hk
    have hq := hv q (List.mem_cons_self _ _)
    have hqf := hf q (List.mem_cons_self _ _)
    simp only [encodeWireQuestions, List.length_append] at hk
    rcases Nat.lt_or_ge k q.encode.length with hlt | hge
    · have htake : (encodeWireQuestions (q :: qs)).take k = q.encode.take k := by
        rw [encodeWireQuestions, List.take_append_of_le_length (by omega)]
      rw [htake, List.length_cons]
      exact skipQuestions_truncated m spare fuel qs.length k q hq hqf hlt
    · have htake : (encodeWireQuestions (q :: qs)).take k
          = q.encode ++ (encodeWireQuestions qs).take (k - q.encode.length) := by
        rw [encodeWireQuestions, List.take_append_eq_append_take, List.take_of_length_le hge]
      have hd := decodeQuestion_wire m q ((encodeWireQuestions qs).take (k - q.encode.length))
        spare fuel hq hqf
      have hs := Slice.sliceFrom_append q.encode
        ((encodeWireQuestions qs).take (k - q.encode.length)) spare q.encode.length rfl
      have hrec := ih (k - q.encode.length) (fun x hx => hv x (List.mem_cons_of_mem _ hx))
        (fun x hx => hf x (List.mem_cons_of_mem _ hx)) (by omega)
      rw [htake]
      simp only [List.length_cons, skipQuestions, hd, hs, hrec, Run.ok_bind]

theorem decodeAnswers_truncated_section (m : Slice) (spare : Bytes) (fuel : Nat) :
    ∀ (as : List WireAnswer) (k : Nat),
      (∀ a ∈ as, a.valid) → (∀ a ∈ as, a.labels.length < fuel) →
      k < (encodeWireAnswers as).length →
      decodeAnswers m fuel as.length ⟨(encodeWireAnswers as).take k, spare⟩ = .panic := by
  intro as
  induction as with
  | nil => intro k _ _ hk; simp [encodeWireAnswers] at hk
  | cons a as ih =>
    intro k hv hf hk
    have ha := hv a (List.mem_cons_self _ _)
    have haf := hf a (List.mem_cons_self _ _)
    simp only [encodeWireAnswers, List.length_append] at hk
    rcases Nat.lt_or_ge k a.encode.length with hlt | hge
    · have htake : (encodeWireAnswers (a :: as)).take k = a.encode.take k := by
        rw [encodeWireAnswers, List.take_append_of_le_length (by omega)]
      rw [htake, List.length_cons]
      exact decodeAnswers_truncated m spare fuel as.length k a ha haf hlt
    · have htake : (encodeWireAnswers (a :: as)).take k
          = a.encode ++ (encodeWireAnswers as).take (k - a.encode.length) := by
        rw [encodeWireAnswers, List.take_append_eq_append_take, List.take_of_length_le hge]
      have hd := decodeAnswer_wire m a ((encodeWireAnswers as).take (k - a.encode.length))
        spare fuel ha haf
      have hs := Slice.sliceFrom_append a.encode
        ((encodeWireAnswers as).take (k - a.encode.length)) spare a.encode.length rfl
      have hrec := ih (k - a.encode.length) (fun x hx => hv x (List.mem_cons_of_mem _ hx))
        (fun x hx => hf x (List.mem_cons_of_mem _ hx)) (by omega)
      rw [htake]
      simp only [List.length_cons, decodeAnswers, hd, hs, hrec, Run.ok_bind, Run.panic_bind]

theorem wireHeader_length (idFlags nsAr : Bytes) (qdcount ancount : Nat)
    (hid : idFlags.length = 4) (hns : nsAr.length = 4) :
    (wireHeader idFlags qdcount ancount nsAr).length = 12 := by
  simp [wireHeader, binaryBigEndianUint16, hid, hns]

/-- Every strict prefix of a well-formed response makes `parseMessage` panic. -/
theorem parseMessage_truncated (idFlags nsAr : Bytes) (qs : List WireQuestion)
    (as : List WireAnswer) (spare : Bytes) (fuel n : Nat)
    (hid : idFlags.length = 4) (hns : nsAr.length = 4)
    (hqn : qs.length < 65536) (han : as.length < 65536)
    (hq : ∀ q ∈ qs, q.valid) (ha : ∀ a ∈ as, a.valid)
    (hqf : ∀ q ∈ qs, q.labels.length < fuel) (haf : ∀ a ∈ as, a.labels.length < fuel)
    (hn : n < (wireHeader idFlags qs.length as.length nsAr
        ++ (encodeWireQuestions qs ++ encodeWireAnswers as)).length) :
    parseMessage ⟨(wireHeader idFlags qs.length as.length nsAr
        ++ (encodeWireQuestions qs ++ encodeWireAnswers as)).take n, spare⟩ fuel = .panic := by
  have hlen := wireHeader_length idFlags nsAr qs.length as.length hid hns
  rw [List.length_append, hlen, List.length_append] at hn
  rcases Nat.lt_or_ge n 12 with hshort | hlong
  · apply parseMessage_short
    simp only [Slice.len, List.length_take]
    omega
  · have htake : (wireHeader idFlags qs.length as.length nsAr
        ++ (encodeWireQuestions qs ++ encodeWireAnswers as)).take n
        = wireHeader idFlags qs.length as.length nsAr
          ++ (encodeWireQuestions qs ++ encodeWireAnswers as).take (n - 12) := by
      rw [List.take_append_eq_append_take, List.take_of_length_le (by omega), hlen]
    rw [htake, parseMessage_header idFlags nsAr qs.length as.length _ spare fuel hid hns hqn han]
    rcases Nat.lt_or_ge (n - 12) (encodeWireQuestions qs).length with hinq | hina
    · rw [List.take_append_of_le_length (by omega),
        skipQuestions_truncated_section _ spare fuel qs (n - 12) hq hqf hinq]
      rfl
    · rw [List.take_append_eq_append_take, List.take_of_length_le hina]
      have hskip := skipQuestions_wire
        ⟨wireHeader idFlags qs.length as.length nsAr ++ (encodeWireQuestions qs
          ++ (encodeWireAnswers as).take (n - 12 - (encodeWireQuestions qs).length)), spare⟩
        spare fuel qs
        ((encodeWireAnswers as).take (n - 12 - (encodeWireQuestions qs).length)) hq hqf
      rw [hskip]
      simp only [Run.ok_bind]
      rw [decodeAnswers_truncated_section _ spare fuel as _ ha haf (by omega)]
      rfl


/-! ### Walking an encoded question section -/

theorem encodeQuestion_wire (q : Question) : encodeQuestion q = q.wire.encode := by
  simp [encodeQuestion, Question.wire, WireQuestion.encode]

theorem encodeQuestions_wire (qs : List Question) :
    encodeQuestions qs = encodeWireQuestions (qs.map Question.wire) := by
  induction qs with
  | nil => rfl
  | cons q qs ih => simp [encodeQuestions, encodeWireQuestions, encodeQuestion_wire, ih]

theorem encodeMessage_eq (qs : List Question) :
    encodeMessage qs = wireHeader [0, 0, 1, 16] (qs.length % 65536) 0 [0, 0, 0, 0]
      ++ encodeQuestions qs := by
  simp [encodeMessage, wireHeader, binaryBigEndianUint16]

theorem encodeMessage_drop (qs : List Question) :
    (encodeMessage qs).drop 12 = encodeQuestions qs := by
  simp [encodeMessage, binaryBigEndianUint16]

theorem walkQuestions_wire (m : Slice) (spare : Bytes) (fuel : Nat) :
    ∀ (qs : List WireQuestion) (post : Bytes),
      (∀ q ∈ qs, q.valid) → (∀ q ∈ qs, q.labels.length < fuel) →
      walkQuestions m fuel qs.length ⟨encodeWireQuestions qs ++ post, spare⟩
        = .ok (qs.map (fun q => ⟨dotted q.labels, q.typ, q.cls⟩), ⟨post, spare⟩) := by
  intro qs
  induction qs with
  | nil => intro post _ _; rfl
  | cons q qs ih =>
    intro post hv hf
    have hq := decodeQuestion_wire m q (encodeWireQuestions qs ++ post) spare fuel
      (hv q (List.mem_cons_self _ _)) (hf q (List.mem_cons_self _ _))
    have hs := Slice.sliceFrom_append q.encode (encodeWireQuestions qs ++ post) spare
      q.encode.length rfl
    have hrec := ih post (fun x hx => hv x (List.mem_cons_of_mem _ hx))
      (fun x hx => hf x (List.mem_cons_of_mem _ hx))
    simp only [encodeWireQuestions, List.append_assoc, List.length_cons, walkQuestions,
      hq, hs, hrec, Run.ok_bind, Run.pure_eq, List.map_cons]

/-! ### Length octets of an encoded name -/

theorem lengthOctetPosition_succ (l : Bytes) (ls : List Bytes) (i : Nat) :
    lengthOctetPosition (l :: ls) (i + 1) = 1 + l.length + lengthOctetPosition ls i := by
  simp [lengthOctetPosition]

theorem encodeLabels_octet (post : Bytes) : ∀ (labels : List Bytes) (i : Nat),
    i ≤ labels.length →
    (encodeLabels labels ++ 0 :: post).getD (lengthOctetPosition labels i) 0
      = if i < labels.length then (labels.getD i []).length % 256 else 0 := by
  intro labels
  induction labels with
  | nil =>
    intro i hi
    have : i = 0 := by simpa using hi
    subst this
    simp [lengthOctetPosition, encodeLabels]
  | cons l ls ih =>
    intro i hi
    cases i with
    | zero => simp [lengthOctetPosition, encodeLabels]
    | succ i =>
      have hi2 : i ≤ ls.length := by simpa using hi
      rw [lengthOctetPosition_succ]
      have hdrop : (encodeLabels (l :: ls) ++ 0 :: post).getD
          (1 + l.length + lengthOctetPosition ls i) 0
          = (encodeLabels ls ++ 0 :: post).getD (lengthOctetPosition ls i) 0 := by
        simp only [encodeLabels, List.cons_append, List.append_assoc]
        rw [Nat.add_assoc, Nat.add_comm 1, List.getD_cons_succ, List.getD_append_right _ _ _ _
          (by omega)]
        congr 1
        omega
      rw [hdrop, ih i hi2]
      simp

/-- A message that holds a header and inline questions only, with ANCOUNT 0:
`parseMessage` returns no record. -/
theorem parseMessage_questions_only (idFlags nsAr : Bytes) (qs : List WireQuestion)
    (rest spare : Bytes) (fuel : Nat)
    (hid : idFlags.length = 4) (hns : nsAr.length = 4) (hqn : qs.length < 65536)
    (hq : ∀ q ∈ qs, q.valid) (hqf : ∀ q ∈ qs, q.labels.length < fuel) :
    parseMessage ⟨wireHeader idFlags qs.length 0 nsAr ++ (encodeWireQuestions qs ++ rest),
        spare⟩ fuel = .ok ([], none) := by
  rw [parseMessage_after_questions idFlags nsAr qs 0 _ spare fuel hid hns hqn (by decide)
    hq hqf]
  rfl

/-! ### The number of records -/

theorem decodeAnswers_eq_steps (m : Slice) (fuel : Nat) : ∀ (count : Nat) (buf : Slice),
    decodeAnswers m fuel count buf
      = (decodeAnswersSteps m fuel count buf >>= fun steps => pure (steps.map Prod.fst)) := by
  intro count
  induction count with
  | zero => intro buf; rfl
  | succ n ih =>
    intro buf
    simp only [decodeAnswers, decodeAnswersSteps]
    cases hd : decodeAnswer m fuel buf with
    | panic => rfl
    | timeout => rfl
    | ok r =>
      obtain ⟨answer, offset⟩ := r
      simp only [Run.ok_bind]
      cases hs : buf.sliceFrom offset with
      | panic => rfl
      | timeout => rfl
      | ok buf2 =>
        simp only [Run.ok_bind, ih buf2]
        cases decodeAnswersSteps m fuel n buf2 <;> rfl

theorem parseNameLoop_advance (m : Slice) : ∀ (fuel : Nat) (b : Slice) (name : Bytes)
    (offset : Nat) (r : Bytes × Nat),
    parseNameLoop m fuel b name offset = .ok r → 1 ≤ r.2 := by
  intro fuel
  induction fuel with
  | zero => intro b name offset r h; simp [parseNameLoop] at h
  | succ f ih =>
    intro b name offset r h
    rw [parseNameLoop] at h
    simp only [Run.bind_eq_ok] at h
    obtain ⟨len, _, h⟩ := h
    by_cases h0 : len = 0
    · simp only [h0, if_true, Run.pure_eq, Run.ok.injEq] at h
      subst h
      simp
    · simp only [h0, if_false] at h
      by_cases hc : len &&& 0xC0 = 0xC0
      · simp only [hc, if_true, Run.bind_eq_ok, Run.pure_eq, Run.ok.injEq] at h
        obtain ⟨_, _, _, _, _, _, _, _, _, _, h⟩ := h
        subst h
        simp
      · simp only [hc, if_false, Run.bind_eq_ok] at h
        obtain ⟨_, _, h⟩ := h
        exact ih _ _ _ _ h

theorem decodeAnswer_advance (m : Slice) (fuel : Nat) (a : Slice) (r : Record × Nat)
    (h : decodeAnswer m fuel a = .ok r) : 11 ≤ r.2 := by
  simp only [decodeAnswer, Run.bind_eq_ok, Run.pure_eq, Run.ok.injEq] at h
  obtain ⟨p, hp, _, _, _, _, _, _, _, _, _, _, _, _, _, _, _, _, _, _, h⟩ := h
  have := parseNameLoop_advance m fuel a [] 0 p hp
  subst h
  simp only
  omega

theorem decodeAnswersSteps_spec (m : Slice) (fuel : Nat) : ∀ (count : Nat) (buf : Slice)
    (steps : List (Record × Nat)), decodeAnswersSteps m fuel count buf = .ok steps →
    steps.length = count ∧ ∀ s ∈ steps, 11 ≤ s.2 := by
  intro count
  induction count with
  | zero =>
    intro buf steps h
    simp only [decodeAnswersSteps, Run.pure_eq, Run.ok.injEq] at h
    subst h
    simp
  | succ n ih =>
    intro buf steps h
    simp only [decodeAnswersSteps, Run.bind_eq_ok, Run.pure_eq, Run.ok.injEq] at h
    obtain ⟨r, hr, buf2, _, rest, hrest, h⟩ := h
    subst h
    obtain ⟨hl, hall⟩ := ih buf2 rest hrest
    refine ⟨by simp [hl], ?_⟩
    intro s hs
    rcases List.mem_cons.1 hs with rfl | hs
    · exact decodeAnswer_advance m fuel buf r hr
    · exact hall s hs

/-- A 16-bit field that stands within the length of the message. -/
theorem header_field (d sp : Bytes) (i : Nat) (s : Slice) (v : Nat)
    (hlen : i + 2 ≤ d.length) (hs : Slice.slice ⟨d, sp⟩ i (i + 2) = .ok s)
    (hv : bigEndianUint16 s = .ok v) :
    v = d.getD (i + 1) 0 ||| (d.getD i 0 <<< 8) := by
  simp only [Slice.slice, Slice.cap] at hs
  rw [if_pos (by simp; omega)] at hs
  simp only [Run.ok.injEq] at hs
  subst hs
  have hget : ∀ j, j < d.length → d[j]? = some (d.getD j 0) := by
    intro j hj
    simp [List.getD_eq_getElem?_getD, List.getElem?_eq_getElem hj]
  have h0 : (List.take (i + 2 - i) (List.drop i (d ++ sp)))[0]? = some (d.getD i 0) := by
    rw [List.getElem?_take, if_pos (by omega), List.getElem?_drop,
      List.getElem?_append_left (by omega)]
    exact hget _ (by omega)
  have h1 : (List.take (i + 2 - i) (List.drop i (d ++ sp)))[1]? = some (d.getD (i + 1) 0) := by
    rw [List.getElem?_take, if_pos (by omega), List.getElem?_drop,
      List.getElem?_append_left (by omega)]
    exact hget _ (by omega)
  simp only [bigEndianUint16, Slice.index, h0, h1, Run.ok_bind, Run.pure_eq, Run.ok.injEq] at hv
  exact hv.symm

/-- What a run of `parseMessage` that returns has done. -/
theorem parseMessage_returns (m : Slice) (fuel : Nat) (rs : List Record) (e : Option String)
    (h : parseMessage m fuel = .ok (rs, e)) :
    12 ≤ m.len ∧ ∃ start,
      skipQuestions m fuel (m.data.getD 5 0 ||| (m.data.getD 4 0 <<< 8))
          ⟨m.data.drop 12, m.spare⟩ = .ok start
        ∧ decodeAnswers m fuel (m.data.getD 7 0 ||| (m.data.getD 6 0 <<< 8)) start = .ok rs := by
  obtain ⟨d, sp⟩ := m
  simp only [parseMessage, Run.bind_eq_ok, Run.pure_eq, Run.ok.injEq, Prod.mk.injEq] at h
  obtain ⟨s1, hs1, qd, hqd, s2, hs2, an, han, buf, hbuf, start, hstart, answers, hans, rfl, _⟩ := h
  have hlen : 12 ≤ d.length := by
    simp only [Slice.sliceFrom, Slice.len] at hbuf
    by_contra hc
    rw [if_neg hc] at hbuf
    cases hbuf
  have hbuf2 : buf = ⟨d.drop 12, sp⟩ := by
    simp only [Slice.sliceFrom, Slice.len] at hbuf
    rw [if_pos hlen] at hbuf
    cases hbuf
    rfl
  have hq := header_field d sp 4 s1 qd (by omega) hs1 hqd
  have ha := header_field d sp 6 s2 an (by omega) hs2 han
  subst hq ha hbuf2
  exact ⟨hlen, start, hstart, hans⟩

theorem big_endian_or (hi lo : Nat) (h : lo < 256) : lo ||| (hi <<< 8) = hi * 256 + lo := by
  have := or_shiftLeft lo hi 8 (by simpa using h)
  simpa using this

/-! ### A run that returns reads only what it was given -/

theorem Slice.index_extend (d r s : Bytes) (i v : Nat)
    (h : Slice.index ⟨d, []⟩ i = .ok v) : Slice.index ⟨d ++ r, s⟩ i = .ok v := by
  simp only [Slice.index] at h ⊢
  cases hd : d[i]? with
  | none => simp [hd] at h
  | some b =>
    have hi : i < d.length := by
      rcases Nat.lt_or_ge i d.length with hi | hi
      · exact hi
      · rw [List.getElem?_eq_none hi] at hd; cases hd
    rw [hd] at h
    rw [List.getElem?_append_left hi, hd]
    exact h

theorem Slice.slice_extend (d r s : Bytes) (lo hi : Nat) (x : Slice)
    (h : Slice.slice ⟨d, []⟩ lo hi = .ok x) :
    ∃ x2, Slice.slice ⟨d ++ r, s⟩ lo hi = .ok x2 ∧ x2.data = x.data := by
  simp only [Slice.slice, Slice.cap, List.length_nil, Nat.add_zero, List.append_nil] at h ⊢
  by_cases hc : lo ≤ hi ∧ hi ≤ d.length
  · rw [if_pos hc] at h
    rw [if_pos ⟨hc.1, by simp only [List.length_append]; omega⟩]
    refine ⟨_, rfl, ?_⟩
    cases h
    simp only [List.append_assoc]
    rw [List.drop_append_of_le_length (by omega), List.take_append_of_le_length]
    simp only [List.length_drop]
    omega
  · rw [if_neg hc] at h
    cases h

theorem Slice.sliceFrom_extend (d r s : Bytes) (lo : Nat) (c : Slice)
    (h : Slice.sliceFrom ⟨d, []⟩ lo = .ok c) :
    c = ⟨d.drop lo, []⟩ ∧ Slice.sliceFrom ⟨d ++ r, s⟩ lo = .ok ⟨d.drop lo ++ r, s⟩ := by
  simp only [Slice.sliceFrom, Slice.len] at h ⊢
  by_cases hc : lo ≤ d.length
  · rw [if_pos hc] at h
    rw [if_pos (by simp only [List.length_append]; omega)]
    cases h
    exact ⟨rfl, by rw [List.drop_append_of_le_length hc]⟩
  · rw [if_neg hc] at h
    cases h

theorem bigEndianUint16_data (x y : Slice) (h : y.data = x.data) :
    bigEndianUint16 y = bigEndianUint16 x := by
  simp only [bigEndianUint16, Slice.index, h]

theorem bigEndianUint32_data (x y : Slice) (h : y.data = x.data) :
    bigEndianUint32 y = bigEndianUint32 x := by
  simp only [bigEndianUint32, Slice.index, h]

theorem parseNameLoop_extend (msg more spare : Bytes) : ∀ (fuel : Nat) (d r s name : Bytes)
    (offset : Nat) (res : Bytes × Nat),
    parseNameLoop ⟨msg, []⟩ fuel ⟨d, []⟩ name offset = .ok res →
    parseNameLoop ⟨msg ++ more, spare⟩ fuel ⟨d ++ r, s⟩ name offset = .ok res := by
  intro fuel
  induction fuel with
  | zero => intro d r s name offset res h; simp [parseNameLoop] at h
  | succ f ih =>
    intro d r s name offset res h
    rw [parseNameLoop] at h ⊢
    rw [Run.bind_eq_ok] at h
    obtain ⟨len, hlen, h⟩ := h
    rw [Slice.index_extend d r s offset len hlen, Run.ok_bind]
    by_cases h0 : len = 0
    · simpa only [h0, if_true] using h
    · simp only [h0, if_false] at h ⊢
      by_cases hc : len &&& 0xC0 = 0xC0
      · simp only [hc, if_true, Run.bind_eq_ok] at h ⊢
        obtain ⟨hi, hhi, lo, hlo, v, hv, target, htarget, p, hp, hres⟩ := h
        obtain ⟨rfl, htarget2⟩ := Slice.sliceFrom_extend msg more spare _ target htarget
        exact ⟨hi, hlen.symm.trans hhi, lo, Slice.index_extend d r s _ lo hlo,
          v, hv, _, htarget2, p, ih _ _ _ _ _ _ hp, hres⟩
      · simp only [hc, if_false, Run.bind_eq_ok] at h ⊢
        obtain ⟨label, hlabel, h⟩ := h
        obtain ⟨label2, hlabel2, hdata⟩ := Slice.slice_extend d r s _ _ label hlabel
        refine ⟨label2, hlabel2, ?_⟩
        rw [hdata]
        exact ih _ _ _ _ _ _ h

theorem decodeQuestion_extend (msg more spare : Bytes) (fuel : Nat) (d r s : Bytes)
    (res : Question × Nat) (h : decodeQuestion ⟨msg, []⟩ fuel ⟨d, []⟩ = .ok res) :
    decodeQuestion ⟨msg ++ more, spare⟩ fuel ⟨d ++ r, s⟩ = .ok res := by
  simp only [decodeQuestion, parseName, Run.bind_eq_ok] at h ⊢
  obtain ⟨⟨name, offset⟩, hp, x1, hx1, v1, hv1, x2, hx2, v2, hv2, hres⟩ := h
  obtain ⟨y1, hy1, hd1⟩ := Slice.slice_extend d r s _ _ x1 hx1
  obtain ⟨y2, hy2, hd2⟩ := Slice.slice_extend d r s _ _ x2 hx2
  exact ⟨(name, offset), parseNameLoop_extend msg more spare fuel d r s [] 0 _ hp,
    y1, hy1, v1, (bigEndianUint16_data x1 y1 hd1).trans hv1,
    y2, hy2, v2, (bigEndianUint16_data x2 y2 hd2).trans hv2, hres⟩

theorem decodeAnswer_extend (msg more spare : Bytes) (fuel : Nat) (d r s : Bytes)
    (res : Record × Nat) (h : decodeAnswer ⟨msg, []⟩ fuel ⟨d, []⟩ = .ok res) :
    decodeAnswer ⟨msg ++ more, spare⟩ fuel ⟨d ++ r, s⟩ = .ok res := by
  simp only [decodeAnswer, parseName, Run.bind_eq_ok] at h ⊢
  obtain ⟨⟨name, offset⟩, hp, x1, hx1, v1, hv1, x2, hx2, v2, hv2, x3, hx3, v3, hv3,
    x4, hx4, v4, hv4, x5, hx5, hres⟩ := h
  obtain ⟨y1, hy1, hd1⟩ := Slice.slice_extend d r s _ _ x1 hx1
  obtain ⟨y2, hy2, hd2⟩ := Slice.slice_extend d r s _ _ x2 hx2
  obtain ⟨y3, hy3, hd3⟩ := Slice.slice_extend d r s _ _ x3 hx3
  obtain ⟨y4, hy4, hd4⟩ := Slice.slice_extend d r s _ _ x4 hx4
  obtain ⟨y5, hy5, hd5⟩ := Slice.slice_extend d r s _ _ x5 hx5
  refine ⟨(name, offset), parseNameLoop_extend msg more spare fuel d r s [] 0 _ hp,
    y1, hy1, v1, (bigEndianUint16_data x1 y1 hd1).trans hv1,
    y2, hy2, v2, (bigEndianUint16_data x2 y2 hd2).trans hv2,
    y3, hy3, v3, (bigEndianUint32_data x3 y3 hd3).trans hv3,
    y4, hy4, v4, (bigEndianUint16_data x4 y4 hd4).trans hv4,
    y5, hy5, ?_⟩
  rw [hd5]
  exact hres

theorem skipQuestions_extend (msg more spare : Bytes) (fuel : Nat) :
    ∀ (count : Nat) (d r s : Bytes) (c : Slice),
      skipQuestions ⟨msg, []⟩ fuel count ⟨d, []⟩ = .ok c →
      ∃ d2, c = ⟨d2, []⟩
        ∧ skipQuestions ⟨msg ++ more, spare⟩ fuel count ⟨d ++ r, s⟩ = .ok ⟨d2 ++ r, s⟩ := by
  intro count
  induction count with
  | zero =>
    intro d r s c h
    simp only [skipQuestions, Run.pure_eq, Run.ok.injEq] at h
    exact ⟨d, h.symm, rfl⟩
  | succ n ih =>
    intro d r s c h
    simp only [skipQuestions, Run.bind_eq_ok] at h ⊢
    obtain ⟨⟨q, offset⟩, hq, buf, hbuf, h⟩ := h
    obtain ⟨rfl, hbuf2⟩ := Slice.sliceFrom_extend d r s offset buf hbuf
    obtain ⟨d2, hc, hrec⟩ := ih _ r s c h
    exact ⟨d2, hc, (q, offset), decodeQuestion_extend msg more spare fuel d r s _ hq,
      _, hbuf2, hrec⟩

theorem decodeAnswers_extend (msg more spare : Bytes) (fuel : Nat) :
    ∀ (count : Nat) (d r s : Bytes) (rs : List Record),
      decodeAnswers ⟨msg, []⟩ fuel count ⟨d, []⟩ = .ok rs →
      decodeAnswers ⟨msg ++ more, spare⟩ fuel count ⟨d ++ r, s⟩ = .ok rs := by
  intro count
  induction count with
  | zero =>
    intro d r s rs h
    simpa only [decodeAnswers] using h
  | succ n ih =>
    intro d r s rs h
    simp only [decodeAnswers, Run.bind_eq_ok] at h ⊢
    obtain ⟨⟨a, offset⟩, ha, buf, hbuf, rest, hrest, h⟩ := h
    obtain ⟨rfl, hbuf2⟩ := Slice.sliceFrom_extend d r s offset buf hbuf
    exact ⟨(a, offset), decodeAnswer_extend msg more spare fuel d r s _ ha,
      _, hbuf2, rest, ih _ r s rest hrest, h⟩

/-- A run of `parseMessage` that returns on a buffer of capacity equal to its
length returns the same on every buffer that starts with the same bytes. -/
theorem parseMessage_extend (msg more spare : Bytes) (fuel : Nat)
    (res : List Record × Option String) (h : parseMessage ⟨msg, []⟩ fuel = .ok res) :
    parseMessage ⟨msg ++ more, spare⟩ fuel = .ok res := by
  simp only [parseMessage, Run.bind_eq_ok] at h ⊢
  obtain ⟨x1, hx1, qd, hqd, x2, hx2, an, han, buf, hbuf, start, hstart, answers, hans,
    hres⟩ := h
  obtain ⟨y1, hy1, hd1⟩ := Slice.slice_extend msg more spare _ _ x1 hx1
  obtain ⟨y2, hy2, hd2⟩ := Slice.slice_extend msg more spare _ _ x2 hx2
  obtain ⟨rfl, hbuf2⟩ := Slice.sliceFrom_extend msg more spare 12 buf hbuf
  obtain ⟨d2, rfl, hskip⟩ := skipQuestions_extend msg more spare fuel qd _ more spare start
    hstart
  exact ⟨y1, hy1, qd, (bigEndianUint16_data x1 y1 hd1).trans hqd,
    y2, hy2, an, (bigEndianUint16_data x2 y2 hd2).trans han,
    _, hbuf2, _, hskip, answers,
    decodeAnswers_extend msg more spare fuel an d2 more spare answers hans, hres⟩


/-! ### A pointer to its own position -/

/-- A call of `parseName` on a slice that starts with `C0 0C`, in a message
whose offset 12 is the start of that slice, is a call of `parseName` on the
same slice. -/
theorem parseNameLoop_self_pointer_step (head tail spare name : Bytes) (fuel : Nat)
    (hh : head.length = 12) :
    parseNameLoop ⟨head ++ 0xC0 :: 0x0C :: tail, spare⟩ (fuel + 1)
        ⟨0xC0 :: 0x0C :: tail, spare⟩ name 0
      = (parseNameLoop ⟨head ++ 0xC0 :: 0x0C :: tail, spare⟩ fuel
          ⟨0xC0 :: 0x0C :: tail, spare⟩ [] 0 >>= fun r => pure (r.1, 2)) := by
  have h := parseNameLoop_pointer ⟨head ++ 0xC0 :: 0x0C :: tail, spare⟩ fuel [] tail spare
    name 0xC0 0x0C (by decide) (by decide)
  have hptr : (0xC0 * 256 + 0x0C) &&& 0x3FFF = 12 := by decide
  simp only [List.nil_append, List.length_nil] at h
  rw [h, hptr, Slice.sliceFrom_append head _ spare 12 hh.symm]
  rfl

theorem parseNameLoop_self_pointer (head tail spare : Bytes) (hh : head.length = 12) :
    ∀ (fuel : Nat) (name : Bytes),
      parseNameLoop ⟨head ++ 0xC0 :: 0x0C :: tail, spare⟩ fuel
        ⟨0xC0 :: 0x0C :: tail, spare⟩ name 0 = .timeout := by
  intro fuel
  induction fuel with
  | zero => intro name; rfl
  | succ f ih =>
    intro name
    rw [parseNameLoop_self_pointer_step head tail spare name f hh, ih []]
    rfl

theorem parseNameDepth_self_pointer (head tail spare : Bytes) (hh : head.length = 12) :
    ∀ (fuel : Nat),
      parseNameDepth ⟨head ++ 0xC0 :: 0x0C :: tail, spare⟩ fuel
        ⟨0xC0 :: 0x0C :: tail, spare⟩ 0 = fuel := by
  intro fuel
  induction fuel with
  | zero => rfl
  | succ f ih =>
    have hidx : Slice.index ⟨0xC0 :: 0x0C :: tail, spare⟩ 0 = .ok 0xC0 := rfl
    have hidx1 : Slice.index ⟨0xC0 :: 0x0C :: tail, spare⟩ (0 + 1) = .ok 0x0C := by
      simp [Slice.index]
    have hbe : bigEndianUint16 ⟨[0xC0, 0x0C], []⟩ = .ok 0xC00C := by decide
    have hptr : 0xC00C &&& 0x3FFF = 12 := by decide
    rw [parseNameDepth]
    simp only [hidx, hidx1, hbe, hptr, Slice.sliceFrom_append head _ spare 12 hh.symm, ih]
    simp
    omega

/-! ### Labels in front of a pointer -/

/-- The loop of `parseName` over inline labels: after one iteration per label
the labels stand in the name, each followed by a dot, and the offset is behind
them. -/
theorem parseNameLoop_labels (m : Slice) (post spare : Bytes) :
    ∀ (labels : List Bytes) (pre name : Bytes) (fuel : Nat),
      (∀ l ∈ labels, 0 < l.length ∧ l.length ≤ 63) →
      parseNameLoop m (fuel + labels.length) ⟨pre ++ (encodeLabels labels ++ post), spare⟩
          name pre.length
        = parseNameLoop m fuel ⟨pre ++ (encodeLabels labels ++ post), spare⟩
            (name ++ dotted labels) (pre.length + (encodeLabels labels).length) := by
  intro labels
  induction labels with
  | nil =>
    intro pre name fuel _
    simp [encodeLabels, dotted]
  | cons l ls ih =>
    intro pre name fuel hl
    have hl1 := hl l (List.mem_cons_self _ _)
    have hmod : l.length % 256 = l.length := Nat.mod_eq_of_lt (by omega)
    have hidx : Slice.index ⟨pre ++ (encodeLabels (l :: ls) ++ post), spare⟩ pre.length
        = .ok l.length := by
      simp only [encodeLabels, hmod, List.cons_append]
      exact Slice.index_append pre _ spare _ _ rfl
    have hsl : Slice.slice ⟨pre ++ (encodeLabels (l :: ls) ++ post), spare⟩
        (pre.length + 1) (pre.length + 1 + l.length)
        = .ok ⟨l, (encodeLabels ls ++ post) ++ spare⟩ := by
      have := Slice.slice_append (pre ++ [l.length]) l (encodeLabels ls ++ post) spare
        (pre.length + 1) (pre.length + 1 + l.length) (by simp) rfl
      simpa [encodeLabels, hmod] using this
    have hdata : pre ++ (encodeLabels (l :: ls) ++ post)
        = (pre ++ l.length :: l) ++ (encodeLabels ls ++ post) := by
      simp [encodeLabels, hmod]
    have hrec := ih (pre ++ l.length :: l) (name ++ l ++ [dot]) fuel
      (fun x hx => hl x (List.mem_cons_of_mem _ hx))
    have hfuel : fuel + (l :: ls).length = (fuel + ls.length) + 1 := rfl
    rw [hfuel, parseNameLoop]
    simp only [hidx, hsl, Run.ok_bind]
    rw [if_neg (by omega), if_neg (label_length_not_pointer _ hl1.2)]
    rw [hdata]
    have hoff : pre.length + 1 + l.length = (pre ++ l.length :: l).length := by simp; omega
    rw [hoff, hrec]
    congr 1
    · simp [dotted]
    · simp [encodeLabels, hmod]
      omega

/-! ### A trailing dot -/

theorem stringsSplit_ne_nil (s : Bytes) : stringsSplit s ≠ [] := by
  cases s with
  | nil => simp [stringsSplit]
  | cons c cs =>
    by_cases hc : c = dot
    · simp [stringsSplit, hc]
    · cases hs : stringsSplit cs <;> simp [stringsSplit, hc, hs]

/-- Go `strings.Split(s + ".", ".")` is `strings.Split(s, ".")` followed by
an empty piece. -/
theorem stringsSplit_append_dot (s : Bytes) :
    stringsSplit (s ++ [dot]) = stringsSplit s ++ [[]] := by
  induction s with
  | nil => rfl
  | cons c cs ih =>
    by_cases hc : c = dot
    · simp [stringsSplit, hc] at ih ⊢
      exact ih
    · cases hs : stringsSplit cs with
      | nil => exact absurd hs (stringsSplit_ne_nil cs)
      | cons l ls =>
        rw [hs] at ih
        simp [stringsSplit, hc, hs, ih]

theorem encodeLabels_append (xs ys : List Bytes) :
    encodeLabels (xs ++ ys) = encodeLabels xs ++ encodeLabels ys := by
  induction xs with
  | nil => rfl
  | cons x xs ih => simp [encodeLabels, ih]

/-! ### The number of records -/

/-- For every buffer (of bytes below 256) on which `parseMessage` returns, the
number of records returned is the wire ANCOUNT, the big-endian 16-bit integer
at offset 6..7 of the header: after the QDCOUNT questions the answer loop makes
exactly ANCOUNT steps, one record each, and every step moves the cursor
forward, by at least 11 bytes. -/
theorem parseMessage_record_count (m : Slice) (fuel : Nat) (rs : List Record)
    (e : Option String) (hbytes : ∀ b ∈ m.data, b < 256)
    (hret : parseMessage m fuel = .ok (rs, e)) :
    rs.length = ancountField m.data
      ∧ ∃ start steps,
          skipQuestions m fuel (qdcountField m.data) ⟨m.data.drop 12, m.spare⟩ = .ok start
            ∧ decodeAnswersSteps m fuel (ancountField m.data) start = .ok steps
            ∧ steps.map Prod.fst = rs
            ∧ steps.length = ancountField m.data
            ∧ ∀ s ∈ steps, 11 ≤ s.2 := by
  obtain ⟨hlen, start, hskip, hans⟩ := parseMessage_returns m fuel rs e hret
  have hb : ∀ i, m.data.getD i 0 < 256 := by
    intro i
    rcases Nat.lt_or_ge i m.data.length with hi | hi
    · rw [List.getD_eq_getElem _ _ hi]
      exact hbytes _ (List.getElem_mem _)
    · rw [List.getD_eq_default _ _ hi]
      decide
  rw [big_endian_or _ _ (hb 5)] at hskip
  rw [big_endian_or _ _ (hb 7), decodeAnswers_eq_steps, Run.bind_eq_ok] at hans
  obtain ⟨steps, hsteps, hmap⟩ := hans
  simp only [Run.pure_eq, Run.ok.injEq] at hmap
  obtain ⟨hcount, hadv⟩ := decodeAnswersSteps_spec m fuel _ start steps hsteps
  refine ⟨?_, start, steps, hskip, hsteps, hmap, hcount, hadv⟩
  rw [← hmap, List.length_map]
  exact hcount

/-! ### The HTTPS exchange -/

/-- For every network and every query `q`, `LookupRaw` builds a POST of
exactly `q` to `https://<Host>/dns-query` with the two `application/dns-message`
headers and sends it once, with the Resolver's client (the default one when it
has none). It returns an error if and only if the request cannot be built, or
`client.Do` fails, or the status is not 200, or reading the body fails;
otherwise it returns exactly the bytes read from the body of the response. -/
theorem lookupRaw_result (net : Network) (r : Resolver) (q : Bytes) :
    (r.request q).Body = q
      ∧ (r.request q).Method = ascii "POST"
      ∧ (r.request q).URL = ascii "https://" ++ r.Host ++ ascii "/dns-query"
      ∧ (r.request q).Header = [(ascii "Accept", ascii "application/dns-message"),
          (ascii "Content-Type", ascii "application/dns-message")]
      ∧ (∀ buf, (r.LookupRaw net q).2 = .ok buf ↔
          net.requestError (ascii "POST") r.url = none
            ∧ ∃ resp, net.Do (r.client.getD Client.DefaultClient) (r.request q) = .ok resp
              ∧ resp.StatusCode = 200 ∧ resp.Body = .ok buf)
      ∧ ((∃ err, (r.LookupRaw net q).2 = .error err) ↔
          net.requestError (ascii "POST") r.url ≠ none
            ∨ (∃ err, net.Do (r.client.getD Client.DefaultClient) (r.request q) = .error err)
            ∨ ∃ resp, net.Do (r.client.getD Client.DefaultClient) (r.request q) = .ok resp
              ∧ (resp.StatusCode ≠ 200 ∨ ∃ err, resp.Body = .error err)) := by
  have hclient : (if r.client = none then { r with client := some Client.DefaultClient }
      else r).client.getD Client.DefaultClient = r.client.getD Client.DefaultClient := by
    split
    · rename_i h; simp [h]
    · rfl
  have hraw : (r.LookupRaw net q).2 = (r.lookup net q).2 := by
    unfold Resolver.LookupRaw
    split <;> simp_all
  refine ⟨rfl, rfl, rfl, rfl, ?_, ?_⟩
  · intro buf
    rw [hraw]
    unfold Resolver.lookup
    cases hreq : net.requestError (ascii "POST") r.url with
    | some err => simp
    | none =>
      simp only [hclient]
      cases hdo : net.Do (r.client.getD Client.DefaultClient) (r.request q) with
      | error err => simp
      | ok resp =>
        by_cases hs : resp.StatusCode = 200
        · cases hb : resp.Body with
          | error err => simp [hs, hb]
          | ok b => simp [hs, hb]
        · simp [hs]
  · rw [hraw]
    unfold Resolver.lookup
    cases hreq : net.requestError (ascii "POST") r.url with
    | some err => simp
    | none =>
      simp only [hclient]
      cases hdo : net.Do (r.client.getD Client.DefaultClient) (r.request q) with
      | error err => simp
      | ok resp =>
        by_cases hs : resp.StatusCode = 200
        · cases hb : resp.Body with
          | error err => simp [hs, hb]
          | ok b => simp [hs, hb]
        · simp [hs]

/-! ### A prefix that is accepted -/

/-- The first 33 bytes of `labelPointerResponse`, which end inside its answer
record (offsets 21..38), are accepted: the name of the record is a label
followed by a pointer, the advance of `parseName` is 2, and the fixed fields
are read two bytes early, with RDLENGTH 0. -/
theorem parseMessage_labelPointer_prefix :
    parseMessage ⟨labelPointerResponse.take 33, []⟩ 4
      = .ok ([⟨[99, 111, 109, 46], 0xC00C, 1, 65536, []⟩], none) := by
  decide

/-! ## The claims -/

/-- C1, as the code has it: for every Question whose FQDN is a dot-separated
sequence of labels of 1 to 63 bytes (Type and Class being 16-bit values),
`decodeQuestion` applied to the bytes of `encodeQuestion q` returns the Type
and the Class of `q` and its FQDN followed by a dot, and the number of bytes of
the encoding as the cursor advance. -/
theorem decodeQuestion_encodeQuestion (m : Slice) (spare : Bytes) (q : Question) (fuel : Nat)
    (hl : validLabels (stringsSplit q.FQDN)) (ht : q.Typ < 65536) (hc : q.Cls < 65536)
    (hf : (stringsSplit q.FQDN).length < fuel) :
    decodeQuestion m fuel ⟨encodeQuestion q, spare⟩
      = .ok (⟨q.FQDN ++ [dot], q.Typ, q.Cls⟩, (encodeQuestion q).length) := by
  have h := decodeQuestion_wire m ⟨stringsSplit q.FQDN, q.Typ, q.Cls⟩ [] spare fuel
    ⟨hl, ht, hc⟩ hf
  have he : (WireQuestion.mk (stringsSplit q.FQDN) q.Typ q.Cls).encode = encodeQuestion q := by
    simp [WireQuestion.encode, encodeQuestion]
  rw [he, List.append_nil, dotted_stringsSplit] at h
  exact h

/-- C1, witness: the question `example.com A IN`. -/
theorem decodeQuestion_encodeQuestion_witness :
    decodeQuestion ⟨[], []⟩ 3 ⟨encodeQuestion exampleQuestion, []⟩
      = .ok (⟨exampleName ++ [dot], A, IN⟩, (encodeQuestion exampleQuestion).length) :=
  decodeQuestion_encodeQuestion ⟨[], []⟩ [] exampleQuestion 3 (by decide) (by decide)
    (by decide) (by decide)

/-- C1, as the spec states it, fails: the FQDN `a` is one label of one byte,
and decoding its encoding yields the FQDN `a.`, never the question itself. -/
theorem decodeQuestion_encodeQuestion_not_identity :
    validLabels (stringsSplit shortQuestion.FQDN)
      ∧ decodeQuestion ⟨[], []⟩ 2 ⟨encodeQuestion shortQuestion, []⟩
          = .ok (⟨[97, 46], A, IN⟩, 7)
      ∧ ∀ (fuel n : Nat), decodeQuestion ⟨[], []⟩ fuel ⟨encodeQuestion shortQuestion, []⟩
          ≠ .ok (shortQuestion, n) := by
  refine ⟨by decide, by decide, ?_⟩
  intro fuel n h
  match fuel, h with
  | 0, h =>
    have e : decodeQuestion ⟨[], []⟩ 0 ⟨encodeQuestion shortQuestion, []⟩ = .timeout := by
      decide
    rw [e] at h
    cases h
  | 1, h =>
    have e : decodeQuestion ⟨[], []⟩ 1 ⟨encodeQuestion shortQuestion, []⟩ = .timeout := by
      decide
    rw [e] at h
    cases h
  | f + 2, h =>
    have h2 := decodeQuestion_wire ⟨[], []⟩ ⟨[[97]], A, IN⟩ [] [] (f + 2) (by decide)
      (by simp)
    have he : (WireQuestion.mk [[97]] A IN).encode ++ [] = encodeQuestion shortQuestion := by
      decide
    rw [he, h] at h2
    simp [shortQuestion, dotted, dot] at h2

/-- C2, as the code has it: `parseMessage` has no typed decode error. For
every byte buffer, whenever it returns it returns a record list with a nil
error, and it panics on an out-of-range index or slice on every buffer shorter
than the 12-byte header, on every strict prefix of a response whose names are
all inline (a header, questions and answers with inline labels of 1 to 63
bytes; the buffer is cut in the middle of a name, of a fixed field or of RDATA,
or between two records), and on every buffer whose first name starts with a
compression pointer whose offset is beyond the end of the buffer. -/
theorem parseMessage_no_typed_error (m : Slice) (fuel : Nat) :
    (∀ rs e, parseMessage m fuel = .ok (rs, e) → e = none)
      ∧ (m.len < 12 → parseMessage m fuel = .panic)
      ∧ (∀ (idFlags nsAr : Bytes) (qs : List WireQuestion) (as : List WireAnswer) (n : Nat),
          m.data = (wireHeader idFlags qs.length as.length nsAr
            ++ (encodeWireQuestions qs ++ encodeWireAnswers as)).take n →
          n < (wireHeader idFlags qs.length as.length nsAr
            ++ (encodeWireQuestions qs ++ encodeWireAnswers as)).length →
          idFlags.length = 4 → nsAr.length = 4 → qs.length < 65536 → as.length < 65536 →
          (∀ q ∈ qs, q.valid) → (∀ a ∈ as, a.valid) →
          (∀ q ∈ qs, q.labels.length < fuel) → (∀ a ∈ as, a.labels.length < fuel) →
          parseMessage m fuel = .panic)
      ∧ (∀ (idFlags nsAr : Bytes) (qdcount ancount hi lo : Nat) (post : Bytes),
          m.data = wireHeader idFlags qdcount ancount nsAr ++ hi :: lo :: post →
          idFlags.length = 4 → nsAr.length = 4 → qdcount < 65536 → ancount < 65536 →
          0 < qdcount ∨ 0 < ancount → hi &&& 0xC0 = 0xC0 → lo < 256 →
          m.len < (hi * 256 + lo) &&& 0x3FFF → 0 < fuel → parseMessage m fuel = .panic) := by
  obtain ⟨data, spare⟩ := m
  refine ⟨fun rs e h => parseMessage_error_nil _ fuel rs e h,
    fun h => parseMessage_short _ fuel h, ?_, ?_⟩
  · intro idFlags nsAr qs as n hdata hn hid hns hqn han hq ha hqf haf
    simp only at hdata
    subst hdata
    exact parseMessage_truncated idFlags nsAr qs as spare fuel n hid hns hqn han hq ha hqf haf
      hn
  · intro idFlags nsAr qdcount ancount hi lo post hdata hid hns hqn han hcount hhi hlo hout hf
    simp only at hdata
    subst hdata
    refine parseMessage_pointer_out_of_range idFlags nsAr qdcount ancount hi lo post spare fuel
      hid hns hqn han hcount hhi hlo ?_ hf
    simp only [Slice.len, wireHeader, binaryBigEndianUint16, List.length_append,
      List.length_cons, List.length_nil, hid, hns] at hout
    omega

/-- C2, witness: a 3-byte buffer with spare capacity; the response with one A
record for `example.com` cut after 40 of its 56 bytes, in the middle of the
answer's name; a header with ANCOUNT 1 followed by the pointer `FF FF`. -/
theorem parseMessage_no_typed_error_witness :
    parseMessage ⟨[0, 0, 1], [0, 0, 0, 0, 0, 0, 0, 0, 0, 0, 0, 0]⟩ 1 = .panic
      ∧ parseMessage ⟨[0, 0, 0x81, 0x80, 0, 1, 0, 1, 0, 0, 0, 0,
          7, 101, 120, 97, 109, 112, 108, 101, 3, 99, 111, 109, 0, 0, 1, 0, 1,
          7, 101, 120, 97, 109, 112, 108, 101, 3, 99, 111], []⟩ 3 = .panic
      ∧ parseMessage ⟨[0, 0, 0x81, 0x80, 0, 0, 0, 1, 0, 0, 0, 0, 0xFF, 0xFF], []⟩ 1
          = .panic :=
  ⟨(parseMessage_no_typed_error ⟨[0, 0, 1], [0, 0, 0, 0, 0, 0, 0, 0, 0, 0, 0, 0]⟩ 1).2.1
      (by decide),
    (parseMessage_no_typed_error ⟨[0, 0, 0x81, 0x80, 0, 1, 0, 1, 0, 0, 0, 0,
          7, 101, 120, 97, 109, 112, 108, 101, 3, 99, 111, 109, 0, 0, 1, 0, 1,
          7, 101, 120, 97, 109, 112, 108, 101, 3, 99, 111], []⟩ 3).2.2.1
      [0, 0, 0x81, 0x80] [0, 0, 0, 0] [exampleWireQuestion] [exampleWireAnswer] 40 rfl
      (by decide) rfl rfl (by decide) (by decide) (by decide) (by decide) (by decide)
      (by decide),
    (parseMessage_no_typed_error
      ⟨[0, 0, 0x81, 0x80, 0, 0, 0, 1, 0, 0, 0, 0, 0xFF, 0xFF], []⟩ 1).2.2.2
      [0, 0, 0x81, 0x80] [0, 0, 0, 0] 0 1 0xFF 0xFF [] rfl rfl rfl (by decide) (by decide)
      (by decide) (by decide) (by decide) (by decide) (by decide)⟩

/-- C2, as the spec states it, fails: on the empty buffer, whatever its
capacity, `parseMessage` panics on the out-of-range slice `m.buf[12:]` (or
already on `m.buf[4:6]`) instead of returning a typed decode error. -/
theorem parseMessage_empty_buffer_panics :
    parseMessage ⟨[], []⟩ 1 = .panic
      ∧ ∀ (spare : Bytes) (fuel : Nat), parseMessage ⟨[], spare⟩ fuel = .panic :=
  ⟨by decide, fun spare fuel => parseMessage_short ⟨[], spare⟩ fuel
    (show (0 : Nat) < 12 by decide)⟩

/-- C3, the code at a failing input: in `labelPointerResponse` the name at
offset 21 is the label `a` followed by a pointer to offset 12, where the name
`com.` stands; inlining gives `a.com.`, but `parseName` returns `com.`: the
label read before the pointer is dropped. -/
theorem parseName_label_then_pointer :
    parseName ⟨labelPointerResponse, []⟩ 4 ⟨labelPointerResponse.drop 12, []⟩
        = .ok ([99, 111, 109, 46], 5)
      ∧ labelPointerResponse.drop 21 = 1 :: 97 :: 0xC0 :: 0x0C :: labelPointerResponse.drop 25
      ∧ parseName ⟨labelPointerResponse, []⟩ 4 ⟨labelPointerResponse.drop 21, []⟩
        = .ok ([99, 111, 109, 46], 2)
      ∧ parseName ⟨labelPointerResponse, []⟩ 4 ⟨labelPointerResponse.drop 21, []⟩
        ≠ .ok ([97, 46] ++ [99, 111, 109, 46], 4) := by
  decide

/-- C4, as the code has it: for every message buffer and every position `pos`
of it, `parseName` started at `pos` terminates exactly when the chain of names
that it visits by following compression pointers ends. When at most `depth`
names are visited before one ends (in a zero octet, or by leaving the buffer),
fuel `depth * (len + 1)` or more lets the run end, by returning a name or by a
panic, and more fuel does not change the outcome; that is so in particular
when the pointers followed point backwards: the pointer that ends the name
started at `pos` has a 14-bit offset strictly less than `pos`, the start of the
name that it ends, the pointer that ends the name at that offset has an offset
strictly less than it, and so on. When the chain does not end at any depth, no
fuel lets the run end. Pointers and bytes that `parseName` does not reach from
`pos` play no part. -/
theorem parseName_terminates (buf spare : Bytes) (depth pos fuel : Nat)
    (hpos : pos ≤ buf.length) (hf : depth * (buf.length + 1) ≤ fuel) :
    (pointerChainBackward buf depth pos = true → pointerChainEnds buf depth pos = true)
      ∧ (pointerChainEnds buf depth pos = true →
          parseName ⟨buf, spare⟩ fuel ⟨buf.drop pos, spare⟩ ≠ .timeout
            ∧ parseName ⟨buf, spare⟩ fuel ⟨buf.drop pos, spare⟩
              = parseName ⟨buf, spare⟩ (depth * (buf.length + 1)) ⟨buf.drop pos, spare⟩)
      ∧ ((∀ d, pointerChainEnds buf d pos = false) →
          ∀ f, parseName ⟨buf, spare⟩ f ⟨buf.drop pos, spare⟩ = .timeout) := by
  refine ⟨pointerChainBackward_ends buf depth pos, ?_,
    fun h f => parseNameLoop_never_ends buf spare f pos hpos h⟩
  intro hptr
  have h0 := parseNameLoop_terminates buf spare depth pos hpos hptr _ (le_refl _)
  obtain ⟨k, rfl⟩ : ∃ k, fuel = depth * (buf.length + 1) + k :=
    ⟨fuel - depth * (buf.length + 1), by omega⟩
  have hm := parseNameLoop_mono ⟨buf, spare⟩ (depth * (buf.length + 1)) k
    ⟨buf.drop pos, spare⟩ [] 0 h0
  simp only [parseName]
  rw [hm]
  exact ⟨h0, rfl⟩

/-- C4, witness: the name at offset 29 of `pointerResponse`, the pointer
`C0 0C` to the name of the question: the pointer points backwards, two names
are visited, and `parseName` ends. -/
theorem parseName_terminates_witness :
    pointerChainBackward pointerResponse 2 29 = true
      ∧ parseName ⟨pointerResponse, []⟩ 100 ⟨pointerResponse.drop 29, []⟩ ≠ .timeout
      ∧ parseName ⟨pointerResponse, []⟩ 100 ⟨pointerResponse.drop 29, []⟩
        = parseName ⟨pointerResponse, []⟩ (2 * (pointerResponse.length + 1))
            ⟨pointerResponse.drop 29, []⟩ :=
  ⟨by decide,
    (parseName_terminates pointerResponse [] 2 29 100 (by decide) (by decide)).2.1
      ((parseName_terminates pointerResponse [] 2 29 100 (by decide) (by decide)).1
        (by decide))⟩

/-- C4, as the spec states it, fails: in `loopBuffer` the only pointer stands
at position 2 and has offset 0, strictly less than its own position, yet
`parseName` started at position 0 reads the label `a`, follows the pointer back
to position 0 and so on: no amount of fuel lets it end. -/
theorem parseName_backward_pointer_loops :
    pointersBackward loopBuffer
      ∧ ∀ fuel, parseName ⟨loopBuffer, []⟩ fuel ⟨loopBuffer.drop 0, []⟩ = .timeout :=
  ⟨by decide, fun fuel => parseNameLoop_loopBuffer fuel⟩

/-- C5: for every response buffer made of a 12-byte header carrying
QDCOUNT = q and ANCOUNT = n, then q inline questions, then n answers each with
an inline name (labels of 1 to 63 bytes), TYPE, CLASS, TTL, RDLENGTH and
exactly RDLENGTH bytes of RDATA (and then any bytes `rest`), `parseMessage`
returns exactly the n records in wire order with a nil error: each has its
labels followed by a dot each as Name, the wire TYPE, CLASS and TTL, and its
RDATA bytes as Data. -/
theorem parseMessage_answers_in_wire_order (idFlags nsAr : Bytes) (qs : List WireQuestion)
    (as : List WireAnswer) (rest spare : Bytes) (fuel : Nat)
    (hid : idFlags.length = 4) (hns : nsAr.length = 4)
    (hqn : qs.length < 65536) (han : as.length < 65536)
    (hq : ∀ q ∈ qs, q.valid) (ha : ∀ a ∈ as, a.valid)
    (hqf : ∀ q ∈ qs, q.labels.length < fuel) (haf : ∀ a ∈ as, a.labels.length < fuel) :
    parseMessage ⟨wireHeader idFlags qs.length as.length nsAr
        ++ (encodeWireQuestions qs ++ (encodeWireAnswers as ++ rest)), spare⟩ fuel
      = .ok (as.map (fun a => ⟨dotted a.labels, a.typ, a.cls, a.ttl, a.rdata⟩), none) := by
  rw [parseMessage_after_questions idFlags nsAr qs as.length _ spare fuel hid hns hqn han
    hq hqf]
  have h := decodeAnswers_wire ⟨wireHeader idFlags qs.length as.length nsAr
      ++ (encodeWireQuestions qs ++ (encodeWireAnswers as ++ rest)), spare⟩ spare fuel as 0
    rest ha haf
  rw [Nat.add_zero] at h
  rw [h]
  simp only [decodeAnswers, Run.pure_eq, Run.ok_bind, List.append_nil]
  rfl

/-- C5, witness: the response with one A record for `example.com`, TTL 300
and RDATA `93 B8 D8 22`. -/
theorem parseMessage_answers_in_wire_order_witness :
    parseMessage ⟨[0, 0, 0x81, 0x80, 0, 1, 0, 1, 0, 0, 0, 0,
        7, 101, 120, 97, 109, 112, 108, 101, 3, 99, 111, 109, 0, 0, 1, 0, 1,
        7, 101, 120, 97, 109, 112, 108, 101, 3, 99, 111, 109, 0, 0, 1, 0, 1,
        0, 0, 1, 0x2C, 0, 4, 0x93, 0xB8, 0xD8, 0x22], []⟩ 3
      = .ok ([⟨[101, 120, 97, 109, 112, 108, 101, 46, 99, 111, 109, 46], A, IN, 300,
          [0x93, 0xB8, 0xD8, 0x22]⟩], none) :=
  parseMessage_answers_in_wire_order [0, 0, 0x81, 0x80] [0, 0, 0, 0] [exampleWireQuestion]
    [exampleWireAnswer] [] [] 3 rfl rfl (by decide) (by decide) (by decide) (by decide)
    (by decide) (by decide)

/-- C6, the code at a failing input: the answer of `labelPointerResponse`
starts at offset 21 and takes 18 bytes, 4 of name (the label `a` and a
pointer), 10 of fixed fields and 4 of RDATA; `decodeAnswer` returns, with the
cursor advance 12: the name counts for 2, and the fields read at offset 2 are
not those of the record (RDLENGTH is read as 0). -/
theorem decodeAnswer_label_then_pointer :
    (labelPointerResponse.drop 21).length = 18
      ∧ labelPointerResponse.drop 21
          = 1 :: 97 :: 0xC0 :: 0x0C :: wireFixed A IN 0 4 [0x5D, 0xB8, 0xD8, 0x22]
      ∧ decodeAnswer ⟨labelPointerResponse, []⟩ 4 ⟨labelPointerResponse.drop 21, []⟩
          = .ok (⟨[99, 111, 109, 46], 0xC00C, 1, 0x10000, []⟩, 12) := by
  decide

/-- C7, as the code has it: for every response buffer made of a header, its
questions, some complete answers (fewer than ANCOUNT) and then an answer whose
NAME `parseName` reads in full (inline labels with their zero octet, or a
compression pointer alone) and whose RDLENGTH is greater than the number of
bytes left in the buffer after the RDLENGTH field, `parseMessage` returns
neither records nor a decode error: it panics on an out-of-range slice,
whatever the capacity of the buffer. -/
theorem parseMessage_rdlength_overrun (idFlags nsAr : Bytes) (qs : List WireQuestion)
    (as : List WireAnswer) (ancount : Nat) (nameBytes name : Bytes)
    (typ cls ttl rdlength : Nat) (rest spare : Bytes) (fuel : Nat)
    (hid : idFlags.length = 4) (hns : nsAr.length = 4)
    (hqn : qs.length < 65536) (han : ancount < 65536) (hmore : as.length < ancount)
    (hq : ∀ q ∈ qs, q.valid) (ha : ∀ a ∈ as, a.valid)
    (ht : typ < 65536) (hc : cls < 65536)
    (httl : ttl < 4294967296) (hrd : rdlength < 65536) (hover : rest.length < rdlength)
    (hqf : ∀ q ∈ qs, q.labels.length < fuel) (haf : ∀ a ∈ as, a.labels.length < fuel)
    (hname : parseName ⟨wireHeader idFlags qs.length ancount nsAr
          ++ (encodeWireQuestions qs ++ (encodeWireAnswers as
            ++ (nameBytes ++ wireFixed typ cls ttl rdlength rest))), spare⟩ fuel
        ⟨nameBytes ++ wireFixed typ cls ttl rdlength rest, spare⟩
      = .ok (name, nameBytes.length)) :
    parseMessage ⟨wireHeader idFlags qs.length ancount nsAr
        ++ (encodeWireQuestions qs ++ (encodeWireAnswers as
          ++ (nameBytes ++ wireFixed typ cls ttl rdlength rest))), spare⟩ fuel
      = .panic := by
  rw [parseMessage_after_questions idFlags nsAr qs ancount _ spare fuel hid hns hqn han
    hq hqf]
  obtain ⟨k, rfl⟩ : ∃ k, ancount = as.length + (k + 1) := ⟨ancount - as.length - 1, by omega⟩
  rw [decodeAnswers_wire _ spare fuel as (k + 1) _ ha haf,
    decodeAnswers_overrun _ fuel k nameBytes name typ cls ttl rdlength rest spare ht hc httl
      hrd hover hname]
  rfl

/-- C7, witness: the response to `example.com A IN` whose answer, named by the
pointer `C0 0C`, is cut after two of its four RDATA bytes. -/
theorem parseMessage_rdlength_overrun_witness :
    parseMessage ⟨[0, 0, 0x81, 0x80, 0, 1, 0, 1, 0, 0, 0, 0,
        7, 101, 120, 97, 109, 112, 108, 101, 3, 99, 111, 109, 0, 0, 1, 0, 1,
        0xC0, 0x0C, 0, 1, 0, 1, 0, 0, 1, 0x2C, 0, 4, 0x93, 0xB8], []⟩ 4
      = .panic :=
  parseMessage_rdlength_overrun [0, 0, 0x81, 0x80] [0, 0, 0, 0] [exampleWireQuestion] [] 1
    [0xC0, 0x0C] [101, 120, 97, 109, 112, 108, 101, 46, 99, 111, 109, 46] A IN 300 4
    [0x93, 0xB8] [] 4 rfl rfl (by decide) (by decide)
    (by decide) (by decide) (by decide) (by decide) (by decide) (by decide) (by decide)
    (by decide) (by decide) (by decide) (by decide)

/-- C7, as the spec states it, fails: `overrunResponse` announces 4 bytes of
RDATA and holds none; `parseMessage` panics, with or without spare capacity
behind the buffer, and with no capacity and no fuel does it return a non-nil
error. -/
theorem parseMessage_rdlength_overrun_no_error :
    parseMessage ⟨overrunResponse, []⟩ 4 = .panic
      ∧ parseMessage ⟨overrunResponse, [0, 0, 0, 0, 0, 0, 0, 0]⟩ 4 = .panic
      ∧ ∀ (spare : Bytes) (fuel : Nat) (rs : List Record) (e : String),
          parseMessage ⟨overrunResponse, spare⟩ fuel ≠ .ok (rs, some e) := by
  refine ⟨by decide, by decide, ?_⟩
  intro spare fuel rs e h
  cases parseMessage_error_nil _ fuel rs (some e) h

/-- C8: for every response buffer whose question section starts (at offset 12)
with a question whose QNAME is a non-empty sequence of inline labels of 1 to 63
bytes, and whose single answer has the two bytes `C0 0C` as NAME, the record
returned by `parseMessage` has as Name the labels of the first question joined
by dots, with a trailing dot. -/
theorem parseMessage_pointer_to_question (idFlags nsAr : Bytes) (q : WireQuestion)
    (qs : List WireQuestion) (typ cls ttl : Nat) (rdata rest spare : Bytes) (fuel : Nat)
    (hid : idFlags.length = 4) (hns : nsAr.length = 4) (hqn : (q :: qs).length < 65536)
    (hq : ∀ x ∈ q :: qs, x.valid) (hne : q.labels ≠ [])
    (ht : typ < 65536) (hc : cls < 65536) (httl : ttl < 4294967296)
    (hrd : rdata.length < 65536)
    (hf : ∀ x ∈ q :: qs, x.labels.length + 1 < fuel) :
    parseMessage ⟨wireHeader idFlags (q :: qs).length 1 nsAr
        ++ (encodeWireQuestions (q :: qs)
          ++ (0xC0 :: 0x0C :: wireFixed typ cls ttl rdata.length (rdata ++ rest))), spare⟩ fuel
      = .ok ([⟨[dot].intercalate q.labels ++ [dot], typ, cls, ttl, rdata⟩], none) := by
  rw [parseMessage_after_questions idFlags nsAr (q :: qs) 1 _ spare fuel hid hns hqn
    (by decide) hq (fun x hx => by have := hf x hx; omega)]
  obtain ⟨f, rfl⟩ : ∃ f, fuel = f + 1 := ⟨fuel - 1, by
    have := hf q (List.mem_cons_self _ _); omega⟩
  generalize hm : (⟨wireHeader idFlags (q :: qs).length 1 nsAr
        ++ (encodeWireQuestions (q :: qs)
          ++ (0xC0 :: 0x0C :: wireFixed typ cls ttl rdata.length (rdata ++ rest))), spare⟩
        : Slice) = m
  have htarget : m.sliceFrom ((0xC0 * 256 + 0x0C) &&& 0x3FFF)
      = .ok ⟨encodeLabels q.labels ++ 0 :: (binaryBigEndianUint16 q.typ
          ++ (binaryBigEndianUint16 q.cls ++ (encodeWireQuestions qs
            ++ (0xC0 :: 0x0C :: wireFixed typ cls ttl rdata.length (rdata ++ rest))))),
          spare⟩ := by
    rw [← hm]
    have := Slice.sliceFrom_append (wireHeader idFlags (q :: qs).length 1 nsAr)
      (encodeWireQuestions (q :: qs)
          ++ (0xC0 :: 0x0C :: wireFixed typ cls ttl rdata.length (rdata ++ rest))) spare 12
      (by simp [wireHeader, binaryBigEndianUint16, hid, hns])
    simpa [encodeWireQuestions, WireQuestion.encode] using this
  have hinline := parseName_inline m q.labels (binaryBigEndianUint16 q.typ
      ++ (binaryBigEndianUint16 q.cls ++ (encodeWireQuestions qs
        ++ (0xC0 :: 0x0C :: wireFixed typ cls ttl rdata.length (rdata ++ rest))))) spare f
    (hq q (List.mem_cons_self _ _)).1 (by have := hf q (List.mem_cons_self _ _); omega)
  have hname : parseName m (f + 1)
      ⟨[0xC0, 0x0C] ++ wireFixed typ cls ttl rdata.length (rdata ++ rest), spare⟩
      = .ok (dotted q.labels, [0xC0, 0x0C].length) := by
    have := parseNameLoop_pointer m f [] (wireFixed typ cls ttl rdata.length (rdata ++ rest))
      spare [] 0xC0 0x0C (by decide) (by decide)
    simp only [parseName] at hinline
    simp only [htarget, hinline, Run.ok_bind, Run.pure_eq] at this
    simpa [parseName] using this
  have hans := decodeAnswer_complete m (f + 1) [0xC0, 0x0C] rdata rest spare (dotted q.labels)
    typ cls ttl ht hc httl hrd hname
  have hslice := Slice.sliceFrom_append
    ([0xC0, 0x0C] ++ wireFixed typ cls ttl rdata.length rdata) rest spare
    ([0xC0, 0x0C].length + 10 + rdata.length)
    (by simp [wireFixed, binaryBigEndianUint16, bigEndianBytes32]; omega)
  simp only [wireFixed, List.append_assoc] at hans hslice
  simp only [wireFixed, List.cons_append, List.nil_append] at hans hslice ⊢
  simp only [decodeAnswers, hans, hslice, Run.ok_bind, Run.pure_eq,
    dotted_eq_intercalate q.labels hne]

/-- C8, witness: the response to `example.com A IN` whose answer names the
question by the pointer `C0 0C`. -/
theorem parseMessage_pointer_to_question_witness :
    parseMessage ⟨[0, 0, 0x81, 0x80, 0, 1, 0, 1, 0, 0, 0, 0,
        7, 101, 120, 97, 109, 112, 108, 101, 3, 99, 111, 109, 0, 0, 1, 0, 1,
        0xC0, 0x0C, 0, 1, 0, 1, 0, 0, 1, 0x2C, 0, 4, 0x93, 0xB8, 0xD8, 0x22], []⟩ 4
      = .ok ([⟨[101, 120, 97, 109, 112, 108, 101, 46, 99, 111, 109, 46], A, IN, 300,
          [0x93, 0xB8, 0xD8, 0x22]⟩], none) :=
  parseMessage_pointer_to_question [0, 0, 0x81, 0x80] [0, 0, 0, 0] exampleWireQuestion []
    A IN 300 [0x93, 0xB8, 0xD8, 0x22] [] [] 4 rfl rfl (by decide) (by decide) (by decide)
    (by decide) (by decide) (by decide) (by decide) (by decide)

/-- C9: `encodeMessage` of the single question `example.com A IN` yields
exactly 29 bytes: a header with ID 0, QR bit 0 and Opcode field 0 in byte 2,
QDCOUNT 1 and ANCOUNT = NSCOUNT = ARCOUNT = 0, then
`07 example 03 com 00`, QTYPE `00 01` and QCLASS `00 01`. -/
theorem encodeMessage_example :
    (encodeMessage [exampleQuestion]).length = 29
      ∧ (encodeMessage [exampleQuestion]).take 2 = [0, 0]
      ∧ (encodeMessage [exampleQuestion]).getD 2 0 >>> 7 = 0
      ∧ ((encodeMessage [exampleQuestion]).getD 2 0 >>> 3) &&& 0xF = 0
      ∧ ((encodeMessage [exampleQuestion]).drop 4).take 8 = [0, 1, 0, 0, 0, 0, 0, 0]
      ∧ (encodeMessage [exampleQuestion]).drop 12
          = [7, 101, 120, 97, 109, 112, 108, 101, 3, 99, 111, 109, 0, 0, 1, 0, 1]
      ∧ encodeMessage [exampleQuestion]
          = [0, 0, 1, 16, 0, 1, 0, 0, 0, 0, 0, 0,
              7, 101, 120, 97, 109, 112, 108, 101, 3, 99, 111, 109, 0, 0, 1, 0, 1] := by
  decide

/-- C10, as the code has it: for every sequence of N questions, the QDCOUNT
field of the output of `encodeMessage` (bytes 4..5 read big-endian) is N modulo
65536, the low 16 bits that `uint16(len(q))` keeps; it is N whenever
N < 65536. -/
theorem encodeMessage_qdcount (q : List Question) :
    qdcountField (encodeMessage q) = q.length % 65536
      ∧ (q.length < 65536 → qdcountField (encodeMessage q) = q.length) := by
  refine ⟨qdcountField_encodeMessage q, fun h => ?_⟩
  rw [qdcountField_encodeMessage, Nat.mod_eq_of_lt h]

/-- C10, witness: one question gives QDCOUNT 1. -/
theorem encodeMessage_qdcount_witness :
    qdcountField (encodeMessage [exampleQuestion]) = 1 :=
  (encodeMessage_qdcount [exampleQuestion]).2 (by decide)

/-- C10, as the spec states it, fails: 65536 questions are encoded with
QDCOUNT 0. -/
theorem encodeMessage_qdcount_wraps :
    (List.replicate 65536 exampleQuestion).length = 65536
      ∧ qdcountField (encodeMessage (List.replicate 65536 exampleQuestion)) = 0 := by
  refine ⟨List.length_replicate _ _, ?_⟩
  rw [qdcountField_encodeMessage, List.length_replicate]

/-- C11: for every ordered sequence of questions whose FQDNs are made of labels
of 1 to 63 bytes (Type and Class being 16-bit values), walking the question
section of `encodeMessage qs`, the bytes from offset 12, with `decodeQuestion`
as many times as there are questions recovers them in order, each with its
Type, its Class and its FQDN followed by a dot, and leaves the cursor at the
end of the message; the question loop of `parseMessage` leaves the same cursor,
and with fewer than 65536 questions `parseMessage` (which reads their number
from QDCOUNT) walks them all and returns no record. -/
theorem walkQuestions_encodeMessage (qs : List Question) (spare : Bytes) (fuel : Nat)
    (hq : ∀ q ∈ qs, q.valid) (hf : ∀ q ∈ qs, (stringsSplit q.FQDN).length < fuel) :
    walkQuestions ⟨encodeMessage qs, spare⟩ fuel qs.length
        ⟨(encodeMessage qs).drop 12, spare⟩
        = .ok (qs.map (fun q => ⟨q.FQDN ++ [dot], q.Typ, q.Cls⟩), ⟨[], spare⟩)
      ∧ skipQuestions ⟨encodeMessage qs, spare⟩ fuel qs.length
          ⟨(encodeMessage qs).drop 12, spare⟩ = .ok ⟨[], spare⟩
      ∧ (qs.length < 65536 →
          parseMessage ⟨encodeMessage qs, spare⟩ fuel = .ok ([], none)) := by
  have hv : ∀ q ∈ qs.map Question.wire, q.valid := by
    intro q hmem
    obtain ⟨x, hx, rfl⟩ := List.mem_map.1 hmem
    exact hq x hx
  have hfw : ∀ q ∈ qs.map Question.wire, q.labels.length < fuel := by
    intro q hmem
    obtain ⟨x, hx, rfl⟩ := List.mem_map.1 hmem
    exact hf x hx
  have hwalk := walkQuestions_wire ⟨encodeMessage qs, spare⟩ spare fuel
    (qs.map Question.wire) [] hv hfw
  have hskip := skipQuestions_wire ⟨encodeMessage qs, spare⟩ spare fuel
    (qs.map Question.wire) [] hv hfw
  rw [List.append_nil, List.length_map, ← encodeQuestions_wire, ← encodeMessage_drop] at hwalk hskip
  refine ⟨?_, hskip, ?_⟩
  · rw [hwalk, List.map_map]
    congr 2
    apply List.map_congr_left
    intro q _
    simp [Question.wire, dotted_stringsSplit]
  · intro hn
    have h := parseMessage_questions_only [0, 0, 1, 16] [0, 0, 0, 0]
      (qs.map Question.wire) [] spare fuel rfl rfl (by simpa using hn) hv hfw
    rw [List.length_map, ← encodeQuestions_wire, List.append_nil] at h
    rw [encodeMessage_eq, Nat.mod_eq_of_lt hn]
    exact h

/-- C11, witness: the questions `example.com A IN` and `a A IN`. -/
theorem walkQuestions_encodeMessage_witness :
    walkQuestions ⟨encodeMessage [exampleQuestion, shortQuestion], []⟩ 3 2
        ⟨(encodeMessage [exampleQuestion, shortQuestion]).drop 12, []⟩
        = .ok ([⟨exampleName ++ [dot], A, IN⟩, ⟨[97, 46], A, IN⟩], ⟨[], []⟩)
      ∧ skipQuestions ⟨encodeMessage [exampleQuestion, shortQuestion], []⟩ 3 2
          ⟨(encodeMessage [exampleQuestion, shortQuestion]).drop 12, []⟩ = .ok ⟨[], []⟩
      ∧ ((2 : Nat) < 65536 →
          parseMessage ⟨encodeMessage [exampleQuestion, shortQuestion], []⟩ 3
            = .ok ([], none)) :=
  walkQuestions_encodeMessage [exampleQuestion, shortQuestion] [] 3 (by decide) (by decide)

/-- C12, the code at a failing input: `overlappingResponse` has ANCOUNT 2 and
`parseMessage` returns on it, with two records. The first answer stands at
offset 21 and its wire form has 4 + 10 + 4 = 18 bytes (NAME `01 'a' C0 0C`,
the fixed fields with RDLENGTH 4, 4 bytes of RDATA), so it ends at offset 39;
`decodeAnswer` returns the advance 12 for it, and the second record is decoded
from offset 33, inside the first one: its fields are the RDLENGTH and the RDATA
of the first record and the bytes behind it. -/
theorem parseMessage_record_inside_previous :
    ancountField overlappingResponse = 2
      ∧ parseMessage ⟨overlappingResponse, []⟩ 4
        = .ok ([⟨[99, 111, 109, 46], 0xC00C, 1, 65536, []⟩,
            ⟨[], 0x045D, 0xB8D8, 0x22000000, []⟩], none)
      ∧ skipQuestions ⟨overlappingResponse, []⟩ 4 (qdcountField overlappingResponse)
          ⟨overlappingResponse.drop 12, []⟩ = .ok ⟨overlappingResponse.drop 21, []⟩
      ∧ overlappingResponse.drop 21
        = 1 :: 97 :: 0xC0 :: 0x0C :: wireFixed A IN 0 4 [0x5D, 0xB8, 0xD8, 0x22, 0, 0, 0, 0, 0]
      ∧ decodeAnswersSteps ⟨overlappingResponse, []⟩ 4 2 ⟨overlappingResponse.drop 21, []⟩
        = .ok [(⟨[99, 111, 109, 46], 0xC00C, 1, 65536, []⟩, 12),
            (⟨[], 0x045D, 0xB8D8, 0x22000000, []⟩, 11)]
      ∧ decodeAnswer ⟨overlappingResponse, []⟩ 4 ⟨overlappingResponse.drop (21 + 12), []⟩
        = .ok (⟨[], 0x045D, 0xB8D8, 0x22000000, []⟩, 11)
      ∧ 21 + 12 < 21 + (4 + 10 + 4) := by
  decide

/-- C13, as the code has it: in the QNAME that `encodeQuestion` writes, the
octet in front of each label is the number of bytes of the label modulo 256
and the terminating octet is 0; so for every Question whose labels (the pieces
of the FQDN between the dots) have at most 63 bytes each, every length octet is
in the range 0..63. -/
theorem encodeQuestion_length_octets (q : Question) (i : Nat)
    (hi : i ≤ (stringsSplit q.FQDN).length) :
    (encodeQuestion q).getD (lengthOctetPosition (stringsSplit q.FQDN) i) 0
        = (if i < (stringsSplit q.FQDN).length
            then ((stringsSplit q.FQDN).getD i []).length % 256 else 0)
      ∧ ((∀ l ∈ stringsSplit q.FQDN, l.length ≤ 63) →
          (encodeQuestion q).getD (lengthOctetPosition (stringsSplit q.FQDN) i) 0 ≤ 63) := by
  have h := encodeLabels_octet (binaryBigEndianUint16 q.Typ ++ binaryBigEndianUint16 q.Cls)
    (stringsSplit q.FQDN) i hi
  have he : encodeQuestion q = encodeLabels (stringsSplit q.FQDN) ++ 0 ::
      (binaryBigEndianUint16 q.Typ ++ binaryBigEndianUint16 q.Cls) := by
    simp [encodeQuestion]
  rw [he, h]
  refine ⟨rfl, fun hl => ?_⟩
  split
  · rename_i hlt
    have hmem : (stringsSplit q.FQDN).getD i [] ∈ stringsSplit q.FQDN := by
      rw [List.getD_eq_getElem _ _ hlt]
      exact List.getElem_mem _
    have := hl _ hmem
    omega
  · omega

/-- C13, witness: the length octet of `com` in the encoding of `example.com`
stands at position 8 and is 3. -/
theorem encodeQuestion_length_octets_witness :
    (encodeQuestion exampleQuestion).getD
        (lengthOctetPosition (stringsSplit exampleQuestion.FQDN) 1) 0
        = (if 1 < (stringsSplit exampleQuestion.FQDN).length
            then ((stringsSplit exampleQuestion.FQDN).getD 1 []).length % 256 else 0)
      ∧ ((∀ l ∈ stringsSplit exampleQuestion.FQDN, l.length ≤ 63) →
          (encodeQuestion exampleQuestion).getD
            (lengthOctetPosition (stringsSplit exampleQuestion.FQDN) 1) 0 ≤ 63) :=
  encodeQuestion_length_octets exampleQuestion 1 (by decide)

/-- C13, as the spec states it, fails: for the FQDN made of one label of 64
bytes, the first octet that `encodeQuestion` writes, the length octet of that
label, is 64. -/
theorem encodeQuestion_long_label :
    stringsSplit longLabelQuestion.FQDN = [List.replicate 64 97]
      ∧ (encodeQuestion longLabelQuestion).getD 0 0 = 64 := by
  decide

/-- C14, the code at every input: the byte that `encodeMessage` writes under
the comment on Opcode, header byte 3, is `1 << 4` = 16 whatever the questions,
so that byte shifted right by 4 is 1, not 0 (the Opcode field itself, bits 6..3
of byte 2, is 0). -/
theorem encodeMessage_opcode_byte (q : List Question) :
    (encodeMessage q).getD 3 0 = 16
      ∧ (encodeMessage q).getD 3 0 >>> 4 = 1
      ∧ ((encodeMessage q).getD 2 0 >>> 3) &&& 0xF = 0 := by
  simp [encodeMessage]

/-- C15: for every sequence of questions, the output of `encodeMessage` starts
with a 12-byte header whose bytes 0..1 (the transaction ID) are 0, whose byte 2
has its most significant bit (QR) 0, and whose bytes 6..11 (ANCOUNT, NSCOUNT and
ARCOUNT) are 0; of the header only bytes 4..5 (QDCOUNT) depend on the
questions. -/
theorem encodeMessage_fixed_header (q : List Question) :
    12 ≤ (encodeMessage q).length
      ∧ (encodeMessage q).take 2 = [0, 0]
      ∧ (encodeMessage q).getD 2 0 >>> 7 = 0
      ∧ ((encodeMessage q).drop 6).take 6 = [0, 0, 0, 0, 0, 0]
      ∧ (encodeMessage q).take 4 = (encodeMessage []).take 4
      ∧ ((encodeMessage q).drop 6).take 6 = ((encodeMessage []).drop 6).take 6 := by
  simp [encodeMessage, binaryBigEndianUint16]

/-- C16, as the code has it: for every buffer with ANCOUNT = 0 on which
`parseMessage` returns when nothing stands behind it (no byte and no spare
capacity: a header and a question section whose names are inline or point
inside them), `parseMessage` returns no record and a nil error, and it returns
the same on every buffer that starts with these bytes, whatever bytes follow
and whatever the capacity. -/
theorem parseMessage_no_answers_frame (buf more spare : Bytes) (fuel : Nat)
    (rs : List Record) (e : Option String) (han : ancountField buf = 0)
    (hret : parseMessage ⟨buf, []⟩ fuel = .ok (rs, e)) :
    rs = [] ∧ e = none ∧ parseMessage ⟨buf ++ more, spare⟩ fuel = .ok ([], none) := by
  have he := parseMessage_error_nil _ fuel rs e hret
  obtain ⟨_, start, _, hans⟩ := parseMessage_returns _ fuel rs e hret
  have h67 : buf.getD 6 0 = 0 ∧ buf.getD 7 0 = 0 := by
    simp only [ancountField] at han
    omega
  simp only [h67.1, h67.2, Nat.zero_shiftLeft, Nat.or_self, decodeAnswers, Run.pure_eq,
    Run.ok.injEq] at hans
  subst hans he
  exact ⟨rfl, rfl, parseMessage_extend buf more spare fuel _ hret⟩

/-- C16, witness: the query for `example.com A IN` followed by three bytes and
by spare capacity. -/
theorem parseMessage_no_answers_frame_witness :
    ([] : List Record) = [] ∧ (none : Option String) = none
      ∧ parseMessage ⟨encodeMessage [exampleQuestion] ++ [1, 2, 3], [0, 0]⟩ 3
          = .ok ([], none) :=
  parseMessage_no_answers_frame (encodeMessage [exampleQuestion]) [1, 2, 3] [0, 0] 3 [] none
    (by decide) (by decide)

/-- C16, as the spec states it, fails: two buffers with ANCOUNT = 0 start with
the 18 bytes of `forwardPointerQuestion`, whose question section ends at offset
18 (the cursor left by the question loop), and differ only at offset 20. The
name of the question is a pointer to offset 20, so `parseMessage` reads there:
it returns no record on the first buffer and panics on the second. -/
theorem parseMessage_reads_past_questions :
    ancountField (forwardPointerQuestion ++ [0, 0, 0]) = 0
      ∧ ancountField (forwardPointerQuestion ++ [0, 0, 5]) = 0
      ∧ (forwardPointerQuestion ++ [0, 0, 0]).take 20 = (forwardPointerQuestion ++ [0, 0, 5]).take 20
      ∧ skipQuestions ⟨forwardPointerQuestion ++ [0, 0, 0], []⟩ 2 1
          ⟨(forwardPointerQuestion ++ [0, 0, 0]).drop 12, []⟩
          = .ok ⟨(forwardPointerQuestion ++ [0, 0, 0]).drop 18, []⟩
      ∧ parseMessage ⟨forwardPointerQuestion ++ [0, 0, 0], []⟩ 2 = .ok ([], none)
      ∧ parseMessage ⟨forwardPointerQuestion ++ [0, 0, 5], []⟩ 2 = .panic := by
  decide

/-- C17, as the code has it: every call of `LookupRaw` or `Lookup` leaves
`Host` and `debug` as they were; it leaves `client` as it was when `client` is
not nil before the call (`WithClient` was used with a client, or an earlier
call has set it) and when the request cannot be built; on a Resolver whose
`client` is nil, a call that builds its request sets `client` to
`http.DefaultClient`, whether it then succeeds or fails. -/
theorem lookup_frame (net : Network) (r : Resolver) (q : Bytes) (question : Question)
    (fuel : Nat) :
    (r.LookupRaw net q).1
        = (if r.client = none ∧ net.requestError (ascii "POST") r.url = none
            then { r with client := some Client.DefaultClient } else r)
      ∧ (r.Lookup net fuel question).1
        = (if r.client = none ∧ net.requestError (ascii "POST") r.url = none
            then { r with client := some Client.DefaultClient } else r)
      ∧ (r.LookupRaw net q).1.Host = r.Host ∧ (r.LookupRaw net q).1.debug = r.debug
      ∧ (r.Lookup net fuel question).1.Host = r.Host
      ∧ (r.Lookup net fuel question).1.debug = r.debug
      ∧ (r.client ≠ none →
          (r.LookupRaw net q).1 = r ∧ (r.Lookup net fuel question).1 = r) := by
  have hl : ∀ query, (r.lookup net query).1
      = (if r.client = none ∧ net.requestError (ascii "POST") r.url = none
          then { r with client := some Client.DefaultClient } else r) := by
    intro query
    unfold Resolver.lookup
    cases hreq : net.requestError (ascii "POST") r.url with
    | some err => simp
    | none =>
      by_cases hc : r.client = none
      · simp only [hc, if_true, and_self]
        split
        · rfl
        · split
          · rfl
          · split <;> rfl
      · simp only [hc, if_false, false_and]
        split
        · rfl
        · split
          · rfl
          · split <;> rfl
  have hraw : (r.LookupRaw net q).1 = (r.lookup net q).1 := by
    unfold Resolver.LookupRaw
    split <;> simp_all
  have hlook : (r.Lookup net fuel question).1 = (r.lookup net (encodeMessage [question])).1 := by
    unfold Resolver.Lookup
    split <;> simp_all
  rw [hraw, hlook, hl, hl]
  refine ⟨rfl, rfl, ?_, ?_, ?_, ?_, ?_⟩
  · split <;> rfl
  · split <;> rfl
  · split <;> rfl
  · split <;> rfl
  · intro hne
    simp [hne]

/-- C17, witness: a Resolver built with `WithDebug` and `WithClient`. -/
theorem lookup_frame_witness :
    ((New GoogleHost [WithDebug, WithClient (some (Client.other 1))]).LookupRaw
        refusingNetwork [1, 2, 3]).1
        = New GoogleHost [WithDebug, WithClient (some (Client.other 1))]
      ∧ ((New GoogleHost [WithDebug, WithClient (some (Client.other 1))]).Lookup
          refusingNetwork 3 exampleQuestion).1
        = New GoogleHost [WithDebug, WithClient (some (Client.other 1))] :=
  (lookup_frame refusingNetwork (New GoogleHost [WithDebug, WithClient (some (Client.other 1))])
    [1, 2, 3] exampleQuestion 3).2.2.2.2.2.2 (by decide)

/-- C17, as the spec states it, fails: `New(GoogleHost)` has a nil `client`,
and after one call of `LookupRaw`, here a call that fails, or one call of
`Lookup`, its `client` is `http.DefaultClient`. -/
theorem lookup_sets_default_client :
    (New GoogleHost []).client = none
      ∧ ((New GoogleHost []).LookupRaw refusingNetwork [1, 2, 3]).1.client
          = some Client.DefaultClient
      ∧ ((New GoogleHost []).Lookup refusingNetwork 3 exampleQuestion).1.client
          = some Client.DefaultClient
      ∧ ((New GoogleHost []).LookupRaw refusingNetwork [1, 2, 3]).1 ≠ New GoogleHost [] := by
  decide

/-- C18: with the HTTPS transport taken as a function `t` from the posted
body to a transport error or to a status and a body, for every Resolver and
every query `q`: the request that `LookupRaw` sends has exactly `q` as its
body, so the exchange is `t q`; `LookupRaw` returns an error if and only if
`t q` is a transport error or has a status other than 200; and it returns a
buffer if and only if `t q` has status 200, and then the bytes of the buffer
are exactly the bytes of the body. -/
theorem lookupRaw_transport (t : Transport) (spare : Bytes) (r : Resolver) (q : Bytes) :
    (r.request q).Body = q
      ∧ ((∃ err, (r.LookupRaw (transportNetwork t spare) q).2 = .error err) ↔
          (∃ err, t q = .error err) ∨ ∃ status body, t q = .ok (status, body) ∧ status ≠ 200)
      ∧ (∀ err, t q = .error err →
          (r.LookupRaw (transportNetwork t spare) q).2 = .error err)
      ∧ (∀ buf, (r.LookupRaw (transportNetwork t spare) q).2 = .ok buf ↔
          t q = .ok (200, buf.data) ∧ buf.spare = spare) := by
  have hbody : (r.request q).Body = q := rfl
  have hdo : ∀ c, (transportNetwork t spare).Do c (r.request q)
      = (match t q with
        | .error err => .error err
        | .ok (status, body) => .ok ⟨status, .ok ⟨body, spare⟩⟩) := by
    intro c
    simp only [transportNetwork, hbody]
  obtain ⟨_, _, _, _, hok, herr⟩ := lookupRaw_result (transportNetwork t spare) r q
  have hreq : (transportNetwork t spare).requestError (ascii "POST") r.url = none := rfl
  refine ⟨hbody, ?_, ?_, ?_⟩
  · rw [herr, hdo]
    cases ht : t q with
    | error e => simp [hreq]
    | ok sb =>
      obtain ⟨status, body⟩ := sb
      simp [hreq]
  · intro err ht
    have h : ∃ e, (r.LookupRaw (transportNetwork t spare) q).2 = .error e := by
      rw [herr, hdo, ht]
      exact Or.inr (Or.inl ⟨err, rfl⟩)
    obtain ⟨e, he⟩ := h
    cases hres : (r.LookupRaw (transportNetwork t spare) q).2 with
    | ok buf =>
      rw [he] at hres
      cases hres
    | error e2 =>
      have hl : (r.LookupRaw (transportNetwork t spare) q).2
          = (r.lookup (transportNetwork t spare) q).2 := by
        unfold Resolver.LookupRaw
        split <;> simp_all
      rw [hl] at hres
      unfold Resolver.lookup at hres
      simp only [hreq] at hres
      split at hres
      · rename_i e3 hd
        rw [hdo, ht] at hd
        cases hd
        cases hres
        rfl
      · rename_i resp hd
        rw [hdo, ht] at hd
        cases hd
  · intro buf
    rw [hok, hdo]
    cases ht : t q with
    | error e => simp [hreq]
    | ok sb =>
      obtain ⟨status, body⟩ := sb
      obtain ⟨bd, bs⟩ := buf
      simp only [hreq, true_and, Except.ok.injEq, Prod.mk.injEq]
      constructor
      · rintro ⟨resp, hresp, hs, hb⟩
        subst hresp
        simp only at hs hb
        cases hb
        exact ⟨⟨hs, rfl⟩, rfl⟩
      · rintro ⟨⟨hs, hb⟩, hsp⟩
        subst hs hb hsp
        exact ⟨_, rfl, rfl, rfl⟩

/-- C18, witness: on `echoTransport` the query `07 08` is answered with
status 200 and the body `07 08 2A`, which `LookupRaw` returns as it is; on the
empty query the transport fails, and `LookupRaw` returns its error. -/
theorem lookupRaw_transport_witness :
    ((New GoogleHost []).LookupRaw (transportNetwork echoTransport []) [7, 8]).2
        = .ok ⟨[7, 8, 0x2A], []⟩
      ∧ ((New GoogleHost []).LookupRaw (transportNetwork echoTransport []) []).2
        = .error "connection reset" :=
  ⟨((lookupRaw_transport echoTransport [] (New GoogleHost []) [7, 8]).2.2.2
      ⟨[7, 8, 0x2A], []⟩).2 ⟨rfl, rfl⟩,
    (lookupRaw_transport echoTransport [] (New GoogleHost []) []).2.2.1
      "connection reset" rfl⟩

/-- C19, as the code has it: `handleRequest` returns normally exactly when the
raw lookup returns a message and the write-back writes all its bytes; when the
raw lookup returns an error, when the write-back fails and when it writes fewer
(or more) bytes than the message has, `handleRequest` panics, with the error or
with `message not sent`: a panic that nothing recovers, which ends the proxy
process. -/
theorem handleRequest_outcome (net : Network) (conn : PacketConn) (addr : Nat)
    (buf : Bytes) :
    (handleRequest net conn addr buf = .returned ↔
        ∃ message, ((New GoogleHost []).LookupRaw net buf).2 = .ok message
          ∧ conn.WriteTo message.data addr = .ok message.data.length)
      ∧ (∀ err, ((New GoogleHost []).LookupRaw net buf).2 = .error err →
          handleRequest net conn addr buf = .panicked err)
      ∧ (∀ message err, ((New GoogleHost []).LookupRaw net buf).2 = .ok message →
          conn.WriteTo message.data addr = .error err →
          handleRequest net conn addr buf = .panicked err)
      ∧ (∀ message b, ((New GoogleHost []).LookupRaw net buf).2 = .ok message →
          conn.WriteTo message.data addr = .ok b → b ≠ message.data.length →
          handleRequest net conn addr buf = .panicked "message not sent") := by
  cases hl : ((New GoogleHost []).LookupRaw net buf).2 with
  | error err =>
    have hval : handleRequest net conn addr buf = .panicked err := by
      simp [handleRequest, hl]
    rw [hval]
    refine ⟨Iff.intro ?_ ?_, ?_, ?_, ?_⟩
    · intro h
      cases h
    · rintro ⟨_, hm, _⟩
      cases hm
    · intro e he
      cases he
      rfl
    · intro m e hm
      cases hm
    · intro m b hm
      cases hm
  | ok message =>
    cases hw : conn.WriteTo message.data addr with
    | error err =>
      have hval : handleRequest net conn addr buf = .panicked err := by
        simp [handleRequest, hl, hw]
      rw [hval]
      refine ⟨Iff.intro ?_ ?_, ?_, ?_, ?_⟩
      · intro h
        cases h
      · rintro ⟨m, hm, hwm⟩
        cases hm
        rw [hw] at hwm
        cases hwm
      · intro e he
        cases he
      · intro m e hm hwm
        cases hm
        rw [hw] at hwm
        cases hwm
        rfl
      · intro m b hm hwm
        cases hm
        rw [hw] at hwm
        cases hwm
    | ok b =>
      by_cases hb : b = message.data.length
      · have hval : handleRequest net conn addr buf = .returned := by
          simp [handleRequest, hl, hw, hb]
        rw [hval]
        refine ⟨Iff.intro ?_ ?_, ?_, ?_, ?_⟩
        · intro _
          exact ⟨message, rfl, by rw [hw, hb]⟩
        · intro _
          rfl
        · intro e he
          cases he
        · intro m e hm hwm
          cases hm
          rw [hw] at hwm
          cases hwm
        · intro m b2 hm hwm hne
          cases hm
          rw [hw] at hwm
          cases hwm
          exact absurd hb hne
      · have hval : handleRequest net conn addr buf = .panicked "message not sent" := by
          simp [handleRequest, hl, hw, hb]
        rw [hval]
        refine ⟨Iff.intro ?_ ?_, ?_, ?_, ?_⟩
        · intro h
          cases h
        · rintro ⟨m, hm, hwm⟩
          cases hm
          rw [hw] at hwm
          cases hwm
          exact absurd rfl hb
        · intro e he
          cases he
        · intro m e hm hwm
          cases hm
          rw [hw] at hwm
          cases hwm
        · intro m b2 hm hwm _
          rfl

/-- C19, witness: a lookup that fails, a write-back that fails, a write-back
of 2 bytes of 3, and an exchange that goes through. -/
theorem handleRequest_outcome_witness :
    handleRequest refusingNetwork writingConn 0 [7, 8] = .panicked "connection refused"
      ∧ handleRequest (answeringNetwork [1, 2, 3]) ⟨fun _ _ => .error "write failed"⟩ 0 [7, 8]
          = .panicked "write failed"
      ∧ handleRequest (answeringNetwork [1, 2, 3]) ⟨fun _ _ => .ok 2⟩ 0 [7, 8]
          = .panicked "message not sent"
      ∧ handleRequest (answeringNetwork [1, 2, 3]) writingConn 0 [7, 8] = .returned :=
  ⟨(handleRequest_outcome refusingNetwork writingConn 0 [7, 8]).2.1 "connection refused" rfl,
    (handleRequest_outcome (answeringNetwork [1, 2, 3]) ⟨fun _ _ => .error "write failed"⟩ 0
      [7, 8]).2.2.1 ⟨[1, 2, 3], []⟩ "write failed" rfl rfl,
    (handleRequest_outcome (answeringNetwork [1, 2, 3]) ⟨fun _ _ => .ok 2⟩ 0
      [7, 8]).2.2.2 ⟨[1, 2, 3], []⟩ 2 rfl rfl (by decide),
    (handleRequest_outcome (answeringNetwork [1, 2, 3]) writingConn 0 [7, 8]).1.2
      ⟨⟨[1, 2, 3], []⟩, rfl, rfl⟩⟩

/-- C19, as the spec states it, fails: when the raw lookup returns an error,
and when the write-back is short, `handleRequest` does not return: it
panics. -/
theorem handleRequest_panics :
    handleRequest refusingNetwork writingConn 0 [7, 8] = .panicked "connection refused"
      ∧ handleRequest (answeringNetwork [1, 2, 3]) ⟨fun _ _ => .ok 2⟩ 0 [7, 8]
          = .panicked "message not sent"
      ∧ handleRequest refusingNetwork writingConn 0 [7, 8] ≠ .returned := by
  decide

/-- C20: for every message, `Print` appends to its writer exactly `Warning: `,
the message and a newline when the Color option is false, and exactly
`ESC[33;1mWarning:ESC[0m `, the message and a newline when it is true; the
message is written as it is, whatever bytes it holds, and the options are left
as they were. -/
theorem warningPrinter_print (w : WarningPrinter) (message : Bytes) :
    (w.Print message).out
        = w.out ++ ((if w.opts.Color then ascii "\x1b[33;1mWarning:\x1b[0m "
            else ascii "Warning: ") ++ message ++ ascii "\n")
      ∧ (w.Print message).opts = w.opts := by
  unfold WarningPrinter.Print
  by_cases hc : w.opts.Color = true
  · simp [hc, Fprintf, Sprintf, ascii, yellowColor, resetColor]
  · simp [hc, Fprintf, Sprintf, ascii]

/-- C20, witness: the message `this is a warning` of the tests, with and
without color, on an empty writer, and a message with a `%s` and a newline in
it. -/
theorem warningPrinter_print_witness :
    ((NewWarningPrinter [] ⟨true⟩).Print (ascii "this is a warning")).out
        = ascii "\x1b[33;1mWarning:\x1b[0m this is a warning\n"
      ∧ ((NewWarningPrinter [] ⟨false⟩).Print (ascii "this is a warning")).out
        = ascii "Warning: this is a warning\n"
      ∧ ((NewWarningPrinter [] ⟨false⟩).Print (ascii "100%s\nsure")).out
        = ascii "Warning: 100%s\nsure\n" :=
  ⟨(warningPrinter_print (NewWarningPrinter [] ⟨true⟩) (ascii "this is a warning")).1,
    (warningPrinter_print (NewWarningPrinter [] ⟨false⟩) (ascii "this is a warning")).1,
    (warningPrinter_print (NewWarningPrinter [] ⟨false⟩) (ascii "100%s\nsure")).1⟩

/-- C21: `parseName` has no defence against a pointer to its own position.
For every buffer whose bytes at offsets 12..13 are `C0 0C` (whatever its other
bytes and its capacity), `m.buf[12:]` is the slice that starts with this
pointer, and a call of `parseName` on that slice follows the pointer into a
call of `parseName` on the same slice: the call never ends, neither with a
name nor with a panic, whatever the evaluation budget, and for every bound `d`
the recursion opens more than `d` nested calls. -/
theorem parseName_self_pointer (head tail spare : Bytes) (hh : head.length = 12) :
    Slice.sliceFrom ⟨head ++ 0xC0 :: 0x0C :: tail, spare⟩ 12
        = .ok ⟨0xC0 :: 0x0C :: tail, spare⟩
      ∧ (∀ fuel, parseName ⟨head ++ 0xC0 :: 0x0C :: tail, spare⟩ (fuel + 1)
            ⟨0xC0 :: 0x0C :: tail, spare⟩
          = (parseName ⟨head ++ 0xC0 :: 0x0C :: tail, spare⟩ fuel
              ⟨0xC0 :: 0x0C :: tail, spare⟩ >>= fun r => pure (r.1, 2)))
      ∧ (∀ fuel, parseName ⟨head ++ 0xC0 :: 0x0C :: tail, spare⟩ fuel
            ⟨0xC0 :: 0x0C :: tail, spare⟩ = .timeout)
      ∧ (∀ d, d < parseNameDepth ⟨head ++ 0xC0 :: 0x0C :: tail, spare⟩ (d + 1)
            ⟨0xC0 :: 0x0C :: tail, spare⟩ 0) := by
  refine ⟨Slice.sliceFrom_append head _ spare 12 hh.symm, ?_, ?_, ?_⟩
  · intro fuel
    exact parseNameLoop_self_pointer_step head tail spare [] fuel hh
  · intro fuel
    exact parseNameLoop_self_pointer head tail spare hh fuel []
  · intro d
    rw [parseNameDepth_self_pointer head tail spare hh (d + 1)]
    exact Nat.lt_succ_self d

/-- C21, witness: in `selfPointerBuffer` the name of the question, at offset
12, is `C0 0C`; 1000 iterations do not end `parseName` there, and 1001 open
more than 1000 nested calls. -/
theorem parseName_self_pointer_witness :
    Slice.sliceFrom ⟨selfPointerBuffer, []⟩ 12 = .ok ⟨selfPointerBuffer.drop 12, []⟩
      ∧ parseName ⟨selfPointerBuffer, []⟩ 1000 ⟨selfPointerBuffer.drop 12, []⟩ = .timeout
      ∧ 1000 < parseNameDepth ⟨selfPointerBuffer, []⟩ 1001 ⟨selfPointerBuffer.drop 12, []⟩ 0 :=
  ⟨(parseName_self_pointer [0, 0, 0x81, 0x80, 0, 1, 0, 0, 0, 0, 0, 0] [0, 1, 0, 1] [] rfl).1,
    (parseName_self_pointer [0, 0, 0x81, 0x80, 0, 1, 0, 0, 0, 0, 0, 0] [0, 1, 0, 1] []
      rfl).2.2.1 1000,
    (parseName_self_pointer [0, 0, 0x81, 0x80, 0, 1, 0, 0, 0, 0, 0, 0] [0, 1, 0, 1] []
      rfl).2.2.2 1000⟩

/-- C22: for every message `m` and every slice that starts with inline labels
(of 1 to 63 bytes each, any number of them) followed by a compression pointer
`hi lo` to an offset K of the message, when `parseName` on `m.buf[K:]` returns
a name `n`, `parseName` on that slice returns exactly `(n, 2)`: the labels read
before the pointer are not in the name, and the advance is 2 whatever the
number of bytes of the labels. -/
theorem parseName_labels_then_pointer (m : Slice) (labels : List Bytes) (post spare : Bytes)
    (hi lo : Nat) (target : Slice) (n : Bytes) (adv fuelK fuel : Nat)
    (hl : validLabels labels) (hhi : hi &&& 0xC0 = 0xC0) (hlo : lo < 256)
    (htarget : m.sliceFrom ((hi * 256 + lo) &&& 0x3FFF) = .ok target)
    (hK : parseName m fuelK target = .ok (n, adv))
    (hf : labels.length + 1 + fuelK ≤ fuel) :
    parseName m fuel ⟨encodeLabels labels ++ hi :: lo :: post, spare⟩ = .ok (n, 2) := by
  obtain ⟨k, rfl⟩ : ∃ k, fuel = (fuelK + k + 1) + labels.length :=
    ⟨fuel - (labels.length + 1 + fuelK), by omega⟩
  have h1 := parseNameLoop_labels m (hi :: lo :: post) spare labels [] [] (fuelK + k + 1) hl
  simp only [List.nil_append, List.length_nil, Nat.zero_add] at h1
  have h2 := parseNameLoop_pointer m (fuelK + k) (encodeLabels labels) post spare
    (dotted labels) hi lo hhi hlo
  have hK2 : parseNameLoop m fuelK target [] 0 = .ok (n, adv) := hK
  have h3 : parseNameLoop m (fuelK + k) target [] 0 = .ok (n, adv) := by
    rw [parseNameLoop_mono m fuelK k target [] 0 (by rw [hK2]; simp), hK2]
  unfold parseName
  rw [h1, h2, htarget]
  simp only [Run.ok_bind, h3, Run.pure_eq]

/-- C22, witness: in `labelPointerResponse` the name at offset 21 is the label
`a` followed by a pointer to offset 12, where `parseName` returns `com.` with
advance 5; at offset 21 it returns `com.` with advance 2. -/
theorem parseName_labels_then_pointer_witness :
    parseName ⟨labelPointerResponse, []⟩ 4
        ⟨encodeLabels [[97]] ++ 0xC0 :: 0x0C :: labelPointerResponse.drop 25, []⟩
      = .ok ([99, 111, 109, 46], 2) :=
  parseName_labels_then_pointer ⟨labelPointerResponse, []⟩ [[97]]
    (labelPointerResponse.drop 25) [] 0xC0 0x0C ⟨labelPointerResponse.drop 12, []⟩
    [99, 111, 109, 46] 5 2 4 (by decide) (by decide) (by decide) (by decide) (by decide)
    (by decide)

/-- C23: for every string `s` and every Type and Class, `strings.Split` gives
for `s` followed by a dot the pieces of `s` and one more, empty, piece, which
`encodeQuestion` writes as a zero octet; so the encoding of the FQDN `s.` is
the encoding of the FQDN `s` with one zero octet inserted in front of QTYPE
(in front of its last 4 bytes), and its QNAME ends in two zero octets. -/
theorem encodeQuestion_trailing_dot (s : Bytes) (typ cls : Nat) :
    stringsSplit (s ++ [dot]) = stringsSplit s ++ [[]]
      ∧ encodeQuestion ⟨s, typ, cls⟩
        = encodeLabels (stringsSplit s) ++ [0]
            ++ (binaryBigEndianUint16 typ ++ binaryBigEndianUint16 cls)
      ∧ encodeQuestion ⟨s ++ [dot], typ, cls⟩
        = encodeLabels (stringsSplit s) ++ [0, 0]
            ++ (binaryBigEndianUint16 typ ++ binaryBigEndianUint16 cls)
      ∧ encodeQuestion ⟨s ++ [dot], typ, cls⟩
        = (encodeQuestion ⟨s, typ, cls⟩).take ((encodeQuestion ⟨s, typ, cls⟩).length - 4)
            ++ 0 :: (encodeQuestion ⟨s, typ, cls⟩).drop
              ((encodeQuestion ⟨s, typ, cls⟩).length - 4) := by
  have h1 : encodeQuestion ⟨s, typ, cls⟩
      = (encodeLabels (stringsSplit s) ++ [0])
          ++ (binaryBigEndianUint16 typ ++ binaryBigEndianUint16 cls) := by
    simp [encodeQuestion]
  have h2 : encodeQuestion ⟨s ++ [dot], typ, cls⟩
      = (encodeLabels (stringsSplit s) ++ [0])
          ++ 0 :: (binaryBigEndianUint16 typ ++ binaryBigEndianUint16 cls) := by
    simp [encodeQuestion, stringsSplit_append_dot, encodeLabels_append, encodeLabels]
  have hlen : (encodeQuestion ⟨s, typ, cls⟩).length - 4
      = (encodeLabels (stringsSplit s) ++ [0]).length := by
    rw [h1]
    simp [binaryBigEndianUint16]
  refine ⟨stringsSplit_append_dot s, h1, ?_, ?_⟩
  · rw [h2]
    simp
  · rw [hlen, h1, List.take_left, List.drop_left, h2]

/-- C23, witness: `example.com.` is encoded as `example.com` with a zero octet
in front of QTYPE. -/
theorem encodeQuestion_trailing_dot_witness :
    encodeQuestion ⟨exampleName ++ [dot], A, IN⟩
      = [7, 101, 120, 97, 109, 112, 108, 101, 3, 99, 111, 109, 0, 0, 0, 1, 0, 1]
        ∧ encodeQuestion ⟨exampleName, A, IN⟩
      = [7, 101, 120, 97, 109, 112, 108, 101, 3, 99, 111, 109, 0, 0, 1, 0, 1] :=
  ⟨(encodeQuestion_trailing_dot exampleName A IN).2.2.1.trans (by decide), by decide⟩

/-- C24: for every buffer on which `parseMessage` returns, its error is nil;
so `Lookup` returns an error exactly when `lookup`, the HTTPS exchange, returns
that error (with nil records), and that error is the one of the construction
of the request, or the one of the transport, or `unexpected status code` for a
status other than 200, or the one of the read of the body. -/
theorem lookup_errors_from_exchange (net : Network) (r : Resolver) (q : Question)
    (fuel : Nat) :
    (∀ m rs e, parseMessage m fuel = .ok (rs, e) → e = none)
      ∧ (∀ rs err, (r.Lookup net fuel q).2 = .ok (rs, some err) ↔
          rs = [] ∧ (r.lookup net (encodeMessage [q])).2 = .error err)
      ∧ (∀ err, (r.lookup net (encodeMessage [q])).2 = .error err →
          net.requestError (ascii "POST") r.url = some err
            ∨ net.Do (r.client.getD Client.DefaultClient) (r.request (encodeMessage [q]))
                = .error err
            ∨ ∃ resp, net.Do (r.client.getD Client.DefaultClient)
                  (r.request (encodeMessage [q])) = .ok resp
                ∧ ((resp.StatusCode ≠ 200
                    ∧ err = "unexpected status code: " ++ toString resp.StatusCode)
                  ∨ resp.Body = .error err)) := by
  have hclient : (if r.client = none then { r with client := some Client.DefaultClient }
      else r).client.getD Client.DefaultClient = r.client.getD Client.DefaultClient := by
    split
    · rename_i h; simp [h]
    · rfl
  refine ⟨fun m rs e h => parseMessage_error_nil m fuel rs e h, ?_, ?_⟩
  · intro rs err
    unfold Resolver.Lookup
    cases hl : r.lookup net (encodeMessage [q]) with
    | mk r2 res =>
      cases res with
      | error e =>
        simp only [Run.ok.injEq, Prod.mk.injEq, Option.some.injEq, Except.error.injEq]
        constructor
        · rintro ⟨h1, h2⟩
          exact ⟨h1.symm, h2⟩
        · rintro ⟨h1, h2⟩
          exact ⟨h1.symm, h2⟩
      | ok msg =>
        simp only
        constructor
        · intro h
          have := parseMessage_error_nil msg fuel rs (some err) h
          cases this
        · rintro ⟨_, h⟩
          cases h
  · intro err
    unfold Resolver.lookup
    cases hreq : net.requestError (ascii "POST") r.url with
    | some e =>
      simp only [Except.error.injEq]
      intro h
      exact Or.inl (by rw [h])
    | none =>
      simp only [hclient]
      cases hdo : net.Do (r.client.getD Client.DefaultClient) (r.request (encodeMessage [q])) with
      | error e =>
        simp only [Except.error.injEq]
        intro h
        exact Or.inr (Or.inl (by rw [h]))
      | ok resp =>
        by_cases hs : resp.StatusCode = 200
        · cases hb : resp.Body with
          | error e =>
            simp only [hs, hb, ne_eq, not_true_eq_false, if_false, Except.error.injEq]
            intro h
            exact Or.inr (Or.inr ⟨resp, rfl, Or.inr (by rw [hb, h])⟩)
          | ok b =>
            simp only [hs, hb, ne_eq, not_true_eq_false, if_false]
            intro h
            cases h
        · simp only [ne_eq, hs, not_false_eq_true, if_true, Except.error.injEq]
          intro h
          exact Or.inr (Or.inr ⟨resp, rfl, Or.inl ⟨hs, h.symm⟩⟩)

/-- C24, witness: on a network that refuses the connection `Lookup` returns
the error of the transport, and on a network that answers with the response
`exampleResponse` it returns the record with a nil error. -/
theorem lookup_errors_from_exchange_witness :
    ((New GoogleHost []).Lookup refusingNetwork 3 exampleQuestion).2
        = .ok ([], some "connection refused")
      ∧ ((New GoogleHost []).Lookup (answeringNetwork exampleResponse) 3 exampleQuestion).2
        = .ok ([⟨exampleName ++ [dot], A, IN, 300, [0x93, 0xB8, 0xD8, 0x22]⟩], none) :=
  ⟨((lookup_errors_from_exchange refusingNetwork (New GoogleHost []) exampleQuestion 3).2.1
      [] "connection refused").2 ⟨rfl, rfl⟩,
    by decide⟩

end Donut
